import Mathlib

/-!
# plasma: item codec, page-chain iterators, page iterator and chain disposal

A shallow embedding of `src/plasma/item.go`, `src/plasma/iterator.go`,
`src/plasma/page_alloc.go` and `src/plasma/util.go`, followed by theorems about the
embedded code.

Conventions of the embedding.

* Memory reached through an `*item` is a list of bytes, offset `0` being the
  address the pointer holds.  Multi-byte integers are stored little-endian.
* Go `int`/`uintptr` lengths are natural numbers; the conversions `uint32(..)`
  are written `% 2 ^ 32`, a stored `uint64` is reduced `% 2 ^ 64` by the store.
* The `int` that accumulates flushed bytes wraps at 64 bits (`wrapInt64`).
* A run-time panic (index out of range, a method of a nil interface) is the result `none`.
* Pointers to chain nodes are the nodes they point to; where the identity of a node matters
  (`destroyPg`) every node carries its address.
* Functions that loop or recurse without a syntactic bound take a `fuel`
  argument and return `none` when it is used up.
-/

namespace Plasma

/-! ## Bytes and raw memory -/

abbrev Byte := Fin 256

/-- The byte stored at offset `p`; memory past the end of the list reads as zero. -/
def byteAt (mem : List Byte) (p : Nat) : Nat := (mem.getD p 0).val

/-- A little-endian unsigned load of `w` bytes at offset `p`. -/
def loadLE (mem : List Byte) (p : Nat) : Nat → Nat
  | 0 => 0
  | w + 1 => byteAt mem p + 256 * loadLE mem (p + 1) w

/-- The `w` little-endian bytes of `x` (the value is truncated to `w` bytes). -/
def leBytes : Nat → Nat → List Byte
  | 0, _ => []
  | w + 1, x => ⟨x % 256, Nat.mod_lt _ (by decide)⟩ :: leBytes w (x / 256)

/-- Overwrite the bytes at offsets `off .. off + bs.length`. -/
def writeAt (mem : List Byte) (off : Nat) (bs : List Byte) : List Byte :=
  mem.take off ++ bs ++ mem.drop (off + bs.length)

/-- The function `memcopy(dst, src, sz)` of `util.go`: copy `sz` bytes of `src` to offset `dst`. -/
def memcopy (mem : List Byte) (dst : Nat) (src : List Byte) (sz : Nat) : List Byte :=
  writeAt mem dst (src.take sz)

/-! ## item.go -/

def itmInsertMask : Nat := 0x80000000
def itmHasValMask : Nat := 0x40000000
def itmLenMask : Nat := 0x3fffffff
def itmHdrLen : Nat := 4
def itmSnSize : Nat := 8
def itmKlenSize : Nat := 4

namespace item

/-- The 32-bit header word `*itm`. -/
def hdr (itm : List Byte) : Nat := loadLE itm 0 4

def IsInsert (itm : List Byte) : Bool := decide (itmInsertMask &&& hdr itm > 0)

def HasValue (itm : List Byte) : Bool := decide (itmHasValMask &&& hdr itm > 0)

def l (itm : List Byte) : Nat := itmLenMask &&& hdr itm

def Size (itm : List Byte) : Nat := l itm + itmHdrLen + itmSnSize

/-- The pair `(kptr, klen)`, the pointer being an offset from the item pointer. -/
def k (itm : List Byte) : Nat × Nat :=
  let basePtr := itmHdrLen
  if HasValue itm then
    (basePtr + itmKlenSize, loadLE itm basePtr 4)
  else
    (basePtr, l itm)

def Sn (itm : List Byte) : Nat :=
  let (kptr, klen) := k itm
  loadLE itm (kptr + klen) 8

def Key (itm : List Byte) : List Byte :=
  let (kptr, klen) := k itm
  (itm.drop kptr).take klen

/-- The `Len` field that `Value` stores in the slice header: `l - klen - itmKlenSize`. -/
def ValueLen (itm : List Byte) : Int :=
  let (_, klen) := k itm
  (l itm : Int) - klen - itmKlenSize

/-- The `Data` field that `Value` stores in the slice header, as an offset. -/
def ValueData (itm : List Byte) : Nat :=
  let (kptr, klen) := k itm
  kptr + klen + itmSnSize

/-- The bytes of the slice `Value()` returns; a slice of non-positive length has no bytes. -/
def Value (itm : List Byte) : List Byte :=
  (itm.drop (ValueData itm)).take (ValueLen itm).toNat

end item

/-- Modelled from the spec: the byte allocator `alloc(size)` is declared outside the sources;
it returns a fresh region of `sz` bytes, whose initial contents are taken to be zero. -/
def alloc (sz : Nat) : List Byte := List.replicate sz 0

/-- The function `newItem(k, v, sn, del, buf)`.  A nil slice and an empty slice both have
length zero, so a value is a list of bytes and the absent value is `[]`; `buf = none` is the
nil buffer.  The result is the memory at the returned pointer.  With a caller buffer the raw
writes may run past `len(buf)`: the bytes that follow the buffer in memory are appended
(as zeros) so that every offset below `sz` exists.  `&buf[0]` and `&k[0]` panic on an empty
slice. -/
def newItem (k v : List Byte) (sn : Nat) (del : Bool) (buf : Option (List Byte)) :
    Option (List Byte) :=
  let kl := k.length
  let vl := v.length
  let sz := itmHdrLen + itmSnSize + kl + vl + (if vl > 0 then itmKlenSize else 0)
  let ptr : Option (List Byte) :=
    match buf with
    | none => some (alloc sz)
    | some b => if b.length = 0 then none else some (b ++ List.replicate (sz - b.length) 0)
  match ptr with
  | none => none
  | some mem =>
    let hdr := 0
    let hdr := if !del then hdr ||| itmInsertMask else hdr
    if vl > 0 then
      let hdr := hdr ||| (itmHasValMask ||| ((vl + kl + itmKlenSize) % 2 ^ 32))
      let mem := writeAt mem 0 (leBytes 4 hdr)
      let mem := writeAt mem itmHdrLen (leBytes 4 (kl % 2 ^ 32))
      let mem := writeAt mem (itmHdrLen + itmKlenSize + kl) (leBytes 8 sn)
      if kl = 0 then none else
      let mem := memcopy mem (itmHdrLen + itmKlenSize) k kl
      let mem := memcopy mem (itmHdrLen + itmKlenSize + itmSnSize + kl) v vl
      some mem
    else
      let mem := writeAt mem (itmHdrLen + kl) (leBytes 8 sn)
      let hdr := hdr ||| (kl % 2 ^ 32)
      let mem := writeAt mem 0 (leBytes 4 hdr)
      if kl = 0 then none else
      let mem := memcopy mem itmHdrLen k kl
      some mem

/-- The standard library's `bytes.Compare`: lexicographic comparison of byte strings by
unsigned byte value, with result `-1`, `0` or `1`. -/
def bytesCompare : List Byte → List Byte → Int
  | [], [] => 0
  | [], _ :: _ => -1
  | _ :: _, [] => 1
  | a :: as, b :: bs => if a < b then -1 else if b < a then 1 else bytesCompare as bs

/-- Modelled from the spec: the sentinels `skiplist.MinItem` and `skiplist.MaxItem` are
declared outside the sources; they are two distinguished pointers of the ordered index,
different from the pointer of every real item.  An `unsafe.Pointer` handed to the comparator
is one of the two sentinels or a pointer to the memory of a real item. -/
inductive ItemPtr where
  | MinItem : ItemPtr
  | MaxItem : ItemPtr
  | real (itm : List Byte) : ItemPtr
  deriving DecidableEq

def cmpItem (a b : ItemPtr) : Int :=
  if a = ItemPtr.MinItem ∨ b = ItemPtr.MaxItem then -1
  else if a = ItemPtr.MaxItem ∨ b = ItemPtr.MinItem then 1
  else
    match a, b with
    | ItemPtr.real itma, ItemPtr.real itmb => bytesCompare (item.Key itma) (item.Key itmb)
    | _, _ => 0

/-- The header word `newItem` stores for an item without a value. -/
def hdrNoVal (kl : Nat) (del : Bool) : Nat :=
  (if !del then 0 ||| itmInsertMask else 0) ||| (kl % 2 ^ 32)

/-- The header word `newItem` stores for an item with a value. -/
def hdrVal (kl vl : Nat) (del : Bool) : Nat :=
  (if !del then 0 ||| itmInsertMask else 0)
    ||| (itmHasValMask ||| ((vl + kl + itmKlenSize) % 2 ^ 32))

/-- The encoded length `L` of the header: `len(k)`, or `len(k) + len(v) + 4` with a value. -/
def encLen (k v : List Byte) : Nat :=
  if v.length > 0 then v.length + k.length + itmKlenSize else k.length


/-! ## Page chains

The declarations of the chain nodes are not among the sources; the nodes are modelled as a
tagged variant carrying the fields the code reads: `op`, `next`, the item of a record delta,
the `itm` of a split delta, the `mergeSibling` of a merge delta, the `flushDataSz` of a flush
or reloc delta, the `items` of a base page and the `ptr` of a swap-in delta.  The type `α` is
the type of item pointers. -/

/-- A chain of deltas, `nil` being the nil pointer.  A base page is a terminator: neither
`newPgOpIterator` nor `destroyPg` reads its `next`. -/
inductive pageDelta (α : Type) where
  | nil : pageDelta α
  | opInsertDelta (itm : α) (next : pageDelta α) : pageDelta α
  | opDeleteDelta (itm : α) (next : pageDelta α) : pageDelta α
  | opBasePage (items : List α) : pageDelta α
  | opPageSplitDelta (itm : α) (next : pageDelta α) : pageDelta α
  | opPageMergeDelta (mergeSibling : pageDelta α) (next : pageDelta α) : pageDelta α
  | opFlushPageDelta (flushDataSz : Int) (next : pageDelta α) : pageDelta α
  | opRelocPageDelta (flushDataSz : Int) (next : pageDelta α) : pageDelta α
  | opPageRemoveDelta (next : pageDelta α) : pageDelta α
  | opRollbackDelta (next : pageDelta α) : pageDelta α
  | opMetaDelta (next : pageDelta α) : pageDelta α
  | opSwapoutDelta (next : pageDelta α) : pageDelta α
  | opSwapinDelta (ptr : pageDelta α) (next : pageDelta α) : pageDelta α
  deriving DecidableEq

/-- Modelled from the spec: the `PageItem` view of a record delta, whose methods `Item()` and
`IsInsert()` are declared outside the sources.  `Item()` is the item the delta carries and
`IsInsert()` is the insert/delete bit the delta is tagged with: set for an `Insert` delta,
clear for a `Delete` delta. -/
structure PageItem (α : Type) where
  itm : α
  isInsert : Bool
  deriving DecidableEq

def PageItem.Item {α : Type} (x : PageItem α) : α := x.itm

def PageItem.IsInsert {α : Type} (x : PageItem α) : Bool := x.isInsert

/-- The four implementations of the interface `pgOpIterator`, with their fields.  The
comparator field `cmp` is the one function handed to `newPgOpIterator`; the operations take
it as an argument.  The field `lastIt` of the merge iterator aliases `itrs[0]` or `itrs[1]`
and is the index of the aliased iterator; `pdJoinIterator.i` only takes the values 0 and 1. -/
inductive pgOpIterator (α : Type) where
  | pdIterator (deltas : List (PageItem α)) (i : Nat) : pgOpIterator α
  | basePgIterator (low high : α) (items : List α) (i j : Nat) : pgOpIterator α
  | pdJoinIterator (itrs0 itrs1 : pgOpIterator α) (i : Fin 2) : pgOpIterator α
  | pdMergeIterator (itrs0 itrs1 : pgOpIterator α) (lastIt : Option (Fin 2))
      (doDedup : Bool) : pgOpIterator α
  deriving DecidableEq

/-- The loop of the standard library's `sort.Search`: binary search on `[i, j)`. -/
def searchLoop (f : Nat → Option Bool) : Nat → Nat → Nat → Option Nat
  | 0, i, j => if i < j then none else some i
  | fuel + 1, i, j =>
    if i < j then
      let h := (i + j) / 2
      match f h with
      | none => none
      | some false => searchLoop f fuel (h + 1) j
      | some true => searchLoop f fuel i h
    else some i

/-- The standard library's `sort.Search(n, f)`.  The interval at least halves in every
round, so `n` rounds are enough (`sortSearch_isSome`). -/
def sortSearch (n : Nat) (f : Nat → Option Bool) : Option Nat := searchLoop f n 0 n

/-- Insert `x` in front of the first element that is not `less` than `x`. -/
def stableInsert {β : Type} (less : β → β → Bool) (x : β) : List β → List β
  | [] => [x]
  | b :: l => if less b x then b :: stableInsert less x l else x :: b :: l

/-- The standard library's `sort.Stable`, as the stable insertion sort: the sorted list in
which elements that are not `less` than one another keep their order. -/
def sortStable {β : Type} (less : β → β → Bool) : List β → List β
  | [] => []
  | a :: l => stableInsert less a (sortStable less l)

/-- The method `pageItemSorter.Run` of `util.go`, with `Less(i, j)` being
`cmp(itms[i].Item(), itms[j].Item()) < 0`. -/
def pageItemSorter.Run {α : Type} (cmp : α → α → Int) (itms : List (PageItem α)) :
    List (PageItem α) :=
  sortStable (fun x y => decide (cmp x.Item y.Item < 0)) itms

namespace pgOpIterator

variable {α : Type}

def Valid : pgOpIterator α → Bool
  | pdIterator deltas i => decide (i < deltas.length)
  | basePgIterator _ _ _ i j => decide (i < j)
  | pdJoinIterator itrs0 itrs1 i => if i = 0 then Valid itrs0 else Valid itrs1
  | pdMergeIterator itrs0 itrs1 _ _ => Valid itrs0 || Valid itrs1

/-- The method `Get`.  The pointer of the result may be nil (`none`), which is what the merge
iterator returns while `lastIt` is nil; indexing outside a slice panics. -/
def Get : pgOpIterator α → Option (Option α × Bool)
  | pdIterator deltas i =>
    match deltas[i]? with
    | some d => some (some d.Item, d.IsInsert)
    | none => none
  | basePgIterator _ _ items i _ =>
    match items[i]? with
    | some x => some (some x, true)
    | none => none
  | pdJoinIterator itrs0 itrs1 i => if i = 0 then Get itrs0 else Get itrs1
  | pdMergeIterator itrs0 itrs1 lastIt _ =>
    match lastIt with
    | none => some (none, false)
    | some c => if c = 0 then Get itrs0 else Get itrs1

/-- The call `pdm.cmp(itm0, itm1)`: the comparator reads through both pointers, so a nil
pointer is a fault. -/
def cmpPtr (cmp : α → α → Int) : Option α → Option α → Option Int
  | some a, some b => some (cmp a b)
  | _, _ => none

/-- The first part of `pdMergeIterator.fetchMin`: the choice of `lastIt`.  The argument `next`
is the method `Next` of the sub-iterators. -/
def pickMin (cmp : α → α → Int) (next : pgOpIterator α → Option (pgOpIterator α))
    (itrs0 itrs1 : pgOpIterator α) (lastIt : Option (Fin 2)) (doDedup : Bool) :
    Option (pgOpIterator α) :=
  let valid1 := Valid itrs0
  let valid2 := Valid itrs1
  if valid1 && valid2 then
    match Get itrs0, Get itrs1 with
    | some (itm0, _), some (itm1, _) =>
      match cmpPtr cmp itm0 itm1 with
      | none => none
      | some cmpv =>
        if cmpv < 0 then some (pdMergeIterator itrs0 itrs1 (some 0) doDedup)
        else if cmpv = 0 then
          match next itrs1 with
          | none => none
          | some itrs1 => some (pdMergeIterator itrs0 itrs1 (some 0) doDedup)
        else some (pdMergeIterator itrs0 itrs1 (some 1) doDedup)
    | _, _ => none
  else if valid1 then some (pdMergeIterator itrs0 itrs1 (some 0) doDedup)
  else if valid2 then some (pdMergeIterator itrs0 itrs1 (some 1) doDedup)
  else some (pdMergeIterator itrs0 itrs1 lastIt doDedup)

/-- The second part of `pdMergeIterator.fetchMin`, the block `// Skiplist delete deltas`.
The argument `next` is the method `Next` of the merge iterator; calling `Get` through a nil
`lastIt` panics. -/
def skipDeleted (next : pgOpIterator α → Option (pgOpIterator α)) :
    pgOpIterator α → Option (pgOpIterator α)
  | pdMergeIterator itrs0 itrs1 lastIt doDedup =>
    if doDedup && Valid (pdMergeIterator itrs0 itrs1 lastIt doDedup) then
      match lastIt with
      | none => none
      | some c =>
        match (if c = 0 then Get itrs0 else Get itrs1) with
        | none => none
        | some (_, ok) =>
          if !ok then next (pdMergeIterator itrs0 itrs1 lastIt doDedup)
          else some (pdMergeIterator itrs0 itrs1 lastIt doDedup)
    else some (pdMergeIterator itrs0 itrs1 lastIt doDedup)
  | _ => none

/-- The methods `Next` (`op = false`) of the four iterators and `pdMergeIterator.fetchMin`
(`op = true`, on a merge iterator), which call one another. -/
def step (cmp : α → α → Int) : Nat → Bool → pgOpIterator α → Option (pgOpIterator α)
  | 0, _, _ => none
  | _ + 1, false, pdIterator deltas i => some (pdIterator deltas (i + 1))
  | _ + 1, false, basePgIterator low high items i j =>
    some (basePgIterator low high items (i + 1) j)
  | fuel + 1, false, pdJoinIterator itrs0 itrs1 i =>
    if i = 0 then
      match step cmp fuel false itrs0 with
      | none => none
      | some itrs0 =>
        if !Valid itrs0 then some (pdJoinIterator itrs0 itrs1 1)
        else some (pdJoinIterator itrs0 itrs1 0)
    else
      match step cmp fuel false itrs1 with
      | none => none
      | some itrs1 => some (pdJoinIterator itrs0 itrs1 i)
  | fuel + 1, false, pdMergeIterator itrs0 itrs1 lastIt doDedup =>
    if Valid (pdMergeIterator itrs0 itrs1 lastIt doDedup) then
      match lastIt with
      | none => none
      | some c =>
        if c = 0 then
          match step cmp fuel false itrs0 with
          | none => none
          | some itrs0 => step cmp fuel true (pdMergeIterator itrs0 itrs1 lastIt doDedup)
        else
          match step cmp fuel false itrs1 with
          | none => none
          | some itrs1 => step cmp fuel true (pdMergeIterator itrs0 itrs1 lastIt doDedup)
    else some (pdMergeIterator itrs0 itrs1 lastIt doDedup)
  | fuel + 1, true, pdMergeIterator itrs0 itrs1 lastIt doDedup =>
    match pickMin cmp (fun it => step cmp fuel false it) itrs0 itrs1 lastIt doDedup with
    | none => none
    | some pdm => skipDeleted (fun it => step cmp fuel false it) pdm
  | _ + 1, true, _ => none

/-- The method `Next`. -/
def Next (cmp : α → α → Int) (fuel : Nat) (it : pgOpIterator α) : Option (pgOpIterator α) :=
  step cmp fuel false it

/-- The method `pdMergeIterator.fetchMin`. -/
def fetchMin (cmp : α → α → Int) (fuel : Nat) (it : pgOpIterator α) :
    Option (pgOpIterator α) :=
  step cmp fuel true it

/-- The method `Init`. -/
def Init (cmp : α → α → Int) (fuel : Nat) : pgOpIterator α → Option (pgOpIterator α)
  | pdIterator deltas i => some (pdIterator deltas i)
  | basePgIterator low high items _ _ =>
    let n := items.length
    match sortSearch n (fun i => (items[i]?).map (fun x => decide (cmp x low ≥ 0))),
      sortSearch n (fun i => (items[i]?).map (fun x => decide (cmp x high ≥ 0))) with
    | some i, some j => some (basePgIterator low high items i j)
    | _, _ => none
  | pdJoinIterator itrs0 itrs1 i =>
    match Init cmp fuel itrs0, Init cmp fuel itrs1 with
    | some itrs0, some itrs1 => some (pdJoinIterator itrs0 itrs1 i)
    | _, _ => none
  | pdMergeIterator itrs0 itrs1 lastIt doDedup =>
    match Init cmp fuel itrs0, Init cmp fuel itrs1 with
    | some itrs0, some itrs1 => fetchMin cmp fuel (pdMergeIterator itrs0 itrs1 lastIt doDedup)
    | _, _ => none

end pgOpIterator

/-- The wrap-around of a 64-bit `int` addition. -/
def wrapInt64 (x : Int) : Int := (x + 2 ^ 63) % 2 ^ 64 - 2 ^ 63

/-- The local variables of `newPgOpIterator` when its first loop ends: `steps` is the number
of nodes between `startPd` and the node `pd` the loop stopped at. -/
structure walkState (α : Type) where
  hasReloc : Bool
  fdSz : Int
  high : α
  pdCount : Nat
  steps : Nat
  itrs1 : Option (pgOpIterator α)

/-- The second loop of `newPgOpIterator`: the record deltas among the first `steps` nodes
whose item lies in `[low, high)`, in chain order. -/
def collectDeltas {α : Type} (cmp : α → α → Int) (low high : α) :
    Nat → pageDelta α → List (PageItem α)
  | 0, _ => []
  | n + 1, pageDelta.opInsertDelta itm next =>
    if cmp itm high < 0 ∧ cmp itm low ≥ 0 then
      ⟨itm, true⟩ :: collectDeltas cmp low high n next
    else collectDeltas cmp low high n next
  | n + 1, pageDelta.opDeleteDelta itm next =>
    if cmp itm high < 0 ∧ cmp itm low ≥ 0 then
      ⟨itm, false⟩ :: collectDeltas cmp low high n next
    else collectDeltas cmp low high n next
  | _ + 1, pageDelta.nil => []
  | _ + 1, pageDelta.opBasePage _ => []
  | n + 1, pageDelta.opPageSplitDelta _ next => collectDeltas cmp low high n next
  | n + 1, pageDelta.opPageMergeDelta _ next => collectDeltas cmp low high n next
  | n + 1, pageDelta.opFlushPageDelta _ next => collectDeltas cmp low high n next
  | n + 1, pageDelta.opRelocPageDelta _ next => collectDeltas cmp low high n next
  | n + 1, pageDelta.opPageRemoveDelta next => collectDeltas cmp low high n next
  | n + 1, pageDelta.opRollbackDelta next => collectDeltas cmp low high n next
  | n + 1, pageDelta.opMetaDelta next => collectDeltas cmp low high n next
  | n + 1, pageDelta.opSwapoutDelta next => collectDeltas cmp low high n next
  | n + 1, pageDelta.opSwapinDelta _ next => collectDeltas cmp low high n next

/-- The part of `newPgOpIterator` after its first loop: build the delta run, sort it, and
assemble the merge iterator. -/
def assemble {α : Type} (cmp : α → α → Int) (startPd : pageDelta α) (low : α)
    (doDedup : Bool) (st : walkState α) : pgOpIterator α × Int :=
  let deltas : List (PageItem α) :=
    if st.pdCount > 0 then
      pageItemSorter.Run cmp (collectDeltas cmp low st.high st.steps startPd)
    else []
  let itrs0 := pgOpIterator.pdIterator deltas 0
  let itrs1 :=
    match st.itrs1 with
    | some it => it
    | none => pgOpIterator.pdIterator [] 0
  (pgOpIterator.pdMergeIterator itrs0 itrs1 none doDedup, st.fdSz)

/-- The first loop of `newPgOpIterator`, entered at node `pd` with the local variables `st`.
At a merge delta the two recursive calls of `newPgOpIterator` are the first loop and
`assemble` run on `pd.next` and on the merge sibling. -/
def walk {α : Type} (cmp : α → α → Int) (low : α) : pageDelta α → walkState α → walkState α
  | pageDelta.nil, st => st
  | pageDelta.opRelocPageDelta flushDataSz next, st =>
    let st := if !st.hasReloc then { st with fdSz := flushDataSz, hasReloc := true } else st
    walk cmp low next { st with steps := st.steps + 1 }
  | pageDelta.opFlushPageDelta flushDataSz next, st =>
    let st := if !st.hasReloc then { st with fdSz := wrapInt64 (st.fdSz + flushDataSz) } else st
    walk cmp low next { st with steps := st.steps + 1 }
  | pageDelta.opPageSplitDelta itm next, st =>
    walk cmp low next { st with high := itm, steps := st.steps + 1 }
  | pageDelta.opPageMergeDelta mergeSibling next, st =>
    let (deltaItr, fdSz1) :=
      assemble cmp next low false (walk cmp low next ⟨false, 0, st.high, 0, 0, none⟩)
    let (mergeItr, fdSz2) :=
      assemble cmp mergeSibling low true
        (walk cmp low mergeSibling ⟨false, 0, st.high, 0, 0, none⟩)
    let st :=
      if !st.hasReloc then { st with fdSz := wrapInt64 (st.fdSz + wrapInt64 (fdSz1 + fdSz2)) }
      else st
    { st with itrs1 := some (pgOpIterator.pdJoinIterator deltaItr mergeItr 0) }
  | pageDelta.opBasePage items, st =>
    { st with itrs1 := some (pgOpIterator.basePgIterator low st.high items 0 0) }
  | pageDelta.opInsertDelta _ next, st =>
    walk cmp low next { st with pdCount := st.pdCount + 1, steps := st.steps + 1 }
  | pageDelta.opDeleteDelta _ next, st =>
    walk cmp low next { st with pdCount := st.pdCount + 1, steps := st.steps + 1 }
  | pageDelta.opPageRemoveDelta next, st => walk cmp low next { st with steps := st.steps + 1 }
  | pageDelta.opRollbackDelta next, st => walk cmp low next { st with steps := st.steps + 1 }
  | pageDelta.opMetaDelta next, st => walk cmp low next { st with steps := st.steps + 1 }
  | pageDelta.opSwapoutDelta next, st => walk cmp low next { st with steps := st.steps + 1 }
  | pageDelta.opSwapinDelta _ next, st => walk cmp low next { st with steps := st.steps + 1 }

/-- The function `newPgOpIterator(pd, cmp, low, high, doDedup)`, returning the iterator and
`fdSz`. -/
def newPgOpIterator {α : Type} (cmp : α → α → Int) (pd : pageDelta α) (low high : α)
    (doDedup : Bool) : pgOpIterator α × Int :=
  assemble cmp pd low doDedup (walk cmp low pd ⟨false, 0, high, 0, 0, none⟩)

/-- The caller's loop `for itr.Init(); itr.Valid(); itr.Next() { itr.Get() }` over an
iterator that has been initialised: the list of the results of `Get`. -/
def drain {α : Type} (cmp : α → α → Int) :
    Nat → pgOpIterator α → Option (List (Option α × Bool))
  | 0, _ => none
  | fuel + 1, it =>
    if it.Valid then
      match it.Get, it.Next cmp fuel with
      | some x, some it => (drain cmp fuel it).map (fun xs => x :: xs)
      | _, _ => none
    else some []

/-- Build the iterator of a chain, initialise it and read it to the end. -/
def iterate {α : Type} (cmp : α → α → Int) (fuel : Nat) (pd : pageDelta α) (low high : α)
    (doDedup : Bool) : Option (List (Option α × Bool)) :=
  match (newPgOpIterator cmp pd low high doDedup).1.Init cmp fuel with
  | none => none
  | some it => drain cmp fuel it

/-! ## The sequence an iterator stands for

List-level counterparts of the iterator states, used to state and prove what the iterators
emit. -/

/-- The results `(Item(), IsInsert())` of a run of record deltas. -/
def pairs {α : Type} (l : List (PageItem α)) : List (α × Bool) :=
  l.map (fun d => (d.Item, d.IsInsert))

/-- The merge rule of `fetchMin` on two sequences: the smaller head goes first, and on equal
keys the head of the first sequence is emitted and the head of the second is dropped. -/
def mergeShadow {α : Type} (cmp : α → α → Int) :
    List (α × Bool) → List (α × Bool) → List (α × Bool)
  | [], ys => ys
  | x :: xs, [] => x :: xs
  | x :: xs, y :: ys =>
    if cmp x.1 y.1 < 0 then x :: mergeShadow cmp xs (y :: ys)
    else if cmp x.1 y.1 = 0 then x :: mergeShadow cmp xs ys
    else y :: mergeShadow cmp (x :: xs) ys
termination_by xs ys => xs.length + ys.length

/-- With dedup on, the entries whose flag is clear are dropped. -/
def dedupFilter {α : Type} (doDedup : Bool) (l : List (α × Bool)) : List (α × Bool) :=
  if doDedup then l.filter (fun x => x.2) else l

/-- What the join iterator emits, given what its two sides emit: it sits on side `i`, and a
side 0 that is empty from the start is never left. -/
def joinList {α : Type} (i : Fin 2) (xs ys : List (α × Bool)) : List (α × Bool) :=
  if i = 0 then (match xs with | [] => [] | x :: xs => x :: (xs ++ ys)) else ys

namespace pgOpIterator

variable {α : Type}

/-- Nesting depth of an iterator. -/
def depth : pgOpIterator α → Nat
  | pdIterator _ _ => 0
  | basePgIterator _ _ _ _ _ => 0
  | pdJoinIterator a b _ => max (depth a) (depth b) + 1
  | pdMergeIterator a b _ _ => max (depth a) (depth b) + 1

/-- The results of `Get` still to come from an initialised iterator, the current one first. -/
def den (cmp : α → α → Int) : pgOpIterator α → List (α × Bool)
  | pdIterator deltas i => pairs (deltas.drop i)
  | basePgIterator _ _ items i j => ((items.take j).drop i).map (fun x => (x, true))
  | pdJoinIterator a b i => joinList i (den cmp a) (den cmp b)
  | pdMergeIterator a b lastIt doDedup =>
    match lastIt with
    | none => []
    | some c =>
      if c = 0 then
        match den cmp a with
        | [] => []
        | x :: xs => x :: dedupFilter doDedup (mergeShadow cmp xs (den cmp b))
      else
        match den cmp b with
        | [] => []
        | y :: ys => y :: dedupFilter doDedup (mergeShadow cmp (den cmp a) ys)

/-- The flag of the current result of `Get`, `true` when there is none. -/
def curFlag (it : pgOpIterator α) : Bool :=
  match it.Get with
  | some (_, ok) => ok
  | none => true

/-- The states the operations keep an iterator in: a base-page iterator has its upper index
within the page, and a merge iterator that is valid has `lastIt` on a valid side, whose
current result carries a set flag when dedup is on. -/
def StateOk : pgOpIterator α → Prop
  | pdIterator _ _ => True
  | basePgIterator _ _ items _ j => j ≤ items.length
  | pdJoinIterator a b _ => StateOk a ∧ StateOk b
  | pdMergeIterator a b lastIt doDedup =>
    StateOk a ∧ StateOk b ∧
      ((Valid a || Valid b) = true →
        ∃ c, lastIt = some c ∧ Valid (if c = 0 then a else b) = true
          ∧ (doDedup = true → curFlag (if c = 0 then a else b) = true))

end pgOpIterator

/-- The pointer of a result of `Get` as the interface returns it. -/
def liftPtr {α : Type} (x : α × Bool) : Option α × Bool := (some x.1, x.2)

/-- With enough fuel `Next` returns, and the iterator it returns (the same for every such
fuel) stands for the rest of the sequence. -/
def NextOk {α : Type} (cmp : α → α → Int) (it : pgOpIterator α) : Prop :=
  ∃ (F : Nat) (it' : pgOpIterator α), it'.StateOk ∧ it'.den cmp = (it.den cmp).tail
    ∧ it'.depth = it.depth ∧ ∀ fuel, F ≤ fuel → pgOpIterator.step cmp fuel false it = some it'

/-- With enough fuel `fetchMin` returns, and the merge iterator it returns stands for the
merge of the sequences of the two sides. -/
def FetchOk {α : Type} (cmp : α → α → Int) (a b : pgOpIterator α) (lastIt : Option (Fin 2))
    (doDedup : Bool) : Prop :=
  ∃ (F : Nat) (m : pgOpIterator α), m.StateOk
    ∧ m.den cmp = dedupFilter doDedup (mergeShadow cmp (a.den cmp) (b.den cmp))
    ∧ m.depth = max a.depth b.depth + 1
    ∧ ∀ fuel, F ≤ fuel →
      pgOpIterator.step cmp fuel true (pgOpIterator.pdMergeIterator a b lastIt doDedup) = some m

/-- The index `sort.Search` returns for the predicate `cmp(items[i], bound) >= 0`. -/
def searchGE {α : Type} (cmp : α → α → Int) (items : List α) (bound : α) : Nat :=
  (sortSearch items.length
    (fun i => (items[i]?).map (fun x => decide (cmp x bound ≥ 0)))).getD 0

/-- The sequence an iterator stands for once `Init` has run. -/
def pgOpIterator.initDen {α : Type} (cmp : α → α → Int) : pgOpIterator α → List (α × Bool)
  | pgOpIterator.pdIterator deltas i => pairs (deltas.drop i)
  | pgOpIterator.basePgIterator low high items _ _ =>
    ((items.take (searchGE cmp items high)).drop (searchGE cmp items low)).map
      (fun x => (x, true))
  | pgOpIterator.pdJoinIterator a b i => joinList i (initDen cmp a) (initDen cmp b)
  | pgOpIterator.pdMergeIterator a b _ doDedup =>
    dedupFilter doDedup (mergeShadow cmp (initDen cmp a) (initDen cmp b))

/-- The sequence of `(item, flag)` the iterator of a chain stands for. -/
def emitted {α : Type} (cmp : α → α → Int) (pd : pageDelta α) (low high : α)
    (doDedup : Bool) : List (α × Bool) :=
  (newPgOpIterator cmp pd low high doDedup).1.initDen cmp

/-- The range test of the second loop of `newPgOpIterator`. -/
def inRange {α : Type} (cmp : α → α → Int) (low high : α) (x : α) : Bool :=
  decide (cmp x high < 0 ∧ cmp x low ≥ 0)

/-- The chain made of the record deltas `ds`, the head first, above a base page. -/
def recChain {α : Type} : List (PageItem α) → List α → pageDelta α
  | [], items => pageDelta.opBasePage items
  | d :: ds, items =>
    if d.isInsert then pageDelta.opInsertDelta d.itm (recChain ds items)
    else pageDelta.opDeleteDelta d.itm (recChain ds items)

/-- The comparator `cmp` orders the items of `S` by a key. -/
structure KeyOrd {α κ : Type} [LinearOrder κ] (cmp : α → α → Int) (key : α → κ)
    (S : α → Prop) : Prop where
  lt_iff : ∀ a b, S a → S b → (cmp a b < 0 ↔ key a < key b)
  eq_iff : ∀ a b, S a → S b → (cmp a b = 0 ↔ key a = key b)

/-- On the items of `S`, being at or above `bound` is passed on to larger keys. -/
structure MonoBound {α κ : Type} [LinearOrder κ] (cmp : α → α → Int) (key : α → κ)
    (S : α → Prop) (bound : α) : Prop where
  mono : ∀ a b, S a → S b → key a ≤ key b → cmp a bound ≥ 0 → cmp b bound ≥ 0

/-- The items of the base page that `basePgIterator` ranges over after `Init`. -/
def baseSlice {α : Type} (cmp : α → α → Int) (low high : α) (items : List α) :
    List (α × Bool) :=
  ((items.take (searchGE cmp items high)).drop (searchGE cmp items low)).map
    (fun x => (x, true))

/-- The sorted run of the record deltas that lie in `[low, high)`. -/
def deltaRun {α : Type} (cmp : α → α → Int) (low high : α) (ds : List (PageItem α)) :
    List (PageItem α) :=
  pageItemSorter.Run cmp (ds.filter (fun d => inRange cmp low high d.itm))

/-- The pointer is a pointer to a real item, not a sentinel. -/
def ItemPtr.isReal : ItemPtr → Bool
  | ItemPtr.real _ => true
  | _ => false

/-- The key of a real item; a sentinel has none and is given the empty key. -/
def keyOf : ItemPtr → List Byte
  | ItemPtr.real itm => item.Key itm
  | _ => []

/-! ## Items used in the examples

Each is the memory `newItem` lays down for a one-byte key without a value
(`example_items_encoded`). -/

/-- Key `a`, seqno 1, insert. -/
def itemA1 : ItemPtr := ItemPtr.real [1, 0, 0, 128, 97, 1, 0, 0, 0, 0, 0, 0, 0]

/-- Key `a`, seqno 2, insert. -/
def itemA2 : ItemPtr := ItemPtr.real [1, 0, 0, 128, 97, 2, 0, 0, 0, 0, 0, 0, 0]

/-- Key `a`, seqno 3, delete. -/
def itemA3 : ItemPtr := ItemPtr.real [1, 0, 0, 0, 97, 3, 0, 0, 0, 0, 0, 0, 0]

/-- Key `b`, seqno 1, insert. -/
def itemB : ItemPtr := ItemPtr.real [1, 0, 0, 128, 98, 1, 0, 0, 0, 0, 0, 0, 0]

/-- Key `c`, seqno 1, insert. -/
def itemC : ItemPtr := ItemPtr.real [1, 0, 0, 128, 99, 1, 0, 0, 0, 0, 0, 0, 0]

/-- Key `d`, seqno 1, insert. -/
def itemD : ItemPtr := ItemPtr.real [1, 0, 0, 128, 100, 1, 0, 0, 0, 0, 0, 0, 0]

/-- The reference merge of the spec: the delta items in `[low, high)` and the base items in
`[low, high)` whose key is not the key of a delta, put in ascending order of key. -/
def refMerge {α : Type} (cmp : α → α → Int) (low high : α) (ds : List (PageItem α))
    (items : List α) : List (α × Bool) :=
  sortStable (fun a b => decide (cmp a.1 b.1 < 0))
    (pairs (ds.filter (fun d => inRange cmp low high d.itm))
      ++ ((items.filter (inRange cmp low high)).filter
          (fun x => ds.all (fun d => decide (cmp d.itm x ≠ 0)))).map (fun x => (x, true)))

/-- The iterator after `n` calls of `Next`. -/
def nextN {α : Type} (cmp : α → α → Int) (fuel : Nat) :
    Nat → pgOpIterator α → Option (pgOpIterator α)
  | 0, it => some it
  | n + 1, it =>
    match it.Next cmp fuel with
    | none => none
    | some it' => nextN cmp fuel n it'

/-- The iterator is a merge iterator with the given dedup setting. -/
def pgOpIterator.IsMerge {α : Type} (doDedup : Bool) (it : pgOpIterator α) : Prop :=
  ∃ a b lastIt, it = pgOpIterator.pdMergeIterator a b lastIt doDedup

/-! ## Chains of flush, reloc and record deltas -/

/-- A node of a chain made of flush, reloc and record deltas. -/
inductive flushNode (α : Type) where
  | flush (flushDataSz : Int)
  | reloc (flushDataSz : Int)
  | insert (itm : α)
  | delete (itm : α)
  deriving DecidableEq

/-- The chain with the given nodes, head first, above the base page `items`. -/
def flushChain {α : Type} : List (flushNode α) → List α → pageDelta α
  | [], items => pageDelta.opBasePage items
  | flushNode.flush s :: ns, items => pageDelta.opFlushPageDelta s (flushChain ns items)
  | flushNode.reloc s :: ns, items => pageDelta.opRelocPageDelta s (flushChain ns items)
  | flushNode.insert x :: ns, items => pageDelta.opInsertDelta x (flushChain ns items)
  | flushNode.delete x :: ns, items => pageDelta.opDeleteDelta x (flushChain ns items)

/-- The sizes of the Flush deltas of a chain, head first. -/
def flushSizes {α : Type} : List (flushNode α) → List Int
  | [] => []
  | flushNode.flush s :: ns => s :: flushSizes ns
  | _ :: ns => flushSizes ns

/-- The sizes of the Reloc deltas of a chain, head first. -/
def relocSizes {α : Type} : List (flushNode α) → List Int
  | [] => []
  | flushNode.reloc s :: ns => s :: relocSizes ns
  | _ :: ns => relocSizes ns

/-! ## page_alloc.go -/

/-- A Go slice: its backing array up to the capacity, and its length. -/
structure goSlice (β : Type) where
  backing : List β
  len : Nat

namespace goSlice

/-- The elements of the slice. -/
def toList {β : Type} (s : goSlice β) : List β := s.backing.take s.len

/-- The expression `s[:0]`: the same backing array, length zero. -/
def resliceZero {β : Type} (s : goSlice β) : goSlice β := { s with len := 0 }

end goSlice

/-- The struct `pgFreeObj`; `P` is the type of the pointers `*pageDelta`. -/
structure pgFreeObj (P : Type) where
  h : P
  evicted : Bool

/-- The struct `allocCtx`. -/
structure allocCtx (P : Type) where
  allocDeltaList : goSlice P
  freePageList : goSlice (pgFreeObj P)
  memUsed : Int
  n : Int

/-- The method `GetMallocOps`: the four results `(a, f, n, m)` and the context it leaves. -/
def allocCtx.GetMallocOps {P : Type} (aCtx : allocCtx P) :
    (goSlice P × goSlice (pgFreeObj P) × Int × Int) × allocCtx P :=
  let a := aCtx.allocDeltaList
  let f := aCtx.freePageList
  let m := aCtx.memUsed
  let n := aCtx.n
  let aCtx := { aCtx with memUsed := 0 }
  let aCtx := { aCtx with n := 0 }
  let aCtx := { aCtx with allocDeltaList := aCtx.allocDeltaList.resliceZero }
  let aCtx := { aCtx with freePageList := aCtx.freePageList.resliceZero }
  ((a, f, n, m), aCtx)

/-- The values of the field `op` on the nodes that carry nothing `destroyPg` follows but
`next`. -/
inductive pdOp where
  | opBasePage
  | opSwapoutDelta
  | opMetaDelta
  | opInsertDelta
  | opDeleteDelta
  | opPageSplitDelta
  | opFlushPageDelta
  | opRelocPageDelta
  | opPageRemoveDelta
  | opRollbackDelta
  deriving DecidableEq

/-- A chain as `destroyPg` reads it: every node with its address, and the pointers `next`,
`mergeSibling` (merge delta) and `ptr` (swap-in delta) as the structures they point to; `nil`
is the nil pointer.  Every node of a chain is an allocation of its own, so the nodes a chain
owns have distinct addresses. -/
inductive memDelta where
  | nil
  | delta (addr : Nat) (op : pdOp) (next : memDelta)
  | opPageMergeDelta (addr : Nat) (mergeSibling : memDelta) (next : memDelta)
  | opSwapinDelta (addr : Nat) (ptr : memDelta) (next : memDelta)
  deriving DecidableEq

/-- The method `destroyPg` of `storeCtx`, with the flag `useMemMgmt` of the store: the
addresses passed to `freeMM`, in the order of the calls.  The recursive calls on a merge
sibling and on a swap-in pointer test the flag again. -/
def destroyPg (useMemMgmt : Bool) : memDelta → List Nat
  | memDelta.nil => []
  | memDelta.delta addr op next =>
    if useMemMgmt then
      if op = pdOp.opBasePage ∨ op = pdOp.opSwapoutDelta then [addr]
      else addr :: destroyPg useMemMgmt next
    else []
  | memDelta.opPageMergeDelta addr mergeSibling next =>
    if useMemMgmt then
      destroyPg useMemMgmt mergeSibling ++ addr :: destroyPg useMemMgmt next
    else []
  | memDelta.opSwapinDelta addr ptr next =>
    if useMemMgmt then
      destroyPg useMemMgmt ptr ++ addr :: destroyPg useMemMgmt next
    else []

/-- The addresses of all the nodes of a structure, a node counted once for every pointer path
that reaches it. -/
def memDelta.allNodes : memDelta → List Nat
  | memDelta.nil => []
  | memDelta.delta addr _ next => addr :: allNodes next
  | memDelta.opPageMergeDelta addr mergeSibling next =>
    addr :: (allNodes mergeSibling ++ allNodes next)
  | memDelta.opSwapinDelta addr ptr next => addr :: (allNodes ptr ++ allNodes next)

/-- The nodes on the `next` path from the head, up to and including the first Base or SwapOut
node, or to the end of the list. -/
def memDelta.spine : memDelta → List memDelta
  | memDelta.nil => []
  | memDelta.delta addr op next =>
    memDelta.delta addr op next ::
      (if op = pdOp.opBasePage ∨ op = pdOp.opSwapoutDelta then [] else spine next)
  | memDelta.opPageMergeDelta addr mergeSibling next =>
    memDelta.opPageMergeDelta addr mergeSibling next :: spine next
  | memDelta.opSwapinDelta addr ptr next => memDelta.opSwapinDelta addr ptr next :: spine next

/-- The address of a node. -/
def memDelta.addr? : memDelta → Option Nat
  | memDelta.nil => none
  | memDelta.delta addr _ _ => some addr
  | memDelta.opPageMergeDelta addr _ _ => some addr
  | memDelta.opSwapinDelta addr _ _ => some addr

/-- The chain a node holds beside `next`: the sibling chain of a merge delta, the attached
chain of a swap-in delta. -/
def memDelta.attached : memDelta → memDelta
  | memDelta.opPageMergeDelta _ mergeSibling _ => mergeSibling
  | memDelta.opSwapinDelta _ ptr _ => ptr
  | _ => memDelta.nil

/-- The nodes a chain owns, as the specification lists them: the nodes of its spine, and, by
the same rule, the nodes owned by the sibling chain of every merge delta and by the attached
chain of every swap-in delta on the spine. -/
def memDelta.ownedNodes : memDelta → List Nat
  | memDelta.nil => []
  | memDelta.delta addr op next =>
    addr :: (if op = pdOp.opBasePage ∨ op = pdOp.opSwapoutDelta then [] else ownedNodes next)
  | memDelta.opPageMergeDelta addr mergeSibling next =>
    addr :: (ownedNodes mergeSibling ++ ownedNodes next)
  | memDelta.opSwapinDelta addr ptr next => addr :: (ownedNodes ptr ++ ownedNodes next)

/-- A chain with a merge delta, a swap-in delta and nodes below both terminators. -/
def chainOwned : memDelta :=
  memDelta.delta 1 pdOp.opInsertDelta
    (memDelta.opPageMergeDelta 2
      (memDelta.delta 5 pdOp.opDeleteDelta
        (memDelta.delta 6 pdOp.opBasePage (memDelta.delta 7 pdOp.opMetaDelta memDelta.nil)))
      (memDelta.opSwapinDelta 3
        (memDelta.delta 8 pdOp.opSwapoutDelta (memDelta.delta 9 pdOp.opBasePage memDelta.nil))
        (memDelta.delta 4 pdOp.opBasePage
          (memDelta.delta 10 pdOp.opFlushPageDelta memDelta.nil))))

/-! ## The page iterator of iterator.go -/

/-- Page ids are taken to be numbers; the nil page id is `none`. -/
abbrev PageId := Nat

/-- Modelled from the spec: the page type is declared outside the sources.  A page that has
been read is what `initPgIterator` reads of it: the head of its chain `pg.head`, its high key
`pg.head.hiItm`, the id of the next page `pg.Next()` and the result of `pg.IsEmpty()`. -/
structure page (α : Type) where
  head : pageDelta α
  hiItm : α
  Next : Option PageId
  IsEmpty : Bool

/-- Modelled from the spec: the store is declared outside the sources.  The iterator uses its
comparator (`pg.cmp` of every page), `ReadPage` (a page or an error), the head node of the
index `Skiplist.HeadNode()` and `Skiplist.Lookup`, which returns `(prev, curr, found)`;
`nilItm` is the nil pointer as the comparator is given it. -/
structure Store (α ε : Type) where
  cmp : α → α → Int
  ReadPage : PageId → Except ε (page α)
  HeadNode : PageId
  Lookup : α → PageId × PageId × Bool
  nilItm : α

/-- The struct `Iterator`, without the store and the writer context; a nil `currPgItr` and a
nil `err` are `none`. -/
structure Iterator (α ε : Type) where
  currPid : Option PageId
  nextPid : Option PageId
  currPgItr : Option (pgOpIterator α)
  err : Option ε

namespace Iterator

variable {α ε : Type}

/-- The iterator `NewIterator` returns. -/
def fresh : Iterator α ε := ⟨none, none, none, none⟩

/-- The method `initPgIterator`.  The assignment `itr.err = err` stands in the branch of
`err == nil`, under the else of `!pg.IsEmpty()`: it stores nil. -/
def initPgIterator (s : Store α ε) (fuel : Nat) (itr : Iterator α ε) (pid : PageId)
    (seekItm : α) : Option (Iterator α ε) :=
  let itr := { itr with currPid := some pid }
  match s.ReadPage pid with
  | Except.ok pg =>
    if !pg.IsEmpty then
      let itr := { itr with nextPid := pg.Next }
      match (newPgOpIterator s.cmp pg.head seekItm pg.hiItm true).1.Init s.cmp fuel with
      | some it => some { itr with currPgItr := some it }
      | none => none
    else
      some { itr with err := none }
  | Except.error _ => some itr

/-- The method `SeekFirst`: the iterator it leaves and the error it returns. -/
def SeekFirst (s : Store α ε) (fuel : Nat) (itr : Iterator α ε) :
    Option (Iterator α ε × Option ε) :=
  match initPgIterator s fuel itr s.HeadNode s.nilItm with
  | some itr => some (itr, itr.err)
  | none => none

/-- The method `Seek`. -/
def Seek (s : Store α ε) (fuel : Nat) (itr : Iterator α ε) (itm : α) :
    Option (Iterator α ε × Option ε) :=
  let (prev, curr, found) := s.Lookup itm
  let pid := if found then curr else prev
  match initPgIterator s fuel itr pid itm with
  | some itr => some (itr, itr.err)
  | none => none

/-- The method `Get`; calling a method of the nil `currPgItr` panics. -/
def Get (itr : Iterator α ε) : Option (Option α) :=
  match itr.currPgItr with
  | some it =>
    match it.Get with
    | some (itm, _) => some itm
    | none => none
  | none => none

/-- The method `Valid`; calling a method of the nil `currPgItr` panics. -/
def Valid (itr : Iterator α ε) : Option Bool :=
  match itr.currPgItr with
  | some it => some it.Valid
  | none => none

/-- The method `Next`. -/
def Next (s : Store α ε) (fuel : Nat) (itr : Iterator α ε) :
    Option (Iterator α ε × Option ε) :=
  match itr.currPgItr with
  | none => none
  | some it =>
    match it.Next s.cmp fuel with
    | none => none
    | some it =>
      let itr := { itr with currPgItr := some it }
      if !it.Valid then
        match itr.nextPid with
        | some pid =>
          match initPgIterator s fuel itr pid s.nilItm with
          | some itr => some (itr, itr.err)
          | none => none
        | none => some (itr, itr.err)
      else some (itr, itr.err)

/-- The caller's loop `for ; itr.Valid(); itr.Next() { itr.Get() }`: the items read. -/
def collect (s : Store α ε) (fuel : Nat) : Nat → Iterator α ε → Option (List (Option α))
  | 0, _ => none
  | n + 1, itr =>
    match itr.Valid with
    | none => none
    | some false => some []
    | some true =>
      match itr.Get, itr.Next s fuel with
      | some x, some (itr, _) =>
        match collect s fuel n itr with
        | some xs => some (x :: xs)
        | none => none
      | _, _ => none

/-- The method `SeekFirst` on a new iterator, then `Get` and `Next` while `Valid`. -/
def traverse (s : Store α ε) (fuel : Nat) : Option (List (Option α)) :=
  match SeekFirst s fuel fresh with
  | some (itr, _) => collect s fuel fuel itr
  | none => none

end Iterator

/-- A page that is not empty: its chain, its high key and the id of the next page. -/
def pageOf (head : pageDelta ItemPtr) (hiItm : ItemPtr) (next : Option PageId) :
    page ItemPtr :=
  ⟨head, hiItm, next, false⟩

/-- An empty page: `IsEmpty()` holds and the head is nil. -/
def emptyPage : page ItemPtr := ⟨pageDelta.nil, ItemPtr.MaxItem, none, true⟩

/-- A store over encoded items with the comparator `cmpItem`, head node 1 and the given
pages; a nil item pointer is handed to the comparator as `MinItem`, the sentinel below every
item, and `Lookup` finds every item on page 2. -/
def storeOf (pages : PageId → Except Nat (page ItemPtr)) : Store ItemPtr Nat :=
  ⟨cmpItem, pages, 1, fun _ => (1, 2, true), ItemPtr.MinItem⟩

/-- Three linked pages: `[a]` below the high key `b`; then a page below the high key `c`
whose one item `b` is deleted by a delete delta; then `[c]`.  Every page is read without
error and is not empty. -/
def pagesTombstone : PageId → Except Nat (page ItemPtr)
  | 1 => Except.ok (pageOf (pageDelta.opBasePage [itemA1]) itemB (some 2))
  | 2 => Except.ok
      (pageOf (pageDelta.opDeleteDelta itemB (pageDelta.opBasePage [itemB])) itemC (some 3))
  | 3 => Except.ok (pageOf (pageDelta.opBasePage [itemC]) ItemPtr.MaxItem none)
  | _ => Except.error 0

/-- Two linked pages: a base page without items, then `[b]`. -/
def pagesLeadingBare : PageId → Except Nat (page ItemPtr)
  | 1 => Except.ok (pageOf (pageDelta.opBasePage []) itemB (some 2))
  | 2 => Except.ok (pageOf (pageDelta.opBasePage [itemB]) ItemPtr.MaxItem none)
  | _ => Except.error 0

/-- Two linked pages `[a]` and `[c]`. -/
def pagesPlain : PageId → Except Nat (page ItemPtr)
  | 1 => Except.ok (pageOf (pageDelta.opBasePage [itemA1]) itemC (some 2))
  | 2 => Except.ok (pageOf (pageDelta.opBasePage [itemC]) ItemPtr.MaxItem none)
  | _ => Except.error 0

/-- The page `[a]` followed by a page whose read fails with the error 5. -/
def pagesReadFails : PageId → Except Nat (page ItemPtr)
  | 1 => Except.ok (pageOf (pageDelta.opBasePage [itemA1]) itemC (some 2))
  | _ => Except.error 5

/-- The page `[a]` at the head node, and an empty page 2. -/
def pagesSecondEmpty : PageId → Except Nat (page ItemPtr)
  | 1 => Except.ok (pageOf (pageDelta.opBasePage [itemA1]) itemC (some 2))
  | 2 => Except.ok emptyPage
  | _ => Except.error 0

/-! ## Lemmas on raw memory -/

theorem leBytes_length (w x : Nat) : (leBytes w x).length = w := by
  induction w generalizing x with
  | zero => rfl
  | succ w ih => simp [leBytes, ih]

theorem byteAt_append_right (a c : List Byte) (i : Nat) :
    byteAt (a ++ c) (a.length + i) = byteAt c i := by
  unfold byteAt
  simp [List.getD_eq_getElem?_getD, List.getElem?_append_right]

theorem loadLE_append_right (a c : List Byte) (i w : Nat) :
    loadLE (a ++ c) (a.length + i) w = loadLE c i w := by
  induction w generalizing i with
  | zero => rfl
  | succ w ih =>
    simp only [loadLE]
    rw [byteAt_append_right, Nat.add_assoc, ih]

theorem loadLE_leBytes (w x : Nat) (c : List Byte) :
    loadLE (leBytes w x ++ c) 0 w = x % 256 ^ w := by
  induction w generalizing x with
  | zero => simp [loadLE, Nat.mod_one]
  | succ w ih =>
    simp only [loadLE, leBytes, List.cons_append]
    have h1 : byteAt (⟨x % 256, Nat.mod_lt _ (by decide)⟩ :: (leBytes w (x / 256) ++ c)) 0
        = x % 256 := by simp [byteAt]
    have h2 := loadLE_append_right [(⟨x % 256, Nat.mod_lt _ (by decide)⟩ : Byte)]
      (leBytes w (x / 256) ++ c) 0 w
    simp only [List.singleton_append, List.length_singleton, Nat.add_zero] at h2
    rw [h1, Nat.zero_add, h2, ih, pow_succ', Nat.mod_mul]

/-- A load of `w` bytes at the offset where `leBytes w x` was laid down. -/
theorem loadLE_at (a c : List Byte) (w x p : Nat) (hp : p = a.length) :
    loadLE (a ++ (leBytes w x ++ c)) p w = x % 256 ^ w := by
  subst hp
  have := loadLE_append_right a (leBytes w x ++ c) 0 w
  rw [Nat.add_zero] at this
  rw [this, loadLE_leBytes]

theorem writeAt_mid (a x c bs : List Byte) (off : Nat) (h1 : off = a.length)
    (h2 : bs.length = x.length) : writeAt (a ++ (x ++ c)) off bs = a ++ (bs ++ c) := by
  subst h1
  unfold writeAt
  rw [List.take_left', List.append_assoc]
  · congr 2
    rw [h2, ← List.append_assoc, ← List.length_append, List.drop_left']
    rfl
  · rfl

theorem split_at_length (mem : List Byte) (n : Nat) (h : n ≤ mem.length) :
    ∃ a c : List Byte, mem = a ++ c ∧ a.length = n ∧ c.length = mem.length - n :=
  ⟨mem.take n, mem.drop n, (List.take_append_drop n mem).symm,
    by simp [List.length_take, h], by simp⟩

/-! ## Lemmas on the header word -/

theorem two_pow_land (i x : Nat) : 2 ^ i &&& x = if x.testBit i then 2 ^ i else 0 := by
  apply Nat.eq_of_testBit_eq
  intro j
  rw [Nat.testBit_and, Nat.testBit_two_pow]
  by_cases hij : i = j
  · subst hij
    by_cases hx : x.testBit i <;> simp [hx, Nat.testBit_two_pow]
  · by_cases hx : x.testBit i <;> simp [hx, hij, Nat.testBit_two_pow]

theorem mask_pos (i x : Nat) : decide (2 ^ i &&& x > 0) = x.testBit i := by
  rw [two_pow_land]
  by_cases hx : x.testBit i <;> simp [hx, Nat.two_pow_pos]

theorem writeAt_0 (x c bs : List Byte) (h : bs.length = x.length) :
    writeAt (x ++ c) 0 bs = bs ++ c := by
  have := writeAt_mid [] x c bs 0 rfl h
  simpa using this

theorem writeAt_2 (a b x c bs : List Byte) (off : Nat) (h1 : off = a.length + b.length)
    (h2 : bs.length = x.length) :
    writeAt (a ++ (b ++ (x ++ c))) off bs = a ++ (b ++ (bs ++ c)) := by
  have := writeAt_mid (a ++ b) x c bs off (by simp [h1]) h2
  simpa [List.append_assoc] using this

theorem writeAt_3 (a b d x c bs : List Byte) (off : Nat)
    (h1 : off = a.length + b.length + d.length) (h2 : bs.length = x.length) :
    writeAt (a ++ (b ++ (d ++ (x ++ c)))) off bs = a ++ (b ++ (d ++ (bs ++ c))) := by
  have := writeAt_mid (a ++ (b ++ d)) x c bs off (by simp [h1, Nat.add_assoc]) h2
  simpa [List.append_assoc] using this

theorem writeAt_4 (a b d e x c bs : List Byte) (off : Nat)
    (h1 : off = a.length + b.length + d.length + e.length) (h2 : bs.length = x.length) :
    writeAt (a ++ (b ++ (d ++ (e ++ (x ++ c))))) off bs
      = a ++ (b ++ (d ++ (e ++ (bs ++ c)))) := by
  have := writeAt_mid (a ++ (b ++ (d ++ e))) x c bs off (by simp [h1, Nat.add_assoc]) h2
  simpa [List.append_assoc] using this

/-- The memory `newItem` starts from has room for the `sz` bytes it writes. -/
theorem split3 (mem : List Byte) (n1 n2 n3 : Nat) (h : n1 + n2 + n3 ≤ mem.length) :
    ∃ a b d c : List Byte, mem = a ++ (b ++ (d ++ c)) ∧ a.length = n1 ∧ b.length = n2
      ∧ d.length = n3 := by
  obtain ⟨a, r1, e1, ha, hr1⟩ := split_at_length mem n1 (by omega)
  obtain ⟨b, r2, e2, hb, hr2⟩ := split_at_length r1 n2 (by omega)
  obtain ⟨d, r3, e3, hd, _⟩ := split_at_length r2 n3 (by omega)
  exact ⟨a, b, d, r3, by rw [e1, e2, e3], ha, hb, hd⟩

theorem split5 (mem : List Byte) (n1 n2 n3 n4 n5 : Nat)
    (h : n1 + n2 + n3 + n4 + n5 ≤ mem.length) :
    ∃ a b d e f c : List Byte, mem = a ++ (b ++ (d ++ (e ++ (f ++ c)))) ∧ a.length = n1
      ∧ b.length = n2 ∧ d.length = n3 ∧ e.length = n4 ∧ f.length = n5 := by
  obtain ⟨a, b, d, r, e1, ha, hb, hd⟩ := split3 mem n1 n2 n3 (by omega)
  have hr : n4 + n5 ≤ r.length := by
    have := congrArg List.length e1
    simp only [List.length_append] at this
    omega
  obtain ⟨e, r2, e2, he, hr2⟩ := split_at_length r n4 (by omega)
  obtain ⟨f, r3, e3, hf, _⟩ := split_at_length r2 n5 (by omega)
  exact ⟨a, b, d, e, f, r3, by rw [e1, e2, e3], ha, hb, hd, he, hf⟩

/-- Memory layout of an item encoded without a value. -/
theorem newItem_noval (k : List Byte) (sn : Nat) (del : Bool) (buf : Option (List Byte))
    (hk : k ≠ []) (hbuf : buf ≠ some []) :
    ∃ rest, newItem k [] sn del buf
      = some (leBytes 4 (hdrNoVal k.length del) ++ (k ++ (leBytes 8 sn ++ rest))) := by
  have hkl : k.length ≠ 0 := by simpa using hk
  have key : ∀ mem : List Byte, 4 + k.length + 8 ≤ mem.length →
      ∃ rest, (let mem := writeAt mem (itmHdrLen + k.length) (leBytes 8 sn)
        let mem := writeAt mem 0 (leBytes 4 (hdrNoVal k.length del))
        memcopy mem itmHdrLen k k.length)
        = leBytes 4 (hdrNoVal k.length del) ++ (k ++ (leBytes 8 sn ++ rest)) := by
    intro mem hmem
    obtain ⟨a, b, d, c, e, ha, hb, hd⟩ := split3 mem 4 k.length 8 hmem
    refine ⟨c, ?_⟩
    subst e
    simp only [memcopy, itmHdrLen, List.take_length]
    rw [writeAt_2 a b d c _ _ (by omega) (by simp [leBytes_length, hd])]
    rw [writeAt_0 a _ _ (by simp [leBytes_length, ha])]
    have := writeAt_mid (leBytes 4 (hdrNoVal k.length del)) b (leBytes 8 sn ++ c) k 4
      (by simp [leBytes_length]) hb.symm
    exact this
  cases buf with
  | none =>
    obtain ⟨rest, h⟩ := key (alloc (itmHdrLen + itmSnSize + k.length + 0 + 0))
      (by simp [alloc, itmHdrLen, itmSnSize]; omega)
    refine ⟨rest, ?_⟩
    simp only [newItem, List.length_nil, gt_iff_lt, Nat.lt_irrefl, if_false, hkl]
    exact congrArg some h
  | some b =>
    have hb : b.length ≠ 0 := by
      intro h0
      exact hbuf (by rw [List.length_eq_zero.mp h0])
    obtain ⟨rest, h⟩ := key
      (b ++ List.replicate (itmHdrLen + itmSnSize + k.length + 0 + 0 - b.length) 0)
      (by simp [itmHdrLen, itmSnSize]; omega)
    refine ⟨rest, ?_⟩
    simp only [newItem, List.length_nil, gt_iff_lt, Nat.lt_irrefl, if_false, hkl, hb]
    exact congrArg some h

/-- Memory layout of an item encoded with a value. -/
theorem newItem_val (k v : List Byte) (sn : Nat) (del : Bool) (buf : Option (List Byte))
    (hk : k ≠ []) (hv : v ≠ []) (hbuf : buf ≠ some []) :
    ∃ rest, newItem k v sn del buf
      = some (leBytes 4 (hdrVal k.length v.length del) ++ (leBytes 4 (k.length % 2 ^ 32)
          ++ (k ++ (leBytes 8 sn ++ (v ++ rest))))) := by
  have hkl : k.length ≠ 0 := by simpa using hk
  have hvl : 0 < v.length := List.length_pos.mpr hv
  have key : ∀ mem : List Byte, 4 + 4 + k.length + 8 + v.length ≤ mem.length →
      ∃ rest, (let mem := writeAt mem 0 (leBytes 4 (hdrVal k.length v.length del))
        let mem := writeAt mem itmHdrLen (leBytes 4 (k.length % 2 ^ 32))
        let mem := writeAt mem (itmHdrLen + itmKlenSize + k.length) (leBytes 8 sn)
        let mem := memcopy mem (itmHdrLen + itmKlenSize) k k.length
        memcopy mem (itmHdrLen + itmKlenSize + itmSnSize + k.length) v v.length)
        = leBytes 4 (hdrVal k.length v.length del) ++ (leBytes 4 (k.length % 2 ^ 32)
          ++ (k ++ (leBytes 8 sn ++ (v ++ rest)))) := by
    intro mem hmem
    obtain ⟨a, b, d, e, f, c, em, ha, hb, hd, he, hf⟩ :=
      split5 mem 4 4 k.length 8 v.length hmem
    refine ⟨c, ?_⟩
    subst em
    simp only [memcopy, itmHdrLen, itmKlenSize, itmSnSize, List.take_length]
    rw [writeAt_0 a _ _ (by simp [leBytes_length, ha])]
    rw [writeAt_mid _ b _ _ 4 (by simp [leBytes_length]) (by simp [leBytes_length, hb])]
    rw [writeAt_3 _ _ d e _ _ _ (by simp [leBytes_length, hd]) (by simp [leBytes_length, he])]
    rw [writeAt_2 _ _ d _ k _ (by simp [leBytes_length]) hd.symm]
    rw [writeAt_4 _ _ _ _ f c v _ (by simp [leBytes_length]; omega) hf.symm]
  cases buf with
  | none =>
    obtain ⟨rest, h⟩ := key
      (alloc (itmHdrLen + itmSnSize + k.length + v.length + itmKlenSize))
      (by simp [alloc, itmHdrLen, itmSnSize, itmKlenSize]; omega)
    refine ⟨rest, ?_⟩
    simp only [newItem, gt_iff_lt, hvl, if_true, hkl, if_false]
    exact congrArg some h
  | some b =>
    have hb : b.length ≠ 0 := by
      intro h0
      exact hbuf (by rw [List.length_eq_zero.mp h0])
    obtain ⟨rest, h⟩ := key
      (b ++ List.replicate
        (itmHdrLen + itmSnSize + k.length + v.length + itmKlenSize - b.length) 0)
      (by simp [itmHdrLen, itmSnSize, itmKlenSize]; omega)
    refine ⟨rest, ?_⟩
    simp only [newItem, gt_iff_lt, hvl, if_true, hkl, hb, if_false]
    exact congrArg some h

theorem hdrNoVal_eq (kl : Nat) (del : Bool) (h : kl < 2 ^ 30) :
    hdrNoVal kl del = (if del then 0 else 2 ^ 31) + kl := by
  unfold hdrNoVal itmInsertMask
  have h1 : kl % 2 ^ 32 = kl := Nat.mod_eq_of_lt (by omega)
  have h2 : kl < 2 ^ 31 := by omega
  have h3 := Nat.mul_add_lt_is_or h2 1
  rw [h1]
  cases del
  · simp only [Bool.not_false, if_true, Nat.zero_or, Bool.false_eq_true, if_false]
    simpa using h3.symm
  · simp

theorem hdrVal_eq (kl vl : Nat) (del : Bool) (h : vl + kl + 4 < 2 ^ 30) :
    hdrVal kl vl del = (if del then 0 else 2 ^ 31) + 2 ^ 30 + (vl + kl + 4) := by
  unfold hdrVal itmInsertMask itmHasValMask itmKlenSize
  have h1 : (vl + kl + 4) % 2 ^ 32 = vl + kl + 4 := Nat.mod_eq_of_lt (by omega)
  have h3 := Nat.mul_add_lt_is_or h 1
  have h4 : 2 ^ 30 * 1 + (vl + kl + 4) < 2 ^ 31 := by omega
  have h5 := Nat.mul_add_lt_is_or h4 1
  rw [h1]
  have e30 : (0x40000000 : Nat) = 2 ^ 30 * 1 := by norm_num
  have e31 : (0x80000000 : Nat) = 2 ^ 31 * 1 := by norm_num
  rw [e30, ← h3]
  cases del
  · simp only [Bool.not_false, if_true, Nat.zero_or, Bool.false_eq_true, if_false]
    rw [e31, ← h5]
    omega
  · simp

/-- Decoding the three header fields of a word `ins * 2^31 + hv * 2^30 + L`. -/
theorem hdr_fields (ins hv : Bool) (L : Nat) (h : L < 2 ^ 30) :
    let w := (if ins then 2 ^ 31 else 0) + (if hv then 2 ^ 30 else 0) + L
    decide (itmInsertMask &&& w > 0) = ins ∧ decide (itmHasValMask &&& w > 0) = hv
      ∧ itmLenMask &&& w = L ∧ w % 256 ^ 4 = w := by
  intro w
  have e30 : itmHasValMask = 2 ^ 30 := by norm_num [itmHasValMask]
  have e31 : itmInsertMask = 2 ^ 31 := by norm_num [itmInsertMask]
  have eM : itmLenMask = 2 ^ 30 - 1 := by norm_num [itmLenMask]
  rw [e30, e31, eM, mask_pos, mask_pos, Nat.and_comm, Nat.and_pow_two_sub_one_eq_mod,
    Nat.testBit_to_div_mod, Nat.testBit_to_div_mod]
  cases ins <;> cases hv <;> simp only [w, if_true, if_false, Bool.false_eq_true] <;>
    refine ⟨?_, ?_, ?_, ?_⟩ <;> first | (simp only [decide_eq_true_eq, decide_eq_false_iff_not]; omega) | omega

theorem hdr_layout (H : Nat) (c : List Byte) : item.hdr (leBytes 4 H ++ c) = H % 256 ^ 4 :=
  loadLE_leBytes 4 H c

/-- What the accessors return on the memory of an item encoded without a value. -/
theorem decode_noval (k : List Byte) (sn : Nat) (del : Bool) (rest : List Byte)
    (hL : k.length < 2 ^ 30) (hsn : sn < 2 ^ 64) :
    let itm := leBytes 4 (hdrNoVal k.length del) ++ (k ++ (leBytes 8 sn ++ rest))
    item.Key itm = k ∧ item.Sn itm = sn ∧ item.IsInsert itm = !del
      ∧ item.HasValue itm = false ∧ item.l itm = k.length := by
  intro itm
  have hf := hdr_fields (!del) false k.length hL
  have hw : (if (!del) = true then 2 ^ 31 else 0) + (if false = true then 2 ^ 30 else 0)
      + k.length = hdrNoVal k.length del := by
    rw [hdrNoVal_eq _ _ hL]; cases del <;> simp
  obtain ⟨h1, h2, h3, h4⟩ := hf
  rw [hw] at h1 h2 h3 h4
  have hh : item.hdr itm = hdrNoVal k.length del := by
    show item.hdr (leBytes 4 _ ++ _) = _
    rw [hdr_layout, h4]
  have hHV : item.HasValue itm = false := by unfold item.HasValue; rw [hh]; exact h2
  have hl : item.l itm = k.length := by unfold item.l; rw [hh]; exact h3
  have hk : item.k itm = (4, k.length) := by
    unfold item.k; simp [hHV, hl, itmHdrLen]
  refine ⟨?_, ?_, ?_, hHV, hl⟩
  · unfold item.Key
    rw [hk]
    show ((leBytes 4 _ ++ (k ++ _)).drop 4).take k.length = k
    rw [List.drop_left' (leBytes_length 4 _), List.take_left' rfl]
  · unfold item.Sn
    rw [hk]
    show loadLE (leBytes 4 _ ++ (k ++ (leBytes 8 sn ++ rest))) (4 + k.length) 8 = sn
    rw [← List.append_assoc]
    rw [loadLE_at _ _ 8 sn _ (by simp [leBytes_length])]
    exact Nat.mod_eq_of_lt (by norm_num; exact hsn)
  · unfold item.IsInsert; rw [hh]; exact h1

/-- What the accessors return on the memory of an item encoded with a value. -/
theorem decode_val (k v : List Byte) (sn : Nat) (del : Bool) (rest : List Byte)
    (hL : v.length + k.length + 4 < 2 ^ 30) (hsn : sn < 2 ^ 64) :
    let itm := leBytes 4 (hdrVal k.length v.length del) ++ (leBytes 4 (k.length % 2 ^ 32)
          ++ (k ++ (leBytes 8 sn ++ (v ++ rest))))
    item.Key itm = k ∧ item.Sn itm = sn ∧ item.IsInsert itm = !del
      ∧ item.HasValue itm = true ∧ item.l itm = v.length + k.length + 4
      ∧ item.Value itm = v ∧ item.ValueLen itm = v.length := by
  intro itm
  have hf := hdr_fields (!del) true (v.length + k.length + 4) hL
  have hw : (if (!del) = true then 2 ^ 31 else 0) + (if true = true then 2 ^ 30 else 0)
      + (v.length + k.length + 4) = hdrVal k.length v.length del := by
    rw [hdrVal_eq _ _ _ hL]; cases del <;> simp
  obtain ⟨h1, h2, h3, h4⟩ := hf
  rw [hw] at h1 h2 h3 h4
  have hh : item.hdr itm = hdrVal k.length v.length del := by
    show item.hdr (leBytes 4 _ ++ _) = _
    rw [hdr_layout, h4]
  have hHV : item.HasValue itm = true := by unfold item.HasValue; rw [hh]; exact h2
  have hl : item.l itm = v.length + k.length + 4 := by unfold item.l; rw [hh]; exact h3
  have hkl : loadLE itm 4 4 = k.length := by
    show loadLE (leBytes 4 _ ++ (leBytes 4 (k.length % 2 ^ 32) ++ _)) 4 4 = _
    rw [loadLE_at _ _ 4 _ _ (by simp [leBytes_length])]
    have : k.length % 2 ^ 32 = k.length := Nat.mod_eq_of_lt (by omega)
    rw [this]
    exact Nat.mod_eq_of_lt (by norm_num; omega)
  have hk : item.k itm = (8, k.length) := by
    unfold item.k; simp [hHV, hkl, itmHdrLen, itmKlenSize]
  have hVL : item.ValueLen itm = v.length := by
    unfold item.ValueLen; rw [hk]; simp only [hl, itmKlenSize]; push_cast; omega
  refine ⟨?_, ?_, ?_, hHV, hl, ?_, hVL⟩
  · unfold item.Key
    rw [hk]
    show ((leBytes 4 _ ++ (leBytes 4 _ ++ (k ++ _))).drop 8).take k.length = k
    rw [← List.append_assoc, List.drop_left' (by simp [leBytes_length]), List.take_left' rfl]
  · unfold item.Sn
    rw [hk]
    show loadLE (leBytes 4 _ ++ (leBytes 4 _ ++ (k ++ (leBytes 8 sn ++ (v ++ rest)))))
      (8 + k.length) 8 = sn
    rw [← List.append_assoc, ← List.append_assoc]
    rw [loadLE_at _ _ 8 sn _ (by simp [leBytes_length]; omega)]
    exact Nat.mod_eq_of_lt (by norm_num; exact hsn)
  · unfold item.IsInsert; rw [hh]; exact h1
  · unfold item.Value item.ValueData
    rw [hVL, hk]
    show ((leBytes 4 _ ++ (leBytes 4 _ ++ (k ++ (leBytes 8 sn ++ (v ++ rest))))).drop
      (8 + k.length + itmSnSize)).take (Int.toNat (v.length : Int)) = v
    rw [← List.append_assoc, ← List.append_assoc, ← List.append_assoc,
      List.drop_left' (by simp [leBytes_length, itmSnSize]; omega), Int.toNat_ofNat,
      List.take_left' rfl]

/-- Encoding followed by the accessors, for arguments within the codec's domain. -/
theorem newItem_decode (k v : List Byte) (sn : Nat) (del : Bool)
    (buf : Option (List Byte)) (hk : k ≠ []) (hsn : sn < 2 ^ 64) (hbuf : buf ≠ some [])
    (hL : encLen k v < 2 ^ 30) :
    ∃ itm, newItem k v sn del buf = some itm ∧ item.Key itm = k ∧ item.Sn itm = sn
      ∧ item.IsInsert itm = (!del) ∧ item.HasValue itm = decide (v ≠ [])
      ∧ (v ≠ [] → item.Value itm = v) := by
  by_cases hv : v = []
  · subst hv
    obtain ⟨rest, h⟩ := newItem_noval k sn del buf hk hbuf
    have hL2 : k.length < 2 ^ 30 := by simpa [encLen] using hL
    obtain ⟨d1, d2, d3, d4, _⟩ := decode_noval k sn del rest hL2 hsn
    exact ⟨_, h, d1, d2, d3, by simpa using d4, fun hne => absurd rfl hne⟩
  · obtain ⟨rest, h⟩ := newItem_val k v sn del buf hk hv hbuf
    have hvl : 0 < v.length := List.length_pos.mpr hv
    have hL2 : v.length + k.length + 4 < 2 ^ 30 := by
      simpa [encLen, hvl, itmKlenSize] using hL
    obtain ⟨d1, d2, d3, d4, _, d6, _⟩ := decode_val k v sn del rest hL2 hsn
    exact ⟨_, h, d1, d2, d3, by simpa [hv] using d4, fun _ => d6⟩

/-- C1. Codec round trip: for a non-empty key, a value that is absent (`[]`) or non-empty,
a 64-bit seqno and either flag, with encoded length below `2^30`, `newItem` returns an item
whose `Key`, `Sn`, `IsInsert`, `HasValue` and (when a value is present) `Value` give back
the arguments.  The destination may be a fresh allocation or any non-empty caller buffer. -/
theorem newItem_roundtrip (k v : List Byte) (sn : Nat) (del : Bool)
    (buf : Option (List Byte)) (hk : k ≠ []) (hsn : sn < 2 ^ 64) (hbuf : buf ≠ some [])
    (hL : encLen k v < 2 ^ 30) :
    ∃ itm, newItem k v sn del buf = some itm ∧ item.Key itm = k ∧ item.Sn itm = sn
      ∧ item.IsInsert itm = (!del) ∧ item.HasValue itm = decide (v ≠ [])
      ∧ (v ≠ [] → item.Value itm = v) :=
  newItem_decode k v sn del buf hk hsn hbuf hL

theorem newItem_roundtrip_witness :
    ∃ itm, newItem [97, 98] [1, 2, 3] 7 false none = some itm ∧ item.Key itm = [97, 98]
      ∧ item.Sn itm = 7 ∧ item.IsInsert itm = (!false)
      ∧ item.HasValue itm = decide (([1, 2, 3] : List Byte) ≠ [])
      ∧ (([1, 2, 3] : List Byte) ≠ [] → item.Value itm = [1, 2, 3]) :=
  newItem_roundtrip [97, 98] [1, 2, 3] 7 false none (by decide) (by decide) (by decide)
    (by decide)

/-! ## The comparator -/

/-- The three outcomes of `bytesCompare`, each with the lexicographic fact it reports. -/
theorem bytesCompare_cases (a b : List Byte) :
    (bytesCompare a b = -1 ∧ a < b) ∨ (bytesCompare a b = 0 ∧ a = b)
      ∨ (bytesCompare a b = 1 ∧ b < a) := by
  induction a generalizing b with
  | nil =>
    cases b with
    | nil => exact Or.inr (Or.inl ⟨rfl, rfl⟩)
    | cons y ys => exact Or.inl ⟨rfl, List.Lex.nil⟩
  | cons x xs ih =>
    cases b with
    | nil => exact Or.inr (Or.inr ⟨rfl, List.Lex.nil⟩)
    | cons y ys =>
      unfold bytesCompare
      by_cases h1 : x < y
      · exact Or.inl ⟨by simp [h1], List.Lex.rel h1⟩
      · by_cases h2 : y < x
        · exact Or.inr (Or.inr ⟨by simp [h1, h2], List.Lex.rel h2⟩)
        · have hxy : x = y := le_antisymm (not_lt.mp h2) (not_lt.mp h1)
          subst hxy
          simp only [h1, if_false]
          rcases ih ys with ⟨e, h⟩ | ⟨e, h⟩ | ⟨e, h⟩
          · exact Or.inl ⟨e, List.Lex.cons h⟩
          · exact Or.inr (Or.inl ⟨e, by rw [h]⟩)
          · exact Or.inr (Or.inr ⟨e, List.Lex.cons h⟩)

theorem bytesCompare_lt_iff (a b : List Byte) : bytesCompare a b < 0 ↔ a < b := by
  rcases bytesCompare_cases a b with ⟨e, h⟩ | ⟨e, h⟩ | ⟨e, h⟩
  · simp [e, h]
  · subst h; simp [e]
  · simp [e, lt_asymm h]

theorem bytesCompare_eq_iff (a b : List Byte) : bytesCompare a b = 0 ↔ a = b := by
  rcases bytesCompare_cases a b with ⟨e, h⟩ | ⟨e, h⟩ | ⟨e, h⟩
  · simp [e, ne_of_lt h]
  · subst h; simp [e]
  · simp [e, (ne_of_lt h).symm]

theorem bytesCompare_gt_iff (a b : List Byte) : 0 < bytesCompare a b ↔ b < a := by
  rcases bytesCompare_cases a b with ⟨e, h⟩ | ⟨e, h⟩ | ⟨e, h⟩
  · simp [e, lt_asymm h]
  · subst h; simp [e]
  · simp [e, h]

theorem bytesCompare_range (a b : List Byte) :
    bytesCompare a b = -1 ∨ bytesCompare a b = 0 ∨ bytesCompare a b = 1 := by
  rcases bytesCompare_cases a b with ⟨e, _⟩ | ⟨e, _⟩ | ⟨e, _⟩
  · exact Or.inl e
  · exact Or.inr (Or.inl e)
  · exact Or.inr (Or.inr e)

theorem cmpItem_real (a b : List Byte) :
    cmpItem (ItemPtr.real a) (ItemPtr.real b) = bytesCompare (item.Key a) (item.Key b) := by
  simp [cmpItem]

/-- C3. Sentinels dominate: `cmpItem MinItem x < 0` and `cmpItem x MaxItem < 0` for every
argument `x` (real item or sentinel), and a real item compares above `MinItem` and below
`MaxItem` with the arguments in the other order. -/
theorem cmpItem_sentinels :
    (∀ x : ItemPtr, cmpItem ItemPtr.MinItem x < 0 ∧ cmpItem x ItemPtr.MaxItem < 0)
      ∧ (∀ itm : List Byte, cmpItem (ItemPtr.real itm) ItemPtr.MinItem > 0
          ∧ cmpItem ItemPtr.MaxItem (ItemPtr.real itm) > 0) := by
  constructor
  · intro x
    cases x <;> simp [cmpItem]
  · intro itm
    simp [cmpItem]

/-- A successful `newItem` was given a non-empty key and no empty caller buffer. -/
theorem newItem_some_args (k v : List Byte) (sn : Nat) (del : Bool)
    (buf : Option (List Byte)) (a : List Byte) (h : newItem k v sn del buf = some a) :
    k ≠ [] ∧ buf ≠ some [] := by
  constructor
  · intro hk
    subst hk
    cases buf with
    | none => simp [newItem] at h
    | some b =>
      by_cases hb : b.length = 0 <;> simp [newItem, hb] at h
  · intro hb
    subst hb
    simp [newItem] at h

/-- Within the codec's domain the comparator sees exactly the keys given to `newItem`. -/
theorem cmpItem_newItem (k1 k2 v1 v2 : List Byte) (sn1 sn2 : Nat) (d1 d2 : Bool)
    (buf1 buf2 : Option (List Byte)) (a b : List Byte)
    (ha : newItem k1 v1 sn1 d1 buf1 = some a) (hb : newItem k2 v2 sn2 d2 buf2 = some b)
    (hs1 : sn1 < 2 ^ 64) (hs2 : sn2 < 2 ^ 64)
    (hL1 : encLen k1 v1 < 2 ^ 30) (hL2 : encLen k2 v2 < 2 ^ 30) :
    cmpItem (ItemPtr.real a) (ItemPtr.real b) = bytesCompare k1 k2 := by
  obtain ⟨hk1, hb1⟩ := newItem_some_args _ _ _ _ _ _ ha
  obtain ⟨hk2, hb2⟩ := newItem_some_args _ _ _ _ _ _ hb
  obtain ⟨a', ha', hka, _⟩ := newItem_decode k1 v1 sn1 d1 buf1 hk1 hs1 hb1 hL1
  obtain ⟨b', hb', hkb, _⟩ := newItem_decode k2 v2 sn2 d2 buf2 hk2 hs2 hb2 hL2
  rw [ha] at ha'
  rw [hb] at hb'
  cases ha'
  cases hb'
  rw [cmpItem_real, hka, hkb]

/-- C2 (amended). Key-only comparison: for two items built by `newItem` from keys `k1`, `k2`
whose encoded lengths are below `2^30`, with any values, 64-bit seqnos, flags and
destinations, `cmpItem` is `-1`, `0` or `1`, has the sign of the unsigned lexicographic
comparison of `k1` and `k2`, and equals `bytesCompare k1 k2`, which mentions neither the
seqnos, the values nor the flags. -/
theorem cmpItem_key_only (k1 k2 v1 v2 : List Byte) (sn1 sn2 : Nat) (d1 d2 : Bool)
    (buf1 buf2 : Option (List Byte)) (a b : List Byte)
    (ha : newItem k1 v1 sn1 d1 buf1 = some a) (hb : newItem k2 v2 sn2 d2 buf2 = some b)
    (hs1 : sn1 < 2 ^ 64) (hs2 : sn2 < 2 ^ 64)
    (hL1 : encLen k1 v1 < 2 ^ 30) (hL2 : encLen k2 v2 < 2 ^ 30) :
    (cmpItem (ItemPtr.real a) (ItemPtr.real b) = -1 ∨ cmpItem (ItemPtr.real a) (ItemPtr.real b) = 0
        ∨ cmpItem (ItemPtr.real a) (ItemPtr.real b) = 1)
      ∧ (cmpItem (ItemPtr.real a) (ItemPtr.real b) < 0 ↔ List.Lex (· < ·) k1 k2)
      ∧ (cmpItem (ItemPtr.real a) (ItemPtr.real b) = 0 ↔ k1 = k2)
      ∧ (cmpItem (ItemPtr.real a) (ItemPtr.real b) > 0 ↔ List.Lex (· < ·) k2 k1)
      ∧ cmpItem (ItemPtr.real a) (ItemPtr.real b) = bytesCompare k1 k2 := by
  have e := cmpItem_newItem k1 k2 v1 v2 sn1 sn2 d1 d2 buf1 buf2 a b ha hb hs1 hs2 hL1 hL2
  rw [e]
  exact ⟨bytesCompare_range k1 k2, bytesCompare_lt_iff k1 k2, bytesCompare_eq_iff k1 k2,
    bytesCompare_gt_iff k1 k2, rfl⟩

theorem cmpItem_key_only_witness :
    (cmpItem (ItemPtr.real [1, 0, 0, 128, 97, 7, 0, 0, 0, 0, 0, 0, 0])
          (ItemPtr.real [6, 0, 0, 64, 1, 0, 0, 0, 98, 9, 0, 0, 0, 0, 0, 0, 0, 5]) = -1
        ∨ cmpItem (ItemPtr.real [1, 0, 0, 128, 97, 7, 0, 0, 0, 0, 0, 0, 0])
          (ItemPtr.real [6, 0, 0, 64, 1, 0, 0, 0, 98, 9, 0, 0, 0, 0, 0, 0, 0, 5]) = 0
        ∨ cmpItem (ItemPtr.real [1, 0, 0, 128, 97, 7, 0, 0, 0, 0, 0, 0, 0])
          (ItemPtr.real [6, 0, 0, 64, 1, 0, 0, 0, 98, 9, 0, 0, 0, 0, 0, 0, 0, 5]) = 1)
      ∧ (cmpItem (ItemPtr.real [1, 0, 0, 128, 97, 7, 0, 0, 0, 0, 0, 0, 0])
          (ItemPtr.real [6, 0, 0, 64, 1, 0, 0, 0, 98, 9, 0, 0, 0, 0, 0, 0, 0, 5]) < 0
          ↔ List.Lex (· < ·) ([97] : List Byte) [98])
      ∧ (cmpItem (ItemPtr.real [1, 0, 0, 128, 97, 7, 0, 0, 0, 0, 0, 0, 0])
          (ItemPtr.real [6, 0, 0, 64, 1, 0, 0, 0, 98, 9, 0, 0, 0, 0, 0, 0, 0, 5]) = 0
          ↔ ([97] : List Byte) = [98])
      ∧ (cmpItem (ItemPtr.real [1, 0, 0, 128, 97, 7, 0, 0, 0, 0, 0, 0, 0])
          (ItemPtr.real [6, 0, 0, 64, 1, 0, 0, 0, 98, 9, 0, 0, 0, 0, 0, 0, 0, 5]) > 0
          ↔ List.Lex (· < ·) ([98] : List Byte) [97])
      ∧ cmpItem (ItemPtr.real [1, 0, 0, 128, 97, 7, 0, 0, 0, 0, 0, 0, 0])
          (ItemPtr.real [6, 0, 0, 64, 1, 0, 0, 0, 98, 9, 0, 0, 0, 0, 0, 0, 0, 5])
          = bytesCompare [97] [98] :=
  cmpItem_key_only [97] [98] [] [5] 7 9 false true none none _ _ (by decide) (by decide)
    (by decide) (by decide) (by decide) (by decide)

theorem replicate_ne_nil (n : Nat) (h : n ≠ 0) : List.replicate n (0 : Byte) ≠ [] := by
  intro e
  have := congrArg List.length e
  simp at this
  exact h this

/-- The decoder on a header with the has-value bit set and a zero key-length word. -/
theorem Key_hasval_zero (H : Nat) (hH : H % 256 ^ 4 = 2 ^ 31 + 2 ^ 30) (c : List Byte) :
    item.Key (leBytes 4 H ++ (leBytes 4 0 ++ c)) = [] := by
  have hh : item.hdr (leBytes 4 H ++ (leBytes 4 0 ++ c)) = 2 ^ 31 + 2 ^ 30 := by
    rw [hdr_layout, hH]
  have hHV : item.HasValue (leBytes 4 H ++ (leBytes 4 0 ++ c)) = true := by
    unfold item.HasValue
    rw [hh]
    decide
  have hkl : loadLE (leBytes 4 H ++ (leBytes 4 0 ++ c)) 4 4 = 0 := by
    rw [loadLE_at _ _ 4 0 4 (by simp [leBytes_length])]
    rfl
  have hk : item.k (leBytes 4 H ++ (leBytes 4 0 ++ c)) = (8, 0) := by
    unfold item.k
    rw [hHV]
    simp only [if_true, itmHdrLen, itmKlenSize, hkl]
  unfold item.Key
  rw [hk]
  exact List.take_zero _

/-- A value-less item whose key is `n` zero bytes, when `n` sets exactly the has-value bit of
the header: the decoder takes the first four key bytes for a key length and finds no key. -/
theorem newItem_zero_key (n : Nat) (h4 : 4 ≤ n)
    (hH : hdrNoVal n false % 256 ^ 4 = 2 ^ 31 + 2 ^ 30) :
    ∃ a, newItem (List.replicate n 0) [] 0 false none = some a ∧ item.Key a = [] := by
  obtain ⟨rest, h⟩ := newItem_noval (List.replicate n 0) 0 false none
    (replicate_ne_nil n (by omega)) (by simp)
  refine ⟨_, h, ?_⟩
  have hsplit : List.replicate n (0 : Byte) = leBytes 4 0 ++ List.replicate (n - 4) 0 := by
    have e4 : leBytes 4 0 = List.replicate 4 (0 : Byte) := by decide
    rw [e4, ← List.replicate_add]
    congr 1
    omega
  have e : leBytes 4 (hdrNoVal (List.replicate n (0 : Byte)).length false)
        ++ (List.replicate n 0 ++ (leBytes 8 0 ++ rest))
      = leBytes 4 (hdrNoVal n false)
        ++ (leBytes 4 0 ++ (List.replicate (n - 4) 0 ++ (leBytes 8 0 ++ rest))) := by
    rw [List.length_replicate]
    conv => lhs; rw [hsplit, List.append_assoc]
  rw [e]
  exact Key_hasval_zero _ hH _

theorem zero_lex_replicate (n : Nat) (h : 2 ≤ n) :
    List.Lex (· < ·) ([0] : List Byte) (List.replicate n 0) := by
  obtain ⟨m, rfl⟩ : ∃ m, n = m + 2 := ⟨n - 2, by omega⟩
  rw [List.replicate_succ, List.replicate_succ]
  exact List.Lex.cons List.Lex.nil

/-- C2, counterexample: the key of `2^30` zero bytes is lexicographically above the key `[0]`,
yet the item `newItem` builds from it compares below the item built from `[0]`: its length
sets the has-value bit of the header, and `Key` then decodes the empty key. -/
theorem cmpItem_key_only_counterexample :
    ∃ a b, newItem (List.replicate (2 ^ 30) 0) [] 0 false none = some a
      ∧ newItem [0] [] 0 false none = some b
      ∧ cmpItem (ItemPtr.real a) (ItemPtr.real b) = -1
      ∧ List.Lex (· < ·) ([0] : List Byte) (List.replicate (2 ^ 30) 0) := by
  obtain ⟨a, ha, hka⟩ := newItem_zero_key (2 ^ 30) (by norm_num) (by decide)
  refine ⟨a, [1, 0, 0, 128, 0, 0, 0, 0, 0, 0, 0, 0, 0], ha, by decide, ?_, ?_⟩
  · rw [cmpItem_real, hka]
    decide
  · exact zero_lex_replicate (2 ^ 30) (by norm_num)

/-! ## Iterator states and the sequences they stand for -/

section Simulation

variable {α : Type} (cmp : α → α → Int)

open pgOpIterator

theorem mergeShadow_nil_left (ys : List (α × Bool)) : mergeShadow cmp [] ys = ys := by
  rw [mergeShadow]

theorem mergeShadow_nil_right (xs : List (α × Bool)) : mergeShadow cmp xs [] = xs := by
  cases xs with
  | nil => rw [mergeShadow]
  | cons x xs => rw [mergeShadow]

theorem mergeShadow_cons_cons (x y : α × Bool) (xs ys : List (α × Bool)) :
    mergeShadow cmp (x :: xs) (y :: ys) =
      if cmp x.1 y.1 < 0 then x :: mergeShadow cmp xs (y :: ys)
      else if cmp x.1 y.1 = 0 then x :: mergeShadow cmp xs ys
      else y :: mergeShadow cmp (x :: xs) ys := by
  rw [mergeShadow]

/-- A valid iterator has a current element, which is the head of its sequence. -/
theorem den_of_valid (it : pgOpIterator α) (hinv : StateOk it) (hv : it.Valid = true) :
    ∃ x rest, den cmp it = x :: rest ∧ it.Get = some (some x.1, x.2) := by
  induction it with
  | pdIterator deltas i =>
    simp only [Valid, decide_eq_true_eq] at hv
    refine ⟨(deltas[i].Item, deltas[i].IsInsert), pairs (deltas.drop (i + 1)), ?_, ?_⟩
    · simp only [den, pairs]
      rw [List.drop_eq_getElem_cons hv]
      rfl
    · simp [Get, List.getElem?_eq_getElem hv]
  | basePgIterator low high items i j =>
    simp only [Valid, decide_eq_true_eq] at hv
    simp only [StateOk] at hinv
    have hi : i < items.length := by omega
    refine ⟨(items[i], true), ((items.take j).drop (i + 1)).map (fun x => (x, true)), ?_, ?_⟩
    · simp only [den]
      have hlen : i < (items.take j).length := by simp [List.length_take]; omega
      rw [List.drop_eq_getElem_cons hlen]
      simp [List.getElem_take]
    · simp [Get, List.getElem?_eq_getElem hi]
  | pdJoinIterator a b i iha ihb =>
    simp only [StateOk] at hinv
    by_cases hi : i = 0
    · subst hi
      simp only [Valid, if_true] at hv
      obtain ⟨x, rest, hd, hg⟩ := iha hinv.1 hv
      refine ⟨x, rest ++ den cmp b, ?_, ?_⟩
      · simp [den, joinList, hd]
      · simpa [Get] using hg
    · simp only [Valid, hi, if_false] at hv
      obtain ⟨x, rest, hd, hg⟩ := ihb hinv.2 hv
      refine ⟨x, rest, ?_, ?_⟩
      · simp [den, joinList, hi, hd]
      · simpa [Get, hi] using hg
  | pdMergeIterator a b lastIt dd iha ihb =>
    simp only [StateOk] at hinv
    obtain ⟨ha, hb, hl⟩ := hinv
    simp only [Valid] at hv
    obtain ⟨c, hc, hcv, _⟩ := hl hv
    subst hc
    by_cases h0 : c = 0
    · subst h0
      simp only [if_true] at hcv
      obtain ⟨x, rest, hd, hg⟩ := iha ha hcv
      exact ⟨x, dedupFilter dd (mergeShadow cmp rest (den cmp b)), by simp [den, hd],
        by simpa [Get] using hg⟩
    · simp only [h0, if_false] at hcv
      obtain ⟨x, rest, hd, hg⟩ := ihb hb hcv
      exact ⟨x, dedupFilter dd (mergeShadow cmp (den cmp a) rest), by simp [den, h0, hd],
        by simpa [Get, h0] using hg⟩


/-- An iterator that is not valid has nothing left. -/
theorem den_of_not_valid (it : pgOpIterator α) (hinv : StateOk it) (hv : it.Valid = false) :
    den cmp it = [] := by
  induction it with
  | pdIterator deltas i =>
    simp only [Valid, decide_eq_false_iff_not, not_lt] at hv
    simp [den, pairs, List.drop_eq_nil_of_le hv]
  | basePgIterator low high items i j =>
    simp only [Valid, decide_eq_false_iff_not, not_lt] at hv
    simp only [den, List.map_eq_nil_iff]
    apply List.drop_eq_nil_of_le
    simp only [List.length_take]
    omega
  | pdJoinIterator a b i iha ihb =>
    simp only [StateOk] at hinv
    by_cases hi : i = 0
    · subst hi
      simp only [Valid, if_true] at hv
      simp [den, joinList, iha hinv.1 hv]
    · simp only [Valid, hi, if_false] at hv
      simp [den, joinList, hi, ihb hinv.2 hv]
  | pdMergeIterator a b lastIt dd iha ihb =>
    simp only [StateOk] at hinv
    obtain ⟨ha, hb, _⟩ := hinv
    simp only [Valid, Bool.or_eq_false_iff] at hv
    have ea := iha ha hv.1
    have eb := ihb hb hv.2
    cases lastIt with
    | none => simp [den]
    | some c => by_cases h0 : c = 0 <;> simp [den, h0, ea, eb]

theorem valid_iff_den (it : pgOpIterator α) (hinv : StateOk it) :
    it.Valid = true ↔ den cmp it ≠ [] := by
  constructor
  · intro hv
    obtain ⟨x, rest, hd, _⟩ := den_of_valid cmp it hinv hv
    simp [hd]
  · intro hne
    by_contra hv
    exact hne (den_of_not_valid cmp it hinv (by simpa using hv))

theorem dedupFilter_cons_true (dd : Bool) (h : α × Bool) (R : List (α × Bool))
    (hf : dd = true → h.2 = true) : dedupFilter dd (h :: R) = h :: dedupFilter dd R := by
  cases dd with
  | false => simp [dedupFilter]
  | true => simp [dedupFilter, hf rfl]

theorem dedupFilter_cons_false (h : α × Bool) (R : List (α × Bool)) (hf : h.2 = false) :
    dedupFilter true (h :: R) = dedupFilter true R := by
  simp [dedupFilter, hf]

/-- The block that skips delete deltas, on a merge iterator whose `lastIt` has just been
chosen: side `c` is valid with head `h`, and `R` is the merge of what follows `h`. -/
theorem skip_spec (n k : Nat)
    (HN : ∀ it : pgOpIterator α, depth it ≤ n → StateOk it → it.Valid = true → NextOk cmp it)
    (IH : ∀ (a b : pgOpIterator α) (last : Option (Fin 2)) (dd : Bool), depth a ≤ n →
      depth b ≤ n → StateOk a → StateOk b → (den cmp a).length + (den cmp b).length ≤ k →
      FetchOk cmp a b last dd)
    (p0 p1 : pgOpIterator α) (c : Fin 2) (dd : Bool) (h : α × Bool) (t R : List (α × Bool))
    (hd0 : depth p0 ≤ n) (hd1 : depth p1 ≤ n) (h0 : StateOk p0) (h1 : StateOk p1)
    (hv : (if c = 0 then p0 else p1).Valid = true)
    (hden : den cmp (if c = 0 then p0 else p1) = h :: t)
    (hR : R = if c = 0 then mergeShadow cmp t (den cmp p1) else mergeShadow cmp (den cmp p0) t)
    (hk : (den cmp p0).length + (den cmp p1).length ≤ k + 1) :
    ∃ (F : Nat) (m : pgOpIterator α), StateOk m ∧ den cmp m = dedupFilter dd (h :: R)
      ∧ depth m = max (depth p0) (depth p1) + 1
      ∧ ∀ g, F ≤ g →
        skipDeleted (fun it => step cmp g false it) (pdMergeIterator p0 p1 (some c) dd)
          = some m := by
  have hcok : StateOk (if c = 0 then p0 else p1) := by by_cases hc : c = 0 <;> simp [hc, h0, h1]
  obtain ⟨x, rest, hd', hget⟩ := den_of_valid cmp _ hcok hv
  rw [hden] at hd'
  obtain ⟨rfl, rfl⟩ := List.cons.inj hd'
  have hvalid : (pdMergeIterator p0 p1 (some c) dd).Valid = true := by
    by_cases hc : c = 0
    · simp only [hc, if_true] at hv; simp [Valid, hv]
    · simp only [hc, if_false] at hv; simp [Valid, hv]
  have hdenm : den cmp (pdMergeIterator p0 p1 (some c) dd) = h :: dedupFilter dd R := by
    by_cases hc : c = 0
    · simp only [hc, if_true] at hden hR; simp [den, hc, hden, hR]
    · simp only [hc, if_false] at hden hR; simp [den, hc, hden, hR]
  have hgetc : (if c = 0 then Get p0 else Get p1) = some (some h.1, h.2) := by
    by_cases hc : c = 0
    · simpa [hc] using hget
    · simpa [hc] using hget
  by_cases hskip : dd = true ∧ h.2 = false
  · -- the current entry is a delete and dedup is on: `pdm.Next()`
    obtain ⟨hdd, hf⟩ := hskip
    subst hdd
    by_cases hc : c = 0
    · subst hc
      simp only [if_true] at hv hden hR hgetc
      obtain ⟨F1, p0', hok', hden', hdep', hstep1⟩ := HN p0 hd0 h0 hv
      have hlen : (den cmp p0').length + (den cmp p1).length ≤ k := by
        rw [hden', hden]; rw [hden] at hk; simp at hk ⊢; omega
      obtain ⟨F2, m, hokm, hdm, hdepm, hstep2⟩ :=
        IH p0' p1 (some 0) true (by omega) hd1 hok' h1 hlen
      refine ⟨max F1 F2 + 1, m, hokm, ?_, by rw [hdepm, hdep'], ?_⟩
      · rw [hdm, hden', hden, dedupFilter_cons_false h R hf, hR]; rfl
      · intro g hg
        obtain ⟨g', rfl⟩ : ∃ g', g = g' + 1 := ⟨g - 1, by omega⟩
        have e1 := hstep1 g' (by omega)
        have e2 := hstep2 g' (by omega)
        simp only [skipDeleted, hvalid, Bool.and_self, if_true, hgetc, hf, Bool.not_false, step,
          e1, e2]
    · simp only [hc, if_false] at hv hden hR hgetc
      obtain ⟨F1, p1', hok', hden', hdep', hstep1⟩ := HN p1 hd1 h1 hv
      have hlen : (den cmp p0).length + (den cmp p1').length ≤ k := by
        rw [hden', hden]; rw [hden] at hk; simp at hk ⊢; omega
      obtain ⟨F2, m, hokm, hdm, hdepm, hstep2⟩ :=
        IH p0 p1' (some c) true hd0 (by omega) h0 hok' hlen
      refine ⟨max F1 F2 + 1, m, hokm, ?_, by rw [hdepm, hdep'], ?_⟩
      · rw [hdm, hden', hden, dedupFilter_cons_false h R hf, hR]; rfl
      · intro g hg
        obtain ⟨g', rfl⟩ : ∃ g', g = g' + 1 := ⟨g - 1, by omega⟩
        have e1 := hstep1 g' (by omega)
        have e2 := hstep2 g' (by omega)
        simp only [skipDeleted, hvalid, Bool.and_self, if_true, hgetc, hf, Bool.not_false, step,
          hc, if_false, e1, e2]
  · -- the current entry stays
    have hflag : dd = true → h.2 = true := by
      intro hdd
      cases hh : h.2
      · exact absurd ⟨hdd, hh⟩ hskip
      · rfl
    refine ⟨0, pdMergeIterator p0 p1 (some c) dd, ?_, ?_, by simp [depth], ?_⟩
    · simp only [StateOk]
      refine ⟨h0, h1, fun _ => ⟨c, rfl, hv, fun hdd => ?_⟩⟩
      simp only [curFlag, hget]
      exact hflag hdd
    · rw [hdenm, dedupFilter_cons_true dd h R hflag]
    · intro g _
      cases dd with
      | false => simp [skipDeleted]
      | true => simp [skipDeleted, hvalid, hgetc, hflag rfl]


/-- The method `fetchMin` on a merge iterator neither side of which is valid. -/
theorem fetch_none (a b : pgOpIterator α) (last : Option (Fin 2)) (dd : Bool)
    (ha : StateOk a) (hb : StateOk b) (hva : a.Valid = false) (hvb : b.Valid = false) :
    FetchOk cmp a b last dd := by
  have ea := den_of_not_valid cmp a ha hva
  have eb := den_of_not_valid cmp b hb hvb
  refine ⟨1, pdMergeIterator a b last dd, ?_, ?_, by simp [depth], ?_⟩
  · simp only [StateOk]
    exact ⟨ha, hb, fun h => by simp [hva, hvb] at h⟩
  · rw [ea, eb, mergeShadow_nil_left]
    have : dedupFilter dd ([] : List (α × Bool)) = [] := by cases dd <;> simp [dedupFilter]
    rw [this]
    cases last with
    | none => simp [den]
    | some c => by_cases h0 : c = 0 <;> simp [den, h0, ea, eb]
  · intro g hg
    obtain ⟨g', rfl⟩ : ∃ g', g = g' + 1 := ⟨g - 1, by omega⟩
    simp [step, pickMin, skipDeleted, hva, hvb, Valid]

/-- One round of the induction for `fetchMin`. -/
theorem fetch_step (n k : Nat)
    (HN : ∀ it : pgOpIterator α, depth it ≤ n → StateOk it → it.Valid = true → NextOk cmp it)
    (IH : ∀ (a b : pgOpIterator α) (last : Option (Fin 2)) (dd : Bool), depth a ≤ n →
      depth b ≤ n → StateOk a → StateOk b → (den cmp a).length + (den cmp b).length ≤ k →
      FetchOk cmp a b last dd)
    (a b : pgOpIterator α) (last : Option (Fin 2)) (dd : Bool) (hda : depth a ≤ n)
    (hdb : depth b ≤ n) (ha : StateOk a) (hb : StateOk b)
    (hk : (den cmp a).length + (den cmp b).length ≤ k + 1) : FetchOk cmp a b last dd := by
  cases hva : a.Valid <;> cases hvb : b.Valid
  · exact fetch_none cmp a b last dd ha hb hva hvb
  · -- only side 1 is valid
    obtain ⟨y, ys, hdb', _⟩ := den_of_valid cmp b hb hvb
    have ea := den_of_not_valid cmp a ha hva
    obtain ⟨F, m, hok, hdm, hdep, hs⟩ := skip_spec cmp n k HN IH a b 1 dd y ys ys hda hdb ha hb
      (by simpa using hvb) (by simpa using hdb') (by simp [ea, mergeShadow_nil_left]) hk
    refine ⟨F + 1, m, hok, ?_, hdep, ?_⟩
    · rw [hdm, ea, hdb', mergeShadow_nil_left]
    · intro g hg
      obtain ⟨g', rfl⟩ : ∃ g', g = g' + 1 := ⟨g - 1, by omega⟩
      have := hs g' (by omega)
      simp only [step, pickMin, hva, hvb, Bool.false_and, Bool.false_eq_true, if_false, if_true]
      exact this
  · -- only side 0 is valid
    obtain ⟨x, xs, hda', _⟩ := den_of_valid cmp a ha hva
    have eb := den_of_not_valid cmp b hb hvb
    obtain ⟨F, m, hok, hdm, hdep, hs⟩ := skip_spec cmp n k HN IH a b 0 dd x xs xs hda hdb ha hb
      (by simpa using hva) (by simpa using hda') (by simp [eb, mergeShadow_nil_right]) hk
    refine ⟨F + 1, m, hok, ?_, hdep, ?_⟩
    · rw [hdm, eb, hda', mergeShadow_nil_right]
    · intro g hg
      obtain ⟨g', rfl⟩ : ∃ g', g = g' + 1 := ⟨g - 1, by omega⟩
      have := hs g' (by omega)
      simp only [step, pickMin, hva, hvb, Bool.and_false, Bool.false_eq_true, if_false, if_true]
      exact this
  · -- both sides are valid: compare the heads
    obtain ⟨x, xs, hda', hga⟩ := den_of_valid cmp a ha hva
    obtain ⟨y, ys, hdb', hgb⟩ := den_of_valid cmp b hb hvb
    rcases lt_trichotomy (cmp x.1 y.1) 0 with hlt | heq | hgt
    · obtain ⟨F, m, hok, hdm, hdep, hs⟩ := skip_spec cmp n k HN IH a b 0 dd x xs
        (mergeShadow cmp xs (y :: ys)) hda hdb ha hb (by simpa using hva) (by simpa using hda')
        (by simp [hdb']) hk
      refine ⟨F + 1, m, hok, ?_, hdep, ?_⟩
      · rw [hdm, hda', hdb', mergeShadow_cons_cons, if_pos hlt]
      · intro g hg
        obtain ⟨g', rfl⟩ : ∃ g', g = g' + 1 := ⟨g - 1, by omega⟩
        have := hs g' (by omega)
        simp only [step, pickMin, hva, hvb, Bool.and_self, if_true, hga, hgb, cmpPtr, hlt]
        exact this
    · obtain ⟨F1, b', hok', hden', hdep', hstep1⟩ := HN b hdb hb hvb
      have hlen : (den cmp a).length + (den cmp b').length ≤ k + 1 := by
        rw [hden', hdb']; rw [hdb'] at hk; simp at hk ⊢; omega
      obtain ⟨F, m, hok, hdm, hdep, hs⟩ := skip_spec cmp n k HN IH a b' 0 dd x xs
        (mergeShadow cmp xs ys) hda (by omega) ha hok' (by simpa using hva)
        (by simpa using hda') (by simp [hden', hdb']) hlen
      refine ⟨max F F1 + 1, m, hok, ?_, by rw [hdep, hdep'], ?_⟩
      · rw [hdm, hda', hdb', mergeShadow_cons_cons, if_neg (by omega), if_pos heq]
      · intro g hg
        obtain ⟨g', rfl⟩ : ∃ g', g = g' + 1 := ⟨g - 1, by omega⟩
        have := hs g' (by omega)
        have e1 := hstep1 g' (by omega)
        simp only [step, pickMin, hva, hvb, Bool.and_self, if_true, hga, hgb, cmpPtr, heq,
          lt_irrefl, if_false, e1]
        exact this
    · obtain ⟨F, m, hok, hdm, hdep, hs⟩ := skip_spec cmp n k HN IH a b 1 dd y ys
        (mergeShadow cmp (x :: xs) ys) hda hdb ha hb (by simpa using hvb) (by simpa using hdb')
        (by simp [hda']) hk
      refine ⟨F + 1, m, hok, ?_, hdep, ?_⟩
      · rw [hdm, hda', hdb', mergeShadow_cons_cons, if_neg (by omega), if_neg (by omega)]
      · intro g hg
        obtain ⟨g', rfl⟩ : ∃ g', g = g' + 1 := ⟨g - 1, by omega⟩
        have := hs g' (by omega)
        have h1 : ¬ cmp x.1 y.1 < 0 := by omega
        have h2 : ¬ cmp x.1 y.1 = 0 := by omega
        simp only [step, pickMin, hva, hvb, Bool.and_self, if_true, hga, hgb, cmpPtr, h1, h2,
          if_false]
        exact this

/-- The method `fetchMin` of a merge iterator over sides whose `Next` behaves. -/
theorem fetch_spec (n : Nat)
    (HN : ∀ it : pgOpIterator α, depth it ≤ n → StateOk it → it.Valid = true → NextOk cmp it)
    (k : Nat) :
    ∀ (a b : pgOpIterator α) (last : Option (Fin 2)) (dd : Bool), depth a ≤ n →
      depth b ≤ n → StateOk a → StateOk b → (den cmp a).length + (den cmp b).length ≤ k →
      FetchOk cmp a b last dd := by
  induction k with
  | zero =>
    intro a b last dd _ _ ha hb hk
    have ea : den cmp a = [] := List.length_eq_zero.mp (by omega)
    have eb : den cmp b = [] := List.length_eq_zero.mp (by omega)
    have hva : a.Valid = false := by
      by_contra h
      exact (valid_iff_den cmp a ha).mp (by simpa using h) ea
    have hvb : b.Valid = false := by
      by_contra h
      exact (valid_iff_den cmp b hb).mp (by simpa using h) eb
    exact fetch_none cmp a b last dd ha hb hva hvb
  | succ k ih =>
    intro a b last dd hda hdb ha hb hk
    exact fetch_step cmp n k HN ih a b last dd hda hdb ha hb hk


/-- The method `Next` on a valid iterator in a good state. -/
theorem next_spec (n : Nat) :
    ∀ it : pgOpIterator α, depth it < n → StateOk it → it.Valid = true → NextOk cmp it := by
  induction n with
  | zero => intro it h; omega
  | succ n ih =>
    intro it hdep hok hv
    cases it with
    | pdIterator deltas i =>
      refine ⟨1, pdIterator deltas (i + 1), trivial, ?_, rfl, ?_⟩
      · simp only [den, pairs, ← List.tail_drop, List.map_tail]
      · intro g hg
        obtain ⟨g', rfl⟩ : ∃ g', g = g' + 1 := ⟨g - 1, by omega⟩
        simp [step]
    | basePgIterator low high items i j =>
      refine ⟨1, basePgIterator low high items (i + 1) j, hok, ?_, rfl, ?_⟩
      · simp only [den, ← List.tail_drop, List.map_tail]
      · intro g hg
        obtain ⟨g', rfl⟩ : ∃ g', g = g' + 1 := ⟨g - 1, by omega⟩
        simp [step]
    | pdJoinIterator a b i =>
      simp only [StateOk] at hok
      simp only [depth] at hdep
      by_cases hi : i = 0
      · subst hi
        simp only [Valid, if_true] at hv
        obtain ⟨x, xs, hda, _⟩ := den_of_valid cmp a hok.1 hv
        obtain ⟨F, a', hok', hden', hdep', hs⟩ := ih a (by omega) hok.1 hv
        rw [hda, List.tail_cons] at hden'
        cases hva' : a'.Valid
        · have ea' := den_of_not_valid cmp a' hok' hva'
          refine ⟨F + 1, pdJoinIterator a' b 1, ⟨hok', hok.2⟩, ?_, by simp [depth, hdep'], ?_⟩
          · rw [ea'] at hden'
            simp [den, joinList, hda, ← hden']
          · intro g hg
            obtain ⟨g', rfl⟩ : ∃ g', g = g' + 1 := ⟨g - 1, by omega⟩
            simp [step, hs g' (by omega), hva']
        · obtain ⟨x', xs', hda', _⟩ := den_of_valid cmp a' hok' hva'
          refine ⟨F + 1, pdJoinIterator a' b 0, ⟨hok', hok.2⟩, ?_, by simp [depth, hdep'], ?_⟩
          · rw [hda'] at hden'
            simp [den, joinList, hda, hda', ← hden']
          · intro g hg
            obtain ⟨g', rfl⟩ : ∃ g', g = g' + 1 := ⟨g - 1, by omega⟩
            simp [step, hs g' (by omega), hva']
      · simp only [Valid, hi, if_false] at hv
        obtain ⟨F, b', hok', hden', hdep', hs⟩ := ih b (by omega) hok.2 hv
        refine ⟨F + 1, pdJoinIterator a b' i, ⟨hok.1, hok'⟩, ?_, by simp [depth, hdep'], ?_⟩
        · simp [den, joinList, hi, hden']
        · intro g hg
          obtain ⟨g', rfl⟩ : ∃ g', g = g' + 1 := ⟨g - 1, by omega⟩
          simp [step, hi, hs g' (by omega)]
    | pdMergeIterator a b last dd =>
      have hok2 := hok
      simp only [StateOk] at hok
      obtain ⟨ha, hb, hl⟩ := hok
      simp only [depth] at hdep
      have HN : ∀ it : pgOpIterator α, depth it ≤ n - 1 → StateOk it → it.Valid = true →
          NextOk cmp it := fun it hd => ih it (by omega)
      have hv' : (a.Valid || b.Valid) = true := by simpa [Valid] using hv
      obtain ⟨c, hc, hcv, _⟩ := hl hv'
      subst hc
      by_cases h0 : c = 0
      · subst h0
        simp only [if_true] at hcv
        obtain ⟨x, xs, hda, _⟩ := den_of_valid cmp a ha hcv
        obtain ⟨F1, a', hok', hden', hdep', hs1⟩ := ih a (by omega) ha hcv
        obtain ⟨F2, m, hokm, hdm, hdepm, hs2⟩ := fetch_spec cmp (n - 1) HN _ a' b (some 0) dd
          (by omega) (by omega) hok' hb (Nat.le_refl _)
        refine ⟨max F1 F2 + 1, m, hokm, ?_, by simp [depth, hdepm, hdep'], ?_⟩
        · rw [hdm, hden', hda]; simp [den, hda]
        · intro g hg
          obtain ⟨g', rfl⟩ : ∃ g', g = g' + 1 := ⟨g - 1, by omega⟩
          simp [step, hv, hs1 g' (by omega), hs2 g' (by omega)]
      · simp only [h0, if_false] at hcv
        obtain ⟨y, ys, hdb, _⟩ := den_of_valid cmp b hb hcv
        obtain ⟨F1, b', hok', hden', hdep', hs1⟩ := ih b (by omega) hb hcv
        obtain ⟨F2, m, hokm, hdm, hdepm, hs2⟩ := fetch_spec cmp (n - 1) HN _ a b' (some c) dd
          (by omega) (by omega) ha hok' (Nat.le_refl _)
        refine ⟨max F1 F2 + 1, m, hokm, ?_, by simp [depth, hdepm, hdep'], ?_⟩
        · rw [hdm, hden', hdb]; simp [den, h0, hdb]
        · intro g hg
          obtain ⟨g', rfl⟩ : ∃ g', g = g' + 1 := ⟨g - 1, by omega⟩
          simp [step, hv, h0, hs1 g' (by omega), hs2 g' (by omega)]

theorem next_ok (it : pgOpIterator α) (hok : StateOk it) (hv : it.Valid = true) :
    NextOk cmp it :=
  next_spec cmp (depth it + 1) it (Nat.lt_succ_self _) hok hv

theorem fetch_ok (a b : pgOpIterator α) (last : Option (Fin 2)) (dd : Bool)
    (ha : StateOk a) (hb : StateOk b) : FetchOk cmp a b last dd :=
  fetch_spec cmp (max (depth a) (depth b)) (fun it _ => next_ok cmp it) _ a b last dd
    (le_max_left _ _) (le_max_right _ _) ha hb (Nat.le_refl _)


/-- The binary search returns, with an index between its two bounds. -/
theorem searchLoop_some (f : Nat → Option Bool) (n : Nat) (hf : ∀ h, h < n → (f h).isSome) :
    ∀ fuel i j, j - i ≤ fuel → i ≤ j → j ≤ n →
      ∃ k, searchLoop f fuel i j = some k ∧ i ≤ k ∧ k ≤ j := by
  intro fuel
  induction fuel with
  | zero =>
    intro i j hfu hij _
    have : ¬ i < j := by omega
    exact ⟨i, by simp [searchLoop, this], Nat.le_refl _, hij⟩
  | succ fuel ih =>
    intro i j hfu hij hjn
    by_cases hlt : i < j
    · have hh : (i + j) / 2 < n := by omega
      have hsome := hf _ hh
      cases hfh : f ((i + j) / 2) with
      | none => simp [hfh] at hsome
      | some v =>
        cases v with
        | false =>
          obtain ⟨k, hk, h1, h2⟩ := ih ((i + j) / 2 + 1) j (by omega) (by omega) hjn
          exact ⟨k, by simp [searchLoop, hlt, hfh, hk], by omega, h2⟩
        | true =>
          obtain ⟨k, hk, h1, h2⟩ := ih i ((i + j) / 2) (by omega) (by omega) (by omega)
          exact ⟨k, by simp [searchLoop, hlt, hfh, hk], h1, by omega⟩
    · exact ⟨i, by simp [searchLoop, hlt], Nat.le_refl _, hij⟩

theorem sortSearch_isSome (cmp : α → α → Int) (items : List α) (bound : α) :
    sortSearch items.length (fun i => (items[i]?).map (fun x => decide (cmp x bound ≥ 0)))
      = some (searchGE cmp items bound) ∧ searchGE cmp items bound ≤ items.length := by
  obtain ⟨k, hk, _, h2⟩ := searchLoop_some
    (fun i => (items[i]?).map (fun x => decide (cmp x bound ≥ 0))) items.length
    (fun h hh => by simp [List.getElem?_eq_getElem hh]) items.length 0 items.length
    (by omega) (Nat.zero_le _) (Nat.le_refl _)
  have e : sortSearch items.length
      (fun i => (items[i]?).map (fun x => decide (cmp x bound ≥ 0))) = some k := hk
  have e' : searchGE cmp items bound = k := by simp only [searchGE, e, Option.getD_some]
  rw [e']
  exact ⟨hk, h2⟩

/-- The method `Init`: with enough fuel it returns an iterator in a good state, standing for
the sequence `initDen`. -/
theorem init_spec (it : pgOpIterator α) :
    ∃ (F : Nat) (it' : pgOpIterator α), StateOk it' ∧ den cmp it' = initDen cmp it
      ∧ ∀ fuel, F ≤ fuel → Init cmp fuel it = some it' := by
  induction it with
  | pdIterator deltas i =>
    exact ⟨0, pdIterator deltas i, trivial, rfl, fun _ _ => rfl⟩
  | basePgIterator low high items i j =>
    obtain ⟨e1, _⟩ := sortSearch_isSome cmp items low
    obtain ⟨e2, h2⟩ := sortSearch_isSome cmp items high
    refine ⟨0, basePgIterator low high items (searchGE cmp items low)
      (searchGE cmp items high), h2, rfl, ?_⟩
    intro g _
    simp only [Init, e1, e2]
  | pdJoinIterator a b i iha ihb =>
    obtain ⟨F1, a', hoka, hda, hsa⟩ := iha
    obtain ⟨F2, b', hokb, hdb, hsb⟩ := ihb
    refine ⟨max F1 F2, pdJoinIterator a' b' i, ⟨hoka, hokb⟩, ?_, ?_⟩
    · simp [den, initDen, hda, hdb]
    · intro g hg
      simp only [Init, hsa g (by omega), hsb g (by omega)]
  | pdMergeIterator a b last dd iha ihb =>
    obtain ⟨F1, a', hoka, hda, hsa⟩ := iha
    obtain ⟨F2, b', hokb, hdb, hsb⟩ := ihb
    obtain ⟨F3, m, hokm, hdm, _, hsm⟩ := fetch_ok cmp a' b' last dd hoka hokb
    refine ⟨max (max F1 F2) F3, m, hokm, ?_, ?_⟩
    · rw [hdm, hda, hdb]; rfl
    · intro g hg
      simp only [Init, hsa g (by omega), hsb g (by omega), fetchMin, hsm g (by omega)]

/-- The caller's loop reads out exactly the sequence the iterator stands for. -/
theorem drain_spec (k : Nat) :
    ∀ it : pgOpIterator α, StateOk it → (den cmp it).length ≤ k →
      ∃ F, ∀ fuel, F ≤ fuel → drain cmp fuel it = some ((den cmp it).map liftPtr) := by
  induction k with
  | zero =>
    intro it hok hlen
    have e : den cmp it = [] := List.length_eq_zero.mp (by omega)
    have hv : it.Valid = false := by
      by_contra h
      exact (valid_iff_den cmp it hok).mp (by simpa using h) e
    refine ⟨1, ?_⟩
    intro g hg
    obtain ⟨g', rfl⟩ : ∃ g', g = g' + 1 := ⟨g - 1, by omega⟩
    simp [drain, hv, e]
  | succ k ih =>
    intro it hok hlen
    cases hv : it.Valid
    · have e := den_of_not_valid cmp it hok hv
      refine ⟨1, ?_⟩
      intro g hg
      obtain ⟨g', rfl⟩ : ∃ g', g = g' + 1 := ⟨g - 1, by omega⟩
      simp [drain, hv, e]
    · obtain ⟨x, rest, hd, hg⟩ := den_of_valid cmp it hok hv
      obtain ⟨F1, it', hok', hden', _, hs⟩ := next_ok cmp it hok hv
      rw [hd, List.tail_cons] at hden'
      obtain ⟨F2, h2⟩ := ih it' hok' (by rw [hden']; rw [hd] at hlen; simpa using hlen)
      refine ⟨max F1 F2 + 1, ?_⟩
      intro g hgf
      obtain ⟨g', rfl⟩ : ∃ g', g = g' + 1 := ⟨g - 1, by omega⟩
      simp only [drain, hv, if_true, hg, Next, hs g' (by omega), h2 g' (by omega), hden', hd,
        List.map_cons, Option.map_some']
      rfl

/-- Building the iterator of a chain, initialising it and reading it to the end returns, with
enough fuel, the sequence `emitted`. -/
theorem iterate_spec (pd : pageDelta α) (low high : α) (dd : Bool) :
    ∃ F, ∀ fuel, F ≤ fuel →
      iterate cmp fuel pd low high dd = some ((emitted cmp pd low high dd).map liftPtr) := by
  obtain ⟨F1, it', hok, hd, hs⟩ := init_spec cmp (newPgOpIterator cmp pd low high dd).1
  obtain ⟨F2, h2⟩ := drain_spec cmp _ it' hok (Nat.le_refl _)
  refine ⟨max F1 F2, ?_⟩
  intro g hg
  simp only [iterate, hs g (by omega), h2 g (by omega), hd, emitted]

end Simulation

/-! ## Chains of record deltas above a base page -/

section RecordChains

variable {α : Type} (cmp : α → α → Int)

theorem walk_recChain (low : α) (ds : List (PageItem α)) (items : List α) (st : walkState α) :
    walk cmp low (recChain ds items) st =
      { hasReloc := st.hasReloc, fdSz := st.fdSz, high := st.high,
        pdCount := st.pdCount + ds.length, steps := st.steps + ds.length,
        itrs1 := some (pgOpIterator.basePgIterator low st.high items 0 0) } := by
  induction ds generalizing st with
  | nil => simp [recChain, walk]
  | cons d ds ih =>
    cases hd : d.isInsert <;> simp [recChain, hd, walk, ih] <;> omega

theorem collectDeltas_recChain (low high : α) (ds : List (PageItem α)) (items : List α)
    (n : Nat) (hn : ds.length ≤ n) :
    collectDeltas cmp low high n (recChain ds items)
      = ds.filter (fun d => inRange cmp low high d.itm) := by
  induction ds generalizing n with
  | nil => cases n <;> simp [recChain, collectDeltas]
  | cons d ds ih =>
    obtain ⟨m, rfl⟩ : ∃ m, n = m + 1 := ⟨n - 1, by simp at hn; omega⟩
    have hm : ds.length ≤ m := by simp at hn; omega
    obtain ⟨itm, ins⟩ := d
    cases ins <;> by_cases hr : cmp itm high < 0 ∧ cmp itm low ≥ 0 <;>
      simp [recChain, collectDeltas, ih m hm, inRange, hr]

/-- The iterator `newPgOpIterator` builds for record deltas above a base page. -/
theorem newPgOpIterator_recChain (low high : α) (ds : List (PageItem α)) (items : List α)
    (dd : Bool) :
    (newPgOpIterator cmp (recChain ds items) low high dd).1
      = pgOpIterator.pdMergeIterator (pgOpIterator.pdIterator (deltaRun cmp low high ds) 0)
          (pgOpIterator.basePgIterator low high items 0 0) none dd := by
  simp only [newPgOpIterator, walk_recChain, assemble, Nat.zero_add]
  cases ds with
  | nil => simp [deltaRun, pageItemSorter.Run, sortStable]
  | cons d ds =>
    simp [deltaRun, collectDeltas_recChain cmp low high (d :: ds) items (ds.length + 1)
      (by simp)]

theorem emitted_recChain (low high : α) (ds : List (PageItem α)) (items : List α) (dd : Bool) :
    emitted cmp (recChain ds items) low high dd
      = dedupFilter dd (mergeShadow cmp (pairs (deltaRun cmp low high ds))
          (baseSlice cmp low high items)) := by
  unfold emitted
  rw [newPgOpIterator_recChain]
  simp [pgOpIterator.initDen, baseSlice, pairs]

end RecordChains

/-! ## Binary search and the base-page slice -/

section SearchFacts

variable {α : Type} (cmp : α → α → Int)

/-- Binary search over a predicate that, once true, stays true: the result splits the
indices below `n` into those where it is false and those where it is true. -/
theorem searchLoop_split (f : Nat → Option Bool) (P : Nat → Bool) (n : Nat)
    (hf : ∀ h, h < n → f h = some (P h))
    (hmono : ∀ a b, a ≤ b → b < n → P a = true → P b = true) :
    ∀ fuel i j k, i ≤ j → j ≤ n → (∀ x, x < i → P x = false) →
      (∀ x, j ≤ x → x < n → P x = true) → searchLoop f fuel i j = some k →
      (∀ x, x < k → P x = false) ∧ (∀ x, k ≤ x → x < n → P x = true) := by
  intro fuel
  induction fuel with
  | zero =>
    intro i j k hij _ hlo hhi hk
    have hlt : ¬ i < j := by
      intro h; simp [searchLoop, h] at hk
    simp only [searchLoop, hlt, if_false, Option.some.injEq] at hk
    subst hk
    exact ⟨hlo, fun x hx hxn => hhi x (by omega) hxn⟩
  | succ fuel ih =>
    intro i j k hij hjn hlo hhi hk
    by_cases hlt : i < j
    · have hh : (i + j) / 2 < n := by omega
      simp only [searchLoop, hlt, if_true, hf _ hh] at hk
      cases hP : P ((i + j) / 2) with
      | false =>
        simp only [hP] at hk
        refine ih ((i + j) / 2 + 1) j k (by omega) hjn ?_ hhi hk
        intro x hx
        cases hPx : P x with
        | false => rfl
        | true =>
          have := hmono x ((i + j) / 2) (by omega) hh hPx
          rw [hP] at this
          exact absurd this (by simp)
      | true =>
        simp only [hP] at hk
        refine ih i ((i + j) / 2) k (by omega) (by omega) hlo ?_ hk
        intro x hx hxn
        exact hmono ((i + j) / 2) x hx hxn hP
    · simp only [searchLoop, hlt, if_false, Option.some.injEq] at hk
      subst hk
      exact ⟨hlo, fun x hx hxn => hhi x (by omega) hxn⟩

/-- On a page along which `cmp(·, bound) >= 0` stays true once true, `sort.Search` returns
the index that splits the page. -/
theorem searchGE_split (items : List α) (bound : α)
    (hmono : ∀ a b (ha : a < items.length) (hb : b < items.length), a ≤ b →
      cmp items[a] bound ≥ 0 → cmp items[b] bound ≥ 0) :
    ∀ x (hx : x < items.length), (cmp items[x] bound ≥ 0 ↔ searchGE cmp items bound ≤ x) := by
  obtain ⟨hs, _⟩ := sortSearch_isSome cmp items bound
  have key := searchLoop_split
    (fun i => (items[i]?).map (fun x => decide (cmp x bound ≥ 0)))
    (fun i => match items[i]? with
      | some x => decide (cmp x bound ≥ 0)
      | none => false)
    items.length
    (fun h hh => by simp [List.getElem?_eq_getElem hh])
    (fun a b hab hb hPa => by
      have ha : a < items.length := by omega
      simp only [List.getElem?_eq_getElem ha, List.getElem?_eq_getElem hb,
        decide_eq_true_eq] at hPa ⊢
      exact hmono a b ha hb hab hPa)
    items.length 0 items.length (searchGE cmp items bound) (Nat.zero_le _) (Nat.le_refl _)
    (fun x hx => by omega) (fun x hx hxn => by omega) hs
  intro x hx
  constructor
  · intro hge
    by_contra hlt
    have := key.1 x (by omega)
    simp only [List.getElem?_eq_getElem hx, decide_eq_false_iff_not] at this
    exact this hge
  · intro hle
    have := key.2 x hle hx
    simpa only [List.getElem?_eq_getElem hx, decide_eq_true_eq] using this

/-- The elements of a list at the indices in `[lo, hi)` are the elements a predicate selects,
when the predicate holds exactly at those indices. -/
theorem slice_eq_filter (Q : α → Bool) :
    ∀ (l : List α) (lo hi : Nat),
      (∀ x (hx : x < l.length), Q l[x] = true ↔ (lo ≤ x ∧ x < hi)) →
      (l.take hi).drop lo = l.filter Q := by
  intro l
  induction l with
  | nil => intro lo hi _; simp
  | cons a l ih =>
    intro lo hi h
    have h0 := h 0 (by simp)
    simp only [List.getElem_cons_zero] at h0
    have hrest : ∀ x (hx : x < l.length), Q l[x] = true ↔ (lo - 1 ≤ x ∧ x < hi - 1) := by
      intro x hx
      have := h (x + 1) (by simp; omega)
      simp only [List.getElem_cons_succ] at this
      rw [this]
      omega
    have ih' := ih (lo - 1) (hi - 1) hrest
    cases hi with
    | zero =>
      have hq : Q a = false := by
        cases hQ : Q a
        · rfl
        · exact absurd (h0.mp hQ).2 (by omega)
      simp only [Nat.zero_sub, List.take_zero, List.drop_nil] at ih' ⊢
      simp [hq, ← ih']
    | succ hi =>
      simp only [Nat.add_sub_cancel] at ih'
      cases lo with
      | zero =>
        have hq : Q a = true := h0.mpr ⟨Nat.le_refl _, by omega⟩
        simp only [Nat.zero_sub, List.drop_zero] at ih'
        simp [hq, ih']
      | succ lo =>
        have hq : Q a = false := by
          cases hQ : Q a
          · rfl
          · exact absurd (h0.mp hQ).1 (by omega)
        simp only [Nat.add_sub_cancel] at ih'
        simp [hq, ih']

end SearchFacts

/-! ## Comparators that order by a key -/

section KeyFacts

variable {α κ : Type} [LinearOrder κ] (cmp : α → α → Int) (key : α → κ) (S : α → Prop)

/-- On a page sorted by key, the slice between the two binary searches holds exactly the
items in `[low, high)`. -/
theorem baseSlice_eq_filter (low high : α) (items : List α)
    (hlow : MonoBound cmp key S low) (hhigh : MonoBound cmp key S high)
    (hS : ∀ x ∈ items, S x) (hsorted : items.Pairwise (fun a b => key a ≤ key b)) :
    baseSlice cmp low high items
      = (items.filter (inRange cmp low high)).map (fun x => (x, true)) := by
  have hidx : ∀ a b (ha : a < items.length) (hb : b < items.length), a ≤ b →
      key items[a] ≤ key items[b] := by
    intro a b ha hb hab
    rcases Nat.lt_or_eq_of_le hab with h | h
    · exact (List.pairwise_iff_getElem.mp hsorted) a b ha hb h
    · subst h; exact le_refl _
  have hmem : ∀ a (ha : a < items.length), S items[a] :=
    fun a ha => hS _ (List.getElem_mem ha)
  have e1 := searchGE_split cmp items low
    (fun a b ha hb hab h => hlow.mono _ _ (hmem a ha) (hmem b hb) (hidx a b ha hb hab) h)
  have e2 := searchGE_split cmp items high
    (fun a b ha hb hab h => hhigh.mono _ _ (hmem a ha) (hmem b hb) (hidx a b ha hb hab) h)
  unfold baseSlice
  rw [slice_eq_filter (inRange cmp low high) items (searchGE cmp items low)
    (searchGE cmp items high)]
  intro x hx
  simp only [inRange, decide_eq_true_eq]
  rw [e1 x hx]
  have := e2 x hx
  constructor
  · rintro ⟨h1, h2⟩
    refine ⟨h2, ?_⟩
    by_contra hc
    have := this.mpr (by omega)
    omega
  · rintro ⟨h1, h2⟩
    refine ⟨?_, h1⟩
    by_contra hc
    have := this.mp (by omega)
    omega

/-! ### The stable sort -/

theorem stableInsert_perm {β : Type} (less : β → β → Bool) (x : β) (l : List β) :
    (stableInsert less x l).Perm (x :: l) := by
  induction l with
  | nil => exact List.Perm.refl _
  | cons b l ih =>
    unfold stableInsert
    cases less b x
    · exact List.Perm.refl _
    · simp only [if_true]
      exact (List.Perm.cons b ih).trans (List.Perm.swap x b l)

theorem sortStable_perm {β : Type} (less : β → β → Bool) (l : List β) :
    (sortStable less l).Perm l := by
  induction l with
  | nil => exact List.Perm.refl _
  | cons a l ih =>
    unfold sortStable
    exact (stableInsert_perm less a _).trans (List.Perm.cons a ih)

/-- Inserting into a list sorted by a key keeps it sorted, when `less` is the strict order
of the keys. -/
theorem stableInsert_sorted {β : Type} (less : β → β → Bool) (kf : β → κ) (x : β) (l : List β)
    (hless : ∀ b ∈ l, (less b x = true ↔ kf b < kf x))
    (hs : l.Pairwise (fun a b => kf a ≤ kf b)) :
    (stableInsert less x l).Pairwise (fun a b => kf a ≤ kf b) := by
  induction l with
  | nil => simp [stableInsert]
  | cons b l ih =>
    unfold stableInsert
    rw [List.pairwise_cons] at hs
    cases hb : less b x
    · simp only [Bool.false_eq_true, if_false]
      have hxb : kf x ≤ kf b := by
        have := (hless b (List.mem_cons_self _ _)).not.mp (by simp [hb])
        exact not_lt.mp this
      rw [List.pairwise_cons]
      refine ⟨?_, List.pairwise_cons.mpr hs⟩
      intro c hc
      rcases List.mem_cons.mp hc with rfl | hc
      · exact hxb
      · exact le_trans hxb (hs.1 c hc)
    · simp only [if_true]
      have hbx : kf b < kf x := (hless b (List.mem_cons_self _ _)).mp hb
      rw [List.pairwise_cons]
      refine ⟨?_, ih (fun c hc => hless c (List.mem_cons_of_mem _ hc)) hs.2⟩
      intro c hc
      rcases List.mem_cons.mp ((stableInsert_perm less x l).subset hc) with rfl | hc
      · exact le_of_lt hbx
      · exact hs.1 c hc

theorem sortStable_sorted {β : Type} (less : β → β → Bool) (kf : β → κ) (l : List β)
    (hless : ∀ a ∈ l, ∀ b ∈ l, (less a b = true ↔ kf a < kf b)) :
    (sortStable less l).Pairwise (fun a b => kf a ≤ kf b) := by
  induction l with
  | nil => simp [sortStable]
  | cons a l ih =>
    unfold sortStable
    apply stableInsert_sorted
    · intro b hb
      exact hless b (List.mem_cons_of_mem _ ((sortStable_perm less l).subset hb)) a
        (List.mem_cons_self _ _)
    · exact ih (fun x hx y hy => hless x (List.mem_cons_of_mem _ hx) y
        (List.mem_cons_of_mem _ hy))

/-- The stable insertion does not move an element past the elements selected by `p`, when
no two selected elements are `less` than one another. -/
theorem stableInsert_filter {β : Type} (less : β → β → Bool) (p : β → Bool) (x : β)
    (l : List β) (h : ∀ b ∈ l, p x = true → p b = true → less b x = false) :
    (stableInsert less x l).filter p = (x :: l).filter p := by
  induction l with
  | nil => simp [stableInsert]
  | cons b l ih =>
    unfold stableInsert
    cases hb : less b x
    · simp
    · simp only [if_true]
      have ih' := ih (fun c hc => h c (List.mem_cons_of_mem _ hc))
      cases hpx : p x
      · simp [List.filter_cons, ih', hpx]
      · have hpb : p b = false := by
          cases hpb : p b
          · rfl
          · have := h b (List.mem_cons_self _ _) hpx hpb
            rw [hb] at this
            exact absurd this (by simp)
        simp [List.filter_cons, ih', hpx, hpb]

/-- Stability: the elements selected by `p` keep their order through the sort. -/
theorem sortStable_filter {β : Type} (less : β → β → Bool) (p : β → Bool) (l : List β)
    (h : ∀ a ∈ l, ∀ b ∈ l, p a = true → p b = true → less a b = false) :
    (sortStable less l).filter p = l.filter p := by
  induction l with
  | nil => simp [sortStable]
  | cons a l ih =>
    unfold sortStable
    rw [stableInsert_filter less p a _ (fun b hb hpa hpb =>
      h b (List.mem_cons_of_mem _ ((sortStable_perm less l).subset hb)) a
        (List.mem_cons_self _ _) hpb hpa)]
    have ih' := ih (fun x hx y hy => h x (List.mem_cons_of_mem _ hx) y
      (List.mem_cons_of_mem _ hy))
    simp [List.filter_cons, ih']

/-! ### The merge rule -/

theorem KeyOrd.cases {cmp : α → α → Int} {key : α → κ} {S : α → Prop}
    (hK : KeyOrd cmp key S) (a b : α) (ha : S a) (hb : S b) :
    (cmp a b < 0 ∧ key a < key b) ∨ (cmp a b = 0 ∧ key a = key b)
      ∨ (0 < cmp a b ∧ key b < key a) := by
  rcases lt_trichotomy (cmp a b) 0 with h | h | h
  · exact Or.inl ⟨h, (hK.lt_iff a b ha hb).mp h⟩
  · exact Or.inr (Or.inl ⟨h, (hK.eq_iff a b ha hb).mp h⟩)
  · refine Or.inr (Or.inr ⟨h, ?_⟩)
    have h1 : ¬ key a < key b := fun hc => by
      have := (hK.lt_iff a b ha hb).mpr hc; omega
    have h2 : ¬ key a = key b := fun hc => by
      have := (hK.eq_iff a b ha hb).mpr hc; omega
    exact lt_of_le_of_ne (not_lt.mp h1) (fun e => h2 e.symm)

theorem mem_mergeShadow (X Y : List (α × Bool)) (e : α × Bool)
    (h : e ∈ mergeShadow cmp X Y) : e ∈ X ∨ e ∈ Y := by
  induction X generalizing Y with
  | nil => rw [mergeShadow_nil_left] at h; exact Or.inr h
  | cons x xs ihX =>
    induction Y with
    | nil => rw [mergeShadow_nil_right] at h; exact Or.inl h
    | cons y ys ihY =>
      rw [mergeShadow_cons_cons] at h
      split_ifs at h with h1 h2
      · rcases List.mem_cons.mp h with rfl | h
        · exact Or.inl (List.mem_cons_self _ _)
        · rcases ihX _ h with h | h
          · exact Or.inl (List.mem_cons_of_mem _ h)
          · exact Or.inr h
      · rcases List.mem_cons.mp h with rfl | h
        · exact Or.inl (List.mem_cons_self _ _)
        · rcases ihX _ h with h | h
          · exact Or.inl (List.mem_cons_of_mem _ h)
          · exact Or.inr (List.mem_cons_of_mem _ h)
      · rcases List.mem_cons.mp h with rfl | h
        · exact Or.inr (List.mem_cons_self _ _)
        · rcases ihY h with h | h
          · exact Or.inl h
          · exact Or.inr (List.mem_cons_of_mem _ h)

/-- Every entry of the first sequence is emitted. -/
theorem mem_mergeShadow_left (X Y : List (α × Bool)) (e : α × Bool) (h : e ∈ X) :
    e ∈ mergeShadow cmp X Y := by
  induction X generalizing Y with
  | nil => cases h
  | cons x xs ihX =>
    induction Y with
    | nil => rw [mergeShadow_nil_right]; exact h
    | cons y ys ihY =>
      rw [mergeShadow_cons_cons]
      split_ifs with h1 h2
      · rcases List.mem_cons.mp h with rfl | h
        · exact List.mem_cons_self _ _
        · exact List.mem_cons_of_mem _ (ihX _ h)
      · rcases List.mem_cons.mp h with rfl | h
        · exact List.mem_cons_self _ _
        · exact List.mem_cons_of_mem _ (ihX _ h)
      · exact List.mem_cons_of_mem _ ihY

/-- An entry of the second sequence is emitted unless an entry of the first compares equal
to it. -/
theorem mem_mergeShadow_right (X Y : List (α × Bool)) (e : α × Bool) (h : e ∈ Y)
    (hne : ∀ x ∈ X, cmp x.1 e.1 ≠ 0) : e ∈ mergeShadow cmp X Y := by
  induction X generalizing Y with
  | nil => rw [mergeShadow_nil_left]; exact h
  | cons x xs ihX =>
    induction Y with
    | nil => cases h
    | cons y ys ihY =>
      have hne' : ∀ x' ∈ xs, cmp x'.1 e.1 ≠ 0 := fun x' hx' => hne x' (List.mem_cons_of_mem _ hx')
      rw [mergeShadow_cons_cons]
      split_ifs with h1 h2
      · exact List.mem_cons_of_mem _ (ihX _ h hne')
      · rcases List.mem_cons.mp h with rfl | h
        · exact absurd h2 (hne x (List.mem_cons_self _ _))
        · exact List.mem_cons_of_mem _ (ihX _ h hne')
      · rcases List.mem_cons.mp h with rfl | h
        · exact List.mem_cons_self _ _
        · exact List.mem_cons_of_mem _ (ihY h)

/-- The merge of two sequences sorted by key is sorted by key; `r` is `≤` or `<`. -/
theorem mergeShadow_sorted (hK : KeyOrd cmp key S) (r : κ → κ → Prop)
    (hr1 : ∀ a b, a < b → r a b) (hr2 : ∀ a b c, a < b → r b c → r a c)
    (X Y : List (α × Bool)) (hSX : ∀ p ∈ X, S p.1) (hSY : ∀ p ∈ Y, S p.1)
    (hX : X.Pairwise (fun a b => r (key a.1) (key b.1)))
    (hY : Y.Pairwise (fun a b => r (key a.1) (key b.1))) :
    (mergeShadow cmp X Y).Pairwise (fun a b => r (key a.1) (key b.1)) := by
  induction X generalizing Y with
  | nil => rw [mergeShadow_nil_left]; exact hY
  | cons x xs ihX =>
    induction Y with
    | nil => rw [mergeShadow_nil_right]; exact hX
    | cons y ys ihY =>
      have hx := hSX x (List.mem_cons_self _ _)
      have hy := hSY y (List.mem_cons_self _ _)
      have hSxs : ∀ p ∈ xs, S p.1 := fun p hp => hSX p (List.mem_cons_of_mem _ hp)
      have hSys : ∀ p ∈ ys, S p.1 := fun p hp => hSY p (List.mem_cons_of_mem _ hp)
      have hX' := List.pairwise_cons.mp hX
      have hY' := List.pairwise_cons.mp hY
      rw [mergeShadow_cons_cons]
      rcases hK.cases x.1 y.1 hx hy with ⟨c, k⟩ | ⟨c, k⟩ | ⟨c, k⟩
      · rw [if_pos c, List.pairwise_cons]
        refine ⟨?_, ihX (y :: ys) hSxs hSY hX'.2 hY⟩
        intro e he
        rcases mem_mergeShadow cmp _ _ e he with he | he
        · exact hX'.1 e he
        · rcases List.mem_cons.mp he with rfl | he
          · exact hr1 _ _ k
          · exact hr2 _ _ _ k (hY'.1 e he)
      · rw [if_neg (by omega), if_pos c, List.pairwise_cons]
        refine ⟨?_, ihX ys hSxs hSys hX'.2 hY'.2⟩
        intro e he
        rcases mem_mergeShadow cmp _ _ e he with he | he
        · exact hX'.1 e he
        · rw [k]; exact hY'.1 e he
      · rw [if_neg (by omega), if_neg (by omega), List.pairwise_cons]
        refine ⟨?_, ihY hSys hY'.2⟩
        intro e he
        rcases mem_mergeShadow cmp _ _ e he with he | he
        · rcases List.mem_cons.mp he with rfl | he
          · exact hr1 _ _ k
          · exact hr2 _ _ _ k (hX'.1 e he)
        · exact hY'.1 e he

/-- The entries of one key in the merge of a sequence sorted by key and a sequence strictly
sorted by key: the entries of that key in the first sequence, in their order, and when it has
none, those of the second. -/
theorem mergeShadow_filter_key (hK : KeyOrd cmp key S) (k : κ) (p : α × Bool → Bool)
    (hp : ∀ e, S e.1 → (p e = true ↔ key e.1 = k))
    (X Y : List (α × Bool)) (hSX : ∀ e ∈ X, S e.1) (hSY : ∀ e ∈ Y, S e.1)
    (hX : X.Pairwise (fun a b => key a.1 ≤ key b.1))
    (hY : Y.Pairwise (fun a b => key a.1 < key b.1)) :
    (mergeShadow cmp X Y).filter p
      = if (X.filter p).isEmpty then Y.filter p else X.filter p := by
  induction X generalizing Y with
  | nil => rw [mergeShadow_nil_left]; simp
  | cons x xs ihX =>
    induction Y with
    | nil =>
      rw [mergeShadow_nil_right]
      cases h : ((x :: xs).filter p).isEmpty
      · simp
      · simp [List.isEmpty_iff.mp h]
    | cons y ys ihY =>
      have hx := hSX x (List.mem_cons_self _ _)
      have hy := hSY y (List.mem_cons_self _ _)
      have hSxs : ∀ e ∈ xs, S e.1 := fun e he => hSX e (List.mem_cons_of_mem _ he)
      have hSys : ∀ e ∈ ys, S e.1 := fun e he => hSY e (List.mem_cons_of_mem _ he)
      have hX' := List.pairwise_cons.mp hX
      have hY' := List.pairwise_cons.mp hY
      have hys_nil : k ≤ key y.1 → ys.filter p = [] := by
        intro hk
        rw [List.filter_eq_nil_iff]
        intro e' he' hpe
        have e1 := (hp e' (hSys e' he')).mp hpe
        have e2 := hY'.1 e' he'
        rw [e1] at e2
        exact absurd e2 (not_lt.mpr hk)
      have hY_nil : k < key y.1 → (y :: ys).filter p = [] := by
        intro hk
        rw [List.filter_eq_nil_iff]
        intro e' he' hpe
        have e1 := (hp e' (hSY e' he')).mp hpe
        rcases List.mem_cons.mp he' with rfl | he''
        · rw [e1] at hk; exact lt_irrefl _ hk
        · have e2 := hY'.1 e' he''
          rw [e1] at e2
          exact lt_irrefl _ (lt_trans hk e2)
      have hX_nil : k < key x.1 → (x :: xs).filter p = [] := by
        intro hk
        rw [List.filter_eq_nil_iff]
        intro e' he' hpe
        have e1 := (hp e' (hSX e' he')).mp hpe
        rcases List.mem_cons.mp he' with rfl | he''
        · rw [e1] at hk; exact lt_irrefl _ hk
        · have e2 := hX'.1 e' he''
          rw [e1] at e2
          exact absurd hk (not_lt.mpr e2)
      have hself : ∀ l : List (α × Bool), (if l.isEmpty = true then [] else l) = l := by
        intro l; cases l <;> simp
      rw [mergeShadow_cons_cons]
      have hfx : (x :: xs).filter p = if p x = true then x :: xs.filter p else xs.filter p :=
        List.filter_cons
      have hfy : (y :: ys).filter p = if p y = true then y :: ys.filter p else ys.filter p :=
        List.filter_cons
      rcases hK.cases x.1 y.1 hx hy with ⟨c, hk⟩ | ⟨c, hk⟩ | ⟨c, hk⟩
      · rw [if_pos c, List.filter_cons, ihX (y :: ys) hSxs hSY hX'.2 hY]
        by_cases hpx : p x = true
        · have e := (hp x hx).mp hpx
          rw [hY_nil (by rw [← e]; exact hk), hself]
          simp only [hfx, hpx, if_true, List.isEmpty_cons, Bool.false_eq_true, if_false]
        · simp only [hfx, hpx, Bool.false_eq_true, if_false]
      · rw [if_neg (by omega), if_pos c, List.filter_cons, ihX ys hSxs hSys hX'.2 hY'.2]
        by_cases hpx : p x = true
        · have e := (hp x hx).mp hpx
          rw [hys_nil (by rw [← e, hk]), hself]
          simp only [hfx, hpx, if_true, List.isEmpty_cons, Bool.false_eq_true, if_false]
        · have hpy : ¬ p y = true := fun h => hpx ((hp x hx).mpr (by rw [hk]; exact (hp y hy).mp h))
          simp only [hfx, hfy, hpx, hpy, Bool.false_eq_true, if_false]
      · rw [if_neg (by omega), if_neg (by omega), List.filter_cons, ihY hSys hY'.2]
        by_cases hpy : p y = true
        · have e := (hp y hy).mp hpy
          rw [hX_nil (by rw [← e]; exact hk)]
          simp only [hfy, hpy, if_true, List.isEmpty_nil, hys_nil (by rw [← e])]
        · simp only [hfy, hpy, Bool.false_eq_true, if_false]

/-- The merge of a sequence sorted by key and a sequence strictly sorted by key is made of
the first sequence and the entries of the second that no entry of the first compares equal
to. -/
theorem mergeShadow_perm (hK : KeyOrd cmp key S)
    (X Y : List (α × Bool)) (hSX : ∀ e ∈ X, S e.1) (hSY : ∀ e ∈ Y, S e.1)
    (hX : X.Pairwise (fun a b => key a.1 ≤ key b.1))
    (hY : Y.Pairwise (fun a b => key a.1 < key b.1)) :
    (mergeShadow cmp X Y).Perm
      (X ++ Y.filter (fun y => X.all (fun x => decide (cmp x.1 y.1 ≠ 0)))) := by
  induction X generalizing Y with
  | nil => rw [mergeShadow_nil_left]; simp
  | cons x xs ihX =>
    induction Y with
    | nil => rw [mergeShadow_nil_right]; simp
    | cons y ys ihY =>
      have hx := hSX x (List.mem_cons_self _ _)
      have hy := hSY y (List.mem_cons_self _ _)
      have hSxs : ∀ e ∈ xs, S e.1 := fun e he => hSX e (List.mem_cons_of_mem _ he)
      have hSys : ∀ e ∈ ys, S e.1 := fun e he => hSY e (List.mem_cons_of_mem _ he)
      have hX' := List.pairwise_cons.mp hX
      have hY' := List.pairwise_cons.mp hY
      -- an entry whose key is above the key of `x` is not shadowed by `x`
      have hne : ∀ e : α × Bool, S e.1 → key x.1 < key e.1 → cmp x.1 e.1 ≠ 0 := by
        intro e he hlt h0
        have := (hK.eq_iff x.1 e.1 hx he).mp h0
        rw [this] at hlt
        exact lt_irrefl _ hlt
      rw [mergeShadow_cons_cons]
      rcases hK.cases x.1 y.1 hx hy with ⟨c, hk⟩ | ⟨c, hk⟩ | ⟨c, hk⟩
      · rw [if_pos c]
        have ih := ihX (y :: ys) hSxs hSY hX'.2 hY
        have e : (y :: ys).filter (fun e => (x :: xs).all (fun x => decide (cmp x.1 e.1 ≠ 0)))
            = (y :: ys).filter (fun e => xs.all (fun x => decide (cmp x.1 e.1 ≠ 0))) := by
          apply List.filter_congr
          intro e he
          have hlt : key x.1 < key e.1 := by
            rcases List.mem_cons.mp he with rfl | he'
            · exact hk
            · exact lt_trans hk (hY'.1 e he')
          simp [hne e (hSY e he) hlt]
        rw [e]
        exact List.Perm.cons x ih
      · rw [if_neg (by omega), if_pos c]
        have ih := ihX ys hSxs hSys hX'.2 hY'.2
        have e : (y :: ys).filter (fun e => (x :: xs).all (fun x => decide (cmp x.1 e.1 ≠ 0)))
            = ys.filter (fun e => xs.all (fun x => decide (cmp x.1 e.1 ≠ 0))) := by
          rw [List.filter_cons]
          have : ((x :: xs).all (fun x => decide (cmp x.1 y.1 ≠ 0))) = false := by simp [c]
          rw [this]
          simp only [Bool.false_eq_true, if_false]
          apply List.filter_congr
          intro e he
          have hlt : key x.1 < key e.1 := by rw [hk]; exact hY'.1 e he
          simp [hne e (hSys e he) hlt]
        rw [e]
        exact List.Perm.cons x ih
      · rw [if_neg (by omega), if_neg (by omega)]
        have ih := ihY hSys hY'.2
        have e : (y :: ys).filter (fun e => (x :: xs).all (fun x => decide (cmp x.1 e.1 ≠ 0)))
            = y :: ys.filter (fun e => (x :: xs).all (fun x => decide (cmp x.1 e.1 ≠ 0))) := by
          rw [List.filter_cons]
          have : ((x :: xs).all (fun x => decide (cmp x.1 y.1 ≠ 0))) = true := by
            rw [List.all_eq_true]
            intro e he
            have hlt : key y.1 < key e.1 := by
              rcases List.mem_cons.mp he with rfl | he'
              · exact hk
              · exact lt_of_lt_of_le hk (hX'.1 e he')
            simp only [decide_eq_true_eq]
            intro h0
            have := (hK.eq_iff e.1 y.1 (hSX e he) hy).mp h0
            rw [this] at hlt
            exact lt_irrefl _ hlt
          rw [this]
          simp
        rw [e]
        exact (List.Perm.cons y ih).trans List.perm_middle.symm

end KeyFacts

/-! ## The comparator `cmpItem` on real items -/

theorem keyOrd_cmpItem : KeyOrd cmpItem keyOf (fun p => p.isReal = true) := by
  constructor
  · intro a b ha hb
    cases a <;> cases b <;> simp [ItemPtr.isReal] at ha hb
    rw [cmpItem_real]
    exact bytesCompare_lt_iff _ _
  · intro a b ha hb
    cases a <;> cases b <;> simp [ItemPtr.isReal] at ha hb
    rw [cmpItem_real]
    exact bytesCompare_eq_iff _ _

theorem monoBound_cmpItem (bound : ItemPtr) :
    MonoBound cmpItem keyOf (fun p => p.isReal = true) bound := by
  constructor
  intro a b ha hb hab h
  cases a <;> cases b <;> simp [ItemPtr.isReal] at ha hb
  rename_i x y
  cases bound with
  | MinItem => simp [cmpItem]
  | MaxItem => simp [cmpItem] at h
  | real m =>
    rw [cmpItem_real] at h ⊢
    have h1 : ¬ item.Key x < item.Key m := fun hc => by
      have := (bytesCompare_lt_iff _ _).mpr hc; omega
    have h2 : ¬ item.Key y < item.Key m := fun hc =>
      h1 (lt_of_le_of_lt hab hc)
    have := (bytesCompare_lt_iff (item.Key y) (item.Key m)).not.mpr h2
    omega

theorem cmpItem_le_iff (a b : ItemPtr) (ha : a.isReal = true) (hb : b.isReal = true) :
    cmpItem a b ≤ 0 ↔ keyOf a ≤ keyOf b := by
  have h1 := keyOrd_cmpItem.lt_iff a b ha hb
  have h2 := keyOrd_cmpItem.eq_iff a b ha hb
  rw [le_iff_lt_or_eq, le_iff_lt_or_eq, h1, h2]

/-- The sorted delta run is sorted by key. -/
theorem deltaRun_sorted (low high : ItemPtr) (ds : List (PageItem ItemPtr))
    (hds : ∀ d ∈ ds, d.itm.isReal = true) :
    (deltaRun cmpItem low high ds).Pairwise (fun a b => keyOf a.itm ≤ keyOf b.itm) := by
  unfold deltaRun pageItemSorter.Run
  apply sortStable_sorted
  intro a ha b hb
  simp only [PageItem.Item, decide_eq_true_eq]
  exact keyOrd_cmpItem.lt_iff _ _ (hds a (List.mem_of_mem_filter ha))
    (hds b (List.mem_of_mem_filter hb))

theorem deltaRun_perm (low high : ItemPtr) (ds : List (PageItem ItemPtr)) :
    (deltaRun cmpItem low high ds).Perm (ds.filter (fun d => inRange cmpItem low high d.itm)) :=
  sortStable_perm _ _

theorem mem_deltaRun (low high : ItemPtr) (ds : List (PageItem ItemPtr)) (d : PageItem ItemPtr) :
    d ∈ deltaRun cmpItem low high ds ↔ d ∈ ds ∧ inRange cmpItem low high d.itm = true := by
  rw [(deltaRun_perm low high ds).mem_iff, List.mem_filter]

/-- The slice of a page of real items sorted by key. -/
theorem baseSlice_real (low high : ItemPtr) (items : List ItemPtr)
    (hitems : ∀ x ∈ items, x.isReal = true)
    (hbase : items.Pairwise (fun a b => cmpItem a b ≤ 0)) :
    baseSlice cmpItem low high items
      = (items.filter (inRange cmpItem low high)).map (fun x => (x, true)) := by
  apply baseSlice_eq_filter cmpItem keyOf (fun p => p.isReal = true) low high items
    (monoBound_cmpItem low) (monoBound_cmpItem high) hitems
  exact hbase.imp_of_mem (fun ha hb h => (cmpItem_le_iff _ _ (hitems _ ha) (hitems _ hb)).mp h)

/-- The sequence emitted for record deltas above a sorted base page of real items. -/
theorem emitted_real (low high : ItemPtr) (ds : List (PageItem ItemPtr)) (items : List ItemPtr)
    (dd : Bool) (hitems : ∀ x ∈ items, x.isReal = true)
    (hbase : items.Pairwise (fun a b => cmpItem a b ≤ 0)) :
    emitted cmpItem (recChain ds items) low high dd
      = dedupFilter dd (mergeShadow cmpItem (pairs (deltaRun cmpItem low high ds))
          ((items.filter (inRange cmpItem low high)).map (fun x => (x, true)))) := by
  rw [emitted_recChain, baseSlice_real low high items hitems hbase]

theorem dedupFilter_sublist {α : Type} (dd : Bool) (l : List (α × Bool)) :
    (dedupFilter dd l).Sublist l := by
  cases dd
  · exact List.Sublist.refl _
  · exact List.filter_sublist _

theorem mem_pairs {α : Type} (l : List (PageItem α)) (p : α × Bool) :
    p ∈ pairs l ↔ (⟨p.1, p.2⟩ : PageItem α) ∈ l := by
  simp only [pairs, List.mem_map, PageItem.Item, PageItem.IsInsert]
  constructor
  · rintro ⟨d, hd, rfl⟩
    exact hd
  · intro h
    exact ⟨_, h, rfl⟩

/-- Everything merged from a delta run and a page slice of real items is a real item. -/
theorem merged_real (low high : ItemPtr) (ds : List (PageItem ItemPtr)) (items : List ItemPtr)
    (hds : ∀ d ∈ ds, d.itm.isReal = true) (hitems : ∀ x ∈ items, x.isReal = true) :
    (∀ p ∈ pairs (deltaRun cmpItem low high ds), p.1.isReal = true)
      ∧ (∀ p ∈ (items.filter (inRange cmpItem low high)).map (fun x => (x, true)),
          p.1.isReal = true) := by
  constructor
  · intro p hp
    rw [mem_pairs, mem_deltaRun] at hp
    exact hds _ hp.1
  · intro p hp
    simp only [List.mem_map, List.mem_filter] at hp
    obtain ⟨x, ⟨hx, _⟩, rfl⟩ := hp
    exact hitems x hx

/-- The order of the output on every chain: for record deltas above a base page of real
items strictly ascending by key, every range and either dedup setting, the iterator of
`newPgOpIterator` (Init, then Get/Next while Valid) returns, with enough fuel, a sequence in
which no item is above a later one, `compare(prev, curr) <= 0`; the sequence is strictly
ascending when no two record deltas have equal keys, so equal keys among the deltas are the
only way the strict order is lost. -/
theorem iterator_ascending (ds : List (PageItem ItemPtr)) (items : List ItemPtr)
    (low high : ItemPtr) (dd : Bool) (hds : ∀ d ∈ ds, d.itm.isReal = true)
    (hitems : ∀ x ∈ items, x.isReal = true)
    (hbase : items.Pairwise (fun a b => cmpItem a b < 0)) :
    ∃ (F : Nat) (out : List (ItemPtr × Bool)),
      (∀ fuel, F ≤ fuel →
        iterate cmpItem fuel (recChain ds items) low high dd = some (out.map liftPtr))
      ∧ out.Pairwise (fun p c => cmpItem p.1 c.1 ≤ 0)
      ∧ (ds.Pairwise (fun a b => cmpItem a.itm b.itm ≠ 0) →
          out.Pairwise (fun p c => cmpItem p.1 c.1 < 0)) := by
  obtain ⟨F, hF⟩ := iterate_spec cmpItem (recChain ds items) low high dd
  refine ⟨F, _, hF, ?_, ?_⟩
  all_goals
    rw [emitted_real low high ds items dd hitems (hbase.imp (fun h => le_of_lt h))]
    obtain ⟨hX, hY⟩ := merged_real low high ds items hds hitems
    have hYs : ((items.filter (inRange cmpItem low high)).map (fun x => (x, true))).Pairwise
        (fun a b => keyOf a.1 < keyOf b.1) := by
      rw [List.pairwise_map]
      apply List.Pairwise.filter
      exact hbase.imp_of_mem (fun ha hb h =>
        (keyOrd_cmpItem.lt_iff _ _ (hitems _ ha) (hitems _ hb)).mp h)
    have hXs : (pairs (deltaRun cmpItem low high ds)).Pairwise
        (fun a b => keyOf a.1 ≤ keyOf b.1) := by
      unfold pairs
      rw [List.pairwise_map]
      exact deltaRun_sorted low high ds hds
    have hmem : ∀ p ∈ mergeShadow cmpItem (pairs (deltaRun cmpItem low high ds))
        ((items.filter (inRange cmpItem low high)).map (fun x => (x, true))),
        p.1.isReal = true := by
      intro p hp
      rcases mem_mergeShadow cmpItem _ _ p hp with h | h
      · exact hX p h
      · exact hY p h
  · refine List.Pairwise.sublist (dedupFilter_sublist dd _) ?_
    have := mergeShadow_sorted cmpItem keyOf (fun p => p.isReal = true) keyOrd_cmpItem
      (fun a b => a ≤ b) (fun a b h => le_of_lt h) (fun a b c h1 h2 => le_of_lt (lt_of_lt_of_le h1 h2))
      _ _ hX hY hXs (hYs.imp (fun h => le_of_lt h))
    exact this.imp_of_mem (fun ha hb h => (cmpItem_le_iff _ _ (hmem _ ha) (hmem _ hb)).mpr h)
  · intro hdist
    refine List.Pairwise.sublist (dedupFilter_sublist dd _) ?_
    have hXne : (pairs (deltaRun cmpItem low high ds)).Pairwise
        (fun a b => keyOf a.1 ≠ keyOf b.1) := by
      unfold pairs
      rw [List.pairwise_map]
      have h1 : (ds.filter (fun d => inRange cmpItem low high d.itm)).Pairwise
          (fun a b => keyOf a.itm ≠ keyOf b.itm) := by
        apply List.Pairwise.filter
        exact hdist.imp_of_mem (fun ha hb h hk =>
          h ((keyOrd_cmpItem.eq_iff _ _ (hds _ ha) (hds _ hb)).mpr hk))
      exact (List.Perm.pairwise_iff (fun h => Ne.symm h) (deltaRun_perm low high ds)).mpr h1
    have hXlt : (pairs (deltaRun cmpItem low high ds)).Pairwise
        (fun a b => keyOf a.1 < keyOf b.1) :=
      (hXs.and hXne).imp (fun h => lt_of_le_of_ne h.1 h.2)
    have := mergeShadow_sorted cmpItem keyOf (fun p => p.isReal = true) keyOrd_cmpItem
      (fun a b => a < b) (fun a b h => h) (fun a b c h1 h2 => lt_trans h1 h2)
      _ _ hX hY hXlt hYs
    exact this.imp_of_mem (fun ha hb h =>
      (keyOrd_cmpItem.lt_iff _ _ (hmem _ ha) (hmem _ hb)).mpr h)

theorem example_items_encoded :
    (newItem [97] [] 1 false none).map ItemPtr.real = some itemA1
      ∧ (newItem [97] [] 2 false none).map ItemPtr.real = some itemA2
      ∧ (newItem [97] [] 3 true none).map ItemPtr.real = some itemA3
      ∧ (newItem [98] [] 1 false none).map ItemPtr.real = some itemB
      ∧ (newItem [99] [] 1 false none).map ItemPtr.real = some itemC
      ∧ (newItem [100] [] 1 false none).map ItemPtr.real = some itemD := by
  decide

theorem iterator_ascending_witness :
    ∃ (F : Nat) (out : List (ItemPtr × Bool)),
      (∀ fuel, F ≤ fuel →
        iterate cmpItem fuel (recChain [⟨itemB, true⟩, ⟨itemA3, false⟩] [itemA1, itemB, itemC])
          ItemPtr.MinItem itemC true = some (out.map liftPtr))
      ∧ out.Pairwise (fun p c => cmpItem p.1 c.1 ≤ 0)
      ∧ (([⟨itemB, true⟩, ⟨itemA3, false⟩] : List (PageItem ItemPtr)).Pairwise
            (fun a b => cmpItem a.itm b.itm ≠ 0) →
          out.Pairwise (fun p c => cmpItem p.1 c.1 < 0)) :=
  iterator_ascending [⟨itemB, true⟩, ⟨itemA3, false⟩] [itemA1, itemB, itemC]
    ItemPtr.MinItem itemC true (by decide) (by decide) (by decide)

/-- C4, the code at the failing input: two insert deltas of key `a`, seqno 2 prepended to
seqno 1, above the base page `[a, b]`.  Over `[Min, Max)`, with dedup off and with dedup on,
the iterator returns both deltas, the newer first, and then `b`: the two successive items
compare equal, not strictly ascending.  The base entry `a` is dropped by the equal-key branch
of `fetchMin`, as it is under the single delta; the older delta of the key is not. -/
theorem equal_key_deltas_both_returned :
    iterate cmpItem 8 (recChain [⟨itemA2, true⟩, ⟨itemA1, true⟩] [itemA1, itemB])
        ItemPtr.MinItem ItemPtr.MaxItem false
      = some [(some itemA2, true), (some itemA1, true), (some itemB, true)]
    ∧ iterate cmpItem 8 (recChain [⟨itemA2, true⟩, ⟨itemA1, true⟩] [itemA1, itemB])
        ItemPtr.MinItem ItemPtr.MaxItem true
      = some [(some itemA2, true), (some itemA1, true), (some itemB, true)]
    ∧ cmpItem itemA2 itemA1 = 0 ∧ ¬ (cmpItem itemA2 itemA1 < 0)
    ∧ iterate cmpItem 8 (recChain [⟨itemA2, true⟩] [itemA1, itemB])
        ItemPtr.MinItem ItemPtr.MaxItem false
      = some [(some itemA2, true), (some itemB, true)] := by
  decide

/-! ## Most recent first -/

/-- Items of equal key lie in the same ranges. -/
theorem inRange_of_same_key (low high a q : ItemPtr) (ha : a.isReal = true)
    (hq : q.isReal = true) (h : cmpItem a q = 0) (hr : inRange cmpItem low high q = true) :
    inRange cmpItem low high a = true := by
  have hk : keyOf a = keyOf q := (keyOrd_cmpItem.eq_iff a q ha hq).mp h
  simp only [inRange, decide_eq_true_eq] at hr ⊢
  constructor
  · by_contra hc
    have := (monoBound_cmpItem high).mono a q ha hq (le_of_eq hk) (by omega)
    omega
  · exact (monoBound_cmpItem low).mono q a hq ha (le_of_eq hk.symm) hr.2

/-- The entries of the delta run with the key of `q` are the deltas of that key, in chain
order. -/
theorem deltaRun_filter_key (low high q : ItemPtr) (ds : List (PageItem ItemPtr))
    (hds : ∀ d ∈ ds, d.itm.isReal = true) (hq : q.isReal = true)
    (hqr : inRange cmpItem low high q = true) :
    (deltaRun cmpItem low high ds).filter (fun d => decide (cmpItem d.itm q = 0))
      = ds.filter (fun d => decide (cmpItem d.itm q = 0)) := by
  unfold deltaRun pageItemSorter.Run
  rw [sortStable_filter]
  · rw [List.filter_filter]
    apply List.filter_congr
    intro d hd
    by_cases h : cmpItem d.itm q = 0
    · simp [h, inRange_of_same_key low high d.itm q (hds d hd) hq h hqr]
    · simp [h]
  · intro a ha b hb hpa hpb
    simp only [decide_eq_true_eq] at hpa hpb
    have hra := hds a (List.mem_of_mem_filter ha)
    have hrb := hds b (List.mem_of_mem_filter hb)
    have e1 := (keyOrd_cmpItem.eq_iff _ _ hra hq).mp hpa
    have e2 := (keyOrd_cmpItem.eq_iff _ _ hrb hq).mp hpb
    simp only [PageItem.Item, decide_eq_false_iff_not]
    rw [keyOrd_cmpItem.lt_iff _ _ hra hrb, e1, e2]
    exact lt_irrefl _

/-- A page strictly ascending by key has at most one item of a given key. -/
theorem filter_key_length_le_one (q : ItemPtr) (items : List ItemPtr)
    (hitems : ∀ x ∈ items, x.isReal = true) (hq : q.isReal = true)
    (hbase : items.Pairwise (fun a b => cmpItem a b < 0)) :
    (items.filter (fun x => decide (cmpItem x q = 0))).length ≤ 1 := by
  have hp := List.Pairwise.filter (fun x => decide (cmpItem x q = 0)) hbase
  have hall : ∀ x ∈ items.filter (fun x => decide (cmpItem x q = 0)),
      x.isReal = true ∧ keyOf x = keyOf q := by
    intro x hx
    rw [List.mem_filter] at hx
    have := hitems x hx.1
    exact ⟨this, (keyOrd_cmpItem.eq_iff x q this hq).mp (by simpa using hx.2)⟩
  match hl : items.filter (fun x => decide (cmpItem x q = 0)) with
  | [] => simp
  | [_] => simp
  | x :: y :: rest =>
    rw [hl] at hp hall
    have hx := hall x (by simp)
    have hy := hall y (by simp)
    have hlt := (List.pairwise_cons.mp hp).1 y (by simp)
    rw [keyOrd_cmpItem.lt_iff x y hx.1 hy.1, hx.2, hy.2] at hlt
    exact absurd hlt (lt_irrefl _)

/-- The entries of the key of `q` in the merged sequence of a chain, without dedup. -/
theorem emitted_filter_key (ds : List (PageItem ItemPtr)) (items : List ItemPtr)
    (low high q : ItemPtr) (hds : ∀ d ∈ ds, d.itm.isReal = true)
    (hitems : ∀ x ∈ items, x.isReal = true)
    (hbase : items.Pairwise (fun a b => cmpItem a b < 0)) (hq : q.isReal = true)
    (hqr : inRange cmpItem low high q = true) :
    (emitted cmpItem (recChain ds items) low high false).filter
        (fun e => decide (cmpItem e.1 q = 0))
      = if (ds.filter (fun d => decide (cmpItem d.itm q = 0))).isEmpty then
          (items.filter (fun x => decide (cmpItem x q = 0))).map (fun x => (x, true))
        else pairs (ds.filter (fun d => decide (cmpItem d.itm q = 0))) := by
  rw [emitted_real low high ds items false hitems (hbase.imp (fun h => le_of_lt h))]
  obtain ⟨hX, hY⟩ := merged_real low high ds items hds hitems
  have hYs : ((items.filter (inRange cmpItem low high)).map (fun x => (x, true))).Pairwise
      (fun a b => keyOf a.1 < keyOf b.1) := by
    rw [List.pairwise_map]
    apply List.Pairwise.filter
    exact hbase.imp_of_mem (fun ha hb h =>
      (keyOrd_cmpItem.lt_iff _ _ (hitems _ ha) (hitems _ hb)).mp h)
  have hXs : (pairs (deltaRun cmpItem low high ds)).Pairwise
      (fun a b => keyOf a.1 ≤ keyOf b.1) := by
    unfold pairs
    rw [List.pairwise_map]
    exact deltaRun_sorted low high ds hds
  have hm := mergeShadow_filter_key cmpItem keyOf (fun p => p.isReal = true) keyOrd_cmpItem
    (keyOf q) (fun e => decide (cmpItem e.1 q = 0))
    (fun e he => by
      simp only [decide_eq_true_eq]
      exact keyOrd_cmpItem.eq_iff e.1 q he hq)
    _ _ hX hY hXs hYs
  have eX : (pairs (deltaRun cmpItem low high ds)).filter (fun e => decide (cmpItem e.1 q = 0))
      = pairs (ds.filter (fun d => decide (cmpItem d.itm q = 0))) := by
    unfold pairs
    rw [List.filter_map, ← deltaRun_filter_key low high q ds hds hq hqr]
    rfl
  have eY : ((items.filter (inRange cmpItem low high)).map (fun x => (x, true))).filter
        (fun e => decide (cmpItem e.1 q = 0))
      = (items.filter (fun x => decide (cmpItem x q = 0))).map (fun x => (x, true)) := by
    rw [List.filter_map, List.filter_filter]
    congr 1
    apply List.filter_congr
    intro x hx
    by_cases h : cmpItem x q = 0
    · simp [h, inRange_of_same_key low high x q (hitems x hx) hq h hqr]
    · simp [h]
  simp only [dedupFilter, Bool.false_eq_true, if_false]
  rw [hm, eX, eY]
  cases hds' : ds.filter (fun d => decide (cmpItem d.itm q = 0)) <;> simp [pairs]

/-- The items of one key in the output, on every chain: for record deltas above a base page
of real items strictly ascending by key, and every key in `[low, high)` (the key of a real
item `q`), the iterator built without dedup returns, as its items of that key, the deltas of
that key in chain order (the delta nearest the chain head first), or the base entry of that
key when no delta has it.  So the most recent delta comes first and the base entry is
shadowed, and exactly one item of the key is returned when at most one delta has the key and
a delta or a base entry carries it; a second delta of the key is what breaks it. -/
theorem most_recent_first (ds : List (PageItem ItemPtr)) (items : List ItemPtr)
    (low high q : ItemPtr) (hds : ∀ d ∈ ds, d.itm.isReal = true)
    (hitems : ∀ x ∈ items, x.isReal = true)
    (hbase : items.Pairwise (fun a b => cmpItem a b < 0)) (hq : q.isReal = true)
    (hqr : inRange cmpItem low high q = true) :
    ∃ (F : Nat) (out : List (ItemPtr × Bool)),
      (∀ fuel, F ≤ fuel →
        iterate cmpItem fuel (recChain ds items) low high false = some (out.map liftPtr))
      ∧ out.filter (fun e => decide (cmpItem e.1 q = 0))
          = (if (ds.filter (fun d => decide (cmpItem d.itm q = 0))).isEmpty then
              (items.filter (fun x => decide (cmpItem x q = 0))).map (fun x => (x, true))
            else pairs (ds.filter (fun d => decide (cmpItem d.itm q = 0))))
      ∧ ((ds.filter (fun d => decide (cmpItem d.itm q = 0))).length ≤ 1 →
          ((∃ d ∈ ds, cmpItem d.itm q = 0) ∨ (∃ x ∈ items, cmpItem x q = 0)) →
          (out.filter (fun e => decide (cmpItem e.1 q = 0))).length = 1) := by
  obtain ⟨F, hF⟩ := iterate_spec cmpItem (recChain ds items) low high false
  have he := emitted_filter_key ds items low high q hds hitems hbase hq hqr
  refine ⟨F, _, hF, he, ?_⟩
  intro hlen hcarry
  rw [he]
  match hf : ds.filter (fun d => decide (cmpItem d.itm q = 0)) with
  | [] =>
    rw [hf]
    simp only [List.isEmpty_nil, if_true, List.length_map]
    have hnone : ¬ ∃ d ∈ ds, cmpItem d.itm q = 0 := by
      rintro ⟨d, hd, hc⟩
      have : d ∈ ds.filter (fun d => decide (cmpItem d.itm q = 0)) :=
        List.mem_filter.mpr ⟨hd, by simpa using hc⟩
      rw [hf] at this
      cases this
    rcases hcarry with h | ⟨x, hx, hc⟩
    · exact absurd h hnone
    · have hle := filter_key_length_le_one q items hitems hq hbase
      have hpos : 0 < (items.filter (fun x => decide (cmpItem x q = 0))).length :=
        List.length_pos_of_mem (List.mem_filter.mpr ⟨hx, by simpa using hc⟩)
      omega
  | [d] => rw [hf]; simp [pairs]
  | d :: d' :: rest =>
    rw [hf] at hlen
    simp at hlen

theorem most_recent_first_witness :
    ∃ (F : Nat) (out : List (ItemPtr × Bool)),
      (∀ fuel, F ≤ fuel →
        iterate cmpItem fuel
          (recChain [⟨itemA3, false⟩, ⟨itemA2, true⟩] [itemA1, itemB]) ItemPtr.MinItem
          ItemPtr.MaxItem false = some (out.map liftPtr))
      ∧ out.filter (fun e => decide (cmpItem e.1 itemA1 = 0))
          = (if (([⟨itemA3, false⟩, ⟨itemA2, true⟩] : List (PageItem ItemPtr)).filter
                (fun d => decide (cmpItem d.itm itemA1 = 0))).isEmpty then
              ([itemA1, itemB].filter (fun x => decide (cmpItem x itemA1 = 0))).map
                (fun x => (x, true))
            else pairs (([⟨itemA3, false⟩, ⟨itemA2, true⟩] : List (PageItem ItemPtr)).filter
                (fun d => decide (cmpItem d.itm itemA1 = 0))))
      ∧ ((([⟨itemA3, false⟩, ⟨itemA2, true⟩] : List (PageItem ItemPtr)).filter
              (fun d => decide (cmpItem d.itm itemA1 = 0))).length ≤ 1 →
          ((∃ d ∈ ([⟨itemA3, false⟩, ⟨itemA2, true⟩] : List (PageItem ItemPtr)),
              cmpItem d.itm itemA1 = 0) ∨ (∃ x ∈ [itemA1, itemB], cmpItem x itemA1 = 0)) →
          (out.filter (fun e => decide (cmpItem e.1 itemA1 = 0))).length = 1) :=
  most_recent_first [⟨itemA3, false⟩, ⟨itemA2, true⟩] [itemA1, itemB] ItemPtr.MinItem
    ItemPtr.MaxItem itemA1 (by decide) (by decide) (by decide) (by decide) (by decide)

/-- C5, the code at the failing input: a delete delta of key `a` (seqno 3) prepended to an
insert delta of key `a` (seqno 2), above the base page `[a, b]`.  Over `[Min, Max)` without
dedup the iterator returns two items of key `a`, the delete delta and then the older insert
delta, not the most recent one alone; with dedup on it returns the older insert of `a` and
`b`, so the deleted key is returned.  Under the delete delta alone the base entry `a` is
shadowed: the output is the delete delta and `b`, and with dedup on it is `b`. -/
theorem older_delta_of_key_returned :
    iterate cmpItem 8 (recChain [⟨itemA3, false⟩, ⟨itemA2, true⟩] [itemA1, itemB])
        ItemPtr.MinItem ItemPtr.MaxItem false
      = some [(some itemA3, false), (some itemA2, true), (some itemB, true)]
    ∧ cmpItem itemA3 itemA1 = 0 ∧ cmpItem itemA2 itemA1 = 0
    ∧ iterate cmpItem 8 (recChain [⟨itemA3, false⟩, ⟨itemA2, true⟩] [itemA1, itemB])
        ItemPtr.MinItem ItemPtr.MaxItem true
      = some [(some itemA2, true), (some itemB, true)]
    ∧ iterate cmpItem 8 (recChain [⟨itemA3, false⟩] [itemA1, itemB])
        ItemPtr.MinItem ItemPtr.MaxItem false
      = some [(some itemA3, false), (some itemB, true)]
    ∧ iterate cmpItem 8 (recChain [⟨itemA3, false⟩] [itemA1, itemB])
        ItemPtr.MinItem ItemPtr.MaxItem true
      = some [(some itemB, true)] := by
  decide

/-! ## Range clipping -/

/-- For a real item, being at or above `low` can be read off either argument order. -/
theorem cmpItem_low_swap (low x : ItemPtr) (hx : x.isReal = true) :
    cmpItem low x ≤ 0 ↔ cmpItem x low ≥ 0 := by
  cases low with
  | MinItem =>
    cases x with
    | real m => simp [cmpItem]
    | MinItem => simp [ItemPtr.isReal] at hx
    | MaxItem => simp [ItemPtr.isReal] at hx
  | MaxItem =>
    cases x with
    | real m => simp [cmpItem]
    | MinItem => simp [ItemPtr.isReal] at hx
    | MaxItem => simp [ItemPtr.isReal] at hx
  | real m =>
    have h1 := cmpItem_le_iff (ItemPtr.real m) x rfl hx
    have h2 := keyOrd_cmpItem.lt_iff x (ItemPtr.real m) hx rfl
    rw [h1]
    constructor
    · intro h
      by_contra hc
      exact absurd (h2.mp (by omega)) (not_lt.mpr h)
    · intro h
      by_contra hc
      have := h2.mpr (not_le.mp hc)
      omega

theorem inRange_iff (low high x : ItemPtr) (hx : x.isReal = true) :
    inRange cmpItem low high x = true ↔ cmpItem low x ≤ 0 ∧ cmpItem x high < 0 := by
  simp only [inRange, decide_eq_true_eq]
  rw [cmpItem_low_swap low x hx]
  exact And.comm

theorem mem_dedupFilter {α : Type} (dd : Bool) (l : List (α × Bool)) (e : α × Bool) :
    e ∈ dedupFilter dd l ↔ e ∈ l ∧ (dd = true → e.2 = true) := by
  cases dd <;> simp [dedupFilter]

/-- C6 (amended). Range clipping: for record deltas above a base page of real items sorted
by key (no Split or Merge deltas) and every `low` and `high` (real items or sentinels), with
either dedup setting, every item `i` the iterator returns satisfies `compare(low, i) <= 0`
and `compare(i, high) < 0`; every delta item satisfying both bounds is returned unless dedup
is on and the delta is a delete, and every base item satisfying both bounds whose key is not
the key of a delta is returned. -/
theorem range_clipping (ds : List (PageItem ItemPtr)) (items : List ItemPtr)
    (low high : ItemPtr) (dd : Bool) (hds : ∀ d ∈ ds, d.itm.isReal = true)
    (hitems : ∀ x ∈ items, x.isReal = true)
    (hbase : items.Pairwise (fun a b => cmpItem a b ≤ 0)) :
    ∃ (F : Nat) (out : List (ItemPtr × Bool)),
      (∀ fuel, F ≤ fuel →
        iterate cmpItem fuel (recChain ds items) low high dd = some (out.map liftPtr))
      ∧ (∀ e ∈ out, cmpItem low e.1 ≤ 0 ∧ cmpItem e.1 high < 0)
      ∧ (∀ d ∈ ds, cmpItem low d.itm ≤ 0 ∧ cmpItem d.itm high < 0 →
          (dd = true → d.isInsert = true) → (d.itm, d.isInsert) ∈ out)
      ∧ (∀ x ∈ items, cmpItem low x ≤ 0 ∧ cmpItem x high < 0 →
          (∀ d ∈ ds, cmpItem d.itm x ≠ 0) → (x, true) ∈ out) := by
  obtain ⟨F, hF⟩ := iterate_spec cmpItem (recChain ds items) low high dd
  refine ⟨F, _, hF, ?_, ?_, ?_⟩
  all_goals rw [emitted_real low high ds items dd hitems hbase]
  · intro e he
    rw [mem_dedupFilter] at he
    rcases mem_mergeShadow cmpItem _ _ e he.1 with h | h
    · rw [mem_pairs, mem_deltaRun] at h
      exact (inRange_iff low high e.1 (hds _ h.1)).mp h.2
    · simp only [List.mem_map, List.mem_filter] at h
      obtain ⟨x, ⟨hx, hr⟩, rfl⟩ := h
      exact (inRange_iff low high x (hitems x hx)).mp hr
  · intro d hd hr hflag
    rw [mem_dedupFilter]
    refine ⟨mem_mergeShadow_left cmpItem _ _ _ ?_, hflag⟩
    rw [mem_pairs, mem_deltaRun]
    exact ⟨hd, (inRange_iff low high d.itm (hds d hd)).mpr hr⟩
  · intro x hx hr hne
    rw [mem_dedupFilter]
    refine ⟨mem_mergeShadow_right cmpItem _ _ _ ?_ ?_, fun _ => rfl⟩
    · simp only [List.mem_map, List.mem_filter]
      exact ⟨x, ⟨hx, (inRange_iff low high x (hitems x hx)).mpr hr⟩, rfl⟩
    · intro e he
      rw [mem_pairs, mem_deltaRun] at he
      exact hne _ he.1

theorem range_clipping_witness :
    ∃ (F : Nat) (out : List (ItemPtr × Bool)),
      (∀ fuel, F ≤ fuel →
        iterate cmpItem fuel (recChain [⟨itemD, true⟩, ⟨itemA3, false⟩] [itemA1, itemB, itemC])
          itemB itemD true = some (out.map liftPtr))
      ∧ (∀ e ∈ out, cmpItem itemB e.1 ≤ 0 ∧ cmpItem e.1 itemD < 0)
      ∧ (∀ d ∈ ([⟨itemD, true⟩, ⟨itemA3, false⟩] : List (PageItem ItemPtr)),
          cmpItem itemB d.itm ≤ 0 ∧ cmpItem d.itm itemD < 0 →
          (true = true → d.isInsert = true) → (d.itm, d.isInsert) ∈ out)
      ∧ (∀ x ∈ [itemA1, itemB, itemC], cmpItem itemB x ≤ 0 ∧ cmpItem x itemD < 0 →
          (∀ d ∈ ([⟨itemD, true⟩, ⟨itemA3, false⟩] : List (PageItem ItemPtr)),
            cmpItem d.itm x ≠ 0) → (x, true) ∈ out) :=
  range_clipping [⟨itemD, true⟩, ⟨itemA3, false⟩] [itemA1, itemB, itemC] itemB itemD true
    (by decide) (by decide) (by decide)

/-- C6, counterexample: a delete delta of key `a` above the base page `[b]`, iterated over
`[Min, Max)` with dedup on.  The delta's item satisfies both bounds and no other delta has
its key, yet the iterator returns the base item only. -/
theorem range_clipping_counterexample :
    iterate cmpItem 8 (recChain [⟨itemA3, false⟩] [itemB]) ItemPtr.MinItem ItemPtr.MaxItem true
      = some [(some itemB, true)]
    ∧ cmpItem ItemPtr.MinItem itemA3 ≤ 0 ∧ cmpItem itemA3 ItemPtr.MaxItem < 0 := by
  decide

/-! ## Delta-over-base shadowing and the reference merge -/

/-- With pairwise distinct delta keys the delta run is strictly sorted by key. -/
theorem deltaRun_strict (low high : ItemPtr) (ds : List (PageItem ItemPtr))
    (hds : ∀ d ∈ ds, d.itm.isReal = true)
    (hdist : ds.Pairwise (fun a b => cmpItem a.itm b.itm ≠ 0)) :
    (pairs (deltaRun cmpItem low high ds)).Pairwise (fun a b => keyOf a.1 < keyOf b.1) := by
  have hXs : (pairs (deltaRun cmpItem low high ds)).Pairwise
      (fun a b => keyOf a.1 ≤ keyOf b.1) := by
    unfold pairs
    rw [List.pairwise_map]
    exact deltaRun_sorted low high ds hds
  have hXne : (pairs (deltaRun cmpItem low high ds)).Pairwise
      (fun a b => keyOf a.1 ≠ keyOf b.1) := by
    unfold pairs
    rw [List.pairwise_map]
    have h1 : (ds.filter (fun d => inRange cmpItem low high d.itm)).Pairwise
        (fun a b => keyOf a.itm ≠ keyOf b.itm) := by
      apply List.Pairwise.filter
      exact hdist.imp_of_mem (fun ha hb h hk =>
        h ((keyOrd_cmpItem.eq_iff _ _ (hds _ ha) (hds _ hb)).mpr hk))
    exact (List.Perm.pairwise_iff (fun h => Ne.symm h) (deltaRun_perm low high ds)).mpr h1
  exact (hXs.and hXne).imp (fun h => lt_of_le_of_ne h.1 h.2)

/-- The merged sequence of a chain with pairwise distinct delta keys above a strictly
ascending base page is the reference merge. -/
theorem mergeShadow_eq_refMerge (ds : List (PageItem ItemPtr)) (items : List ItemPtr)
    (low high : ItemPtr) (hds : ∀ d ∈ ds, d.itm.isReal = true)
    (hitems : ∀ x ∈ items, x.isReal = true)
    (hdist : ds.Pairwise (fun a b => cmpItem a.itm b.itm ≠ 0))
    (hbase : items.Pairwise (fun a b => cmpItem a b < 0)) :
    mergeShadow cmpItem (pairs (deltaRun cmpItem low high ds))
        ((items.filter (inRange cmpItem low high)).map (fun x => (x, true)))
      = refMerge cmpItem low high ds items := by
  obtain ⟨hX, hY⟩ := merged_real low high ds items hds hitems
  have hYs : ((items.filter (inRange cmpItem low high)).map (fun x => (x, true))).Pairwise
      (fun a b => keyOf a.1 < keyOf b.1) := by
    rw [List.pairwise_map]
    apply List.Pairwise.filter
    exact hbase.imp_of_mem (fun ha hb h =>
      (keyOrd_cmpItem.lt_iff _ _ (hitems _ ha) (hitems _ hb)).mp h)
  have hXlt := deltaRun_strict low high ds hds hdist
  -- the two sides have the same entries
  have hperm1 := mergeShadow_perm cmpItem keyOf (fun p => p.isReal = true) keyOrd_cmpItem
    _ _ hX hY (hXlt.imp (fun h => le_of_lt h)) hYs
  have eYf : ((items.filter (inRange cmpItem low high)).map (fun x => (x, true))).filter
        (fun y => (pairs (deltaRun cmpItem low high ds)).all
          (fun x => decide (cmpItem x.1 y.1 ≠ 0)))
      = ((items.filter (inRange cmpItem low high)).filter
          (fun x => ds.all (fun d => decide (cmpItem d.itm x ≠ 0)))).map (fun x => (x, true)) := by
    rw [List.filter_map]
    congr 1
    apply List.filter_congr
    intro x hx
    rw [List.mem_filter] at hx
    rw [Bool.eq_iff_iff]
    simp only [Function.comp, List.all_eq_true, decide_eq_true_eq]
    constructor
    · intro h d hd hc
      have hr := inRange_of_same_key low high d.itm x (hds d hd) (hitems x hx.1) hc hx.2
      exact h (d.itm, d.isInsert) ((mem_pairs _ _).mpr ((mem_deltaRun low high ds _).mpr ⟨hd, hr⟩)) hc
    · intro h e he
      rw [mem_pairs, mem_deltaRun] at he
      exact h _ he.1
  rw [eYf] at hperm1
  have hpermX : (pairs (deltaRun cmpItem low high ds)).Perm
      (pairs (ds.filter (fun d => inRange cmpItem low high d.itm))) :=
    (deltaRun_perm low high ds).map _
  have hperm : (mergeShadow cmpItem (pairs (deltaRun cmpItem low high ds))
      ((items.filter (inRange cmpItem low high)).map (fun x => (x, true)))).Perm
      (refMerge cmpItem low high ds items) :=
    (hperm1.trans (List.Perm.append_right _ hpermX)).trans (sortStable_perm _ _).symm
  -- both sides are strictly sorted by key
  have hs1 := mergeShadow_sorted cmpItem keyOf (fun p => p.isReal = true) keyOrd_cmpItem
    (fun a b => a < b) (fun a b h => h) (fun a b c h1 h2 => lt_trans h1 h2)
    _ _ hX hY hXlt hYs
  have hreal : ∀ e ∈ refMerge cmpItem low high ds items, e.1.isReal = true := by
    intro e he
    rcases mem_mergeShadow cmpItem _ _ e (hperm.mem_iff.mpr he) with h | h
    · exact hX e h
    · exact hY e h
  have hs2le : (refMerge cmpItem low high ds items).Pairwise
      (fun a b => keyOf a.1 ≤ keyOf b.1) := by
    unfold refMerge
    refine sortStable_sorted (β := ItemPtr × Bool) _ (fun e => keyOf e.1) _ ?_
    intro a ha b hb
    simp only [decide_eq_true_eq]
    exact keyOrd_cmpItem.lt_iff _ _
      (hreal a ((sortStable_perm _ _).mem_iff.mpr ha))
      (hreal b ((sortStable_perm _ _).mem_iff.mpr hb))
  have hs2ne : (refMerge cmpItem low high ds items).Pairwise
      (fun a b => keyOf a.1 ≠ keyOf b.1) :=
    (List.Perm.pairwise_iff (fun h => Ne.symm h) hperm).mp (hs1.imp (fun h => ne_of_lt h))
  have hs2 : (refMerge cmpItem low high ds items).Pairwise
      (fun a b => keyOf a.1 < keyOf b.1) :=
    (hs2le.and hs2ne).imp (fun h => lt_of_le_of_ne h.1 h.2)
  haveI : IsAntisymm (ItemPtr × Bool) (fun a b => keyOf a.1 < keyOf b.1) :=
    ⟨fun a b h1 h2 => absurd h1 (lt_asymm h2)⟩
  exact List.eq_of_perm_of_sorted hperm hs1 hs2

theorem filter_flag_map_true {α : Type} (l : List α) :
    (l.map (fun x => (x, true))).filter (fun e => e.2) = l.map (fun x => (x, true)) := by
  induction l with
  | nil => rfl
  | cons a l ih => simp [List.filter_cons, ih]

/-- C8. Delta-over-base shadowing equals a reference merge: for record deltas of real items
with pairwise distinct keys above a base page of real items strictly ascending by key, the
sequence returned over `[low, high)` without dedup is the reference merge `refMerge` (the
in-range delta items and the in-range base items whose key is not a delta's key, in ascending
order), and with dedup on it is that sequence without the delete-flagged deltas.  Without
deltas the output is the in-range base items; with an empty base page it is the sorted run of
the in-range deltas (less the deletes when dedup is on). -/
theorem delta_over_base_merge (ds : List (PageItem ItemPtr)) (items : List ItemPtr)
    (low high : ItemPtr) (hds : ∀ d ∈ ds, d.itm.isReal = true)
    (hitems : ∀ x ∈ items, x.isReal = true)
    (hdist : ds.Pairwise (fun a b => cmpItem a.itm b.itm ≠ 0))
    (hbase : items.Pairwise (fun a b => cmpItem a b < 0)) :
    ∃ F : Nat, ∀ fuel, F ≤ fuel →
      iterate cmpItem fuel (recChain ds items) low high false
          = some ((refMerge cmpItem low high ds items).map liftPtr)
      ∧ iterate cmpItem fuel (recChain ds items) low high true
          = some (((refMerge cmpItem low high ds items).filter (fun e => e.2)).map liftPtr)
      ∧ (ds = [] → ∀ dd, iterate cmpItem fuel (recChain ds items) low high dd
          = some (((items.filter (inRange cmpItem low high)).map (fun x => (x, true))).map
              liftPtr))
      ∧ (items = [] →
          iterate cmpItem fuel (recChain ds items) low high false
            = some ((pairs (deltaRun cmpItem low high ds)).map liftPtr)
          ∧ iterate cmpItem fuel (recChain ds items) low high true
            = some (((pairs (deltaRun cmpItem low high ds)).filter (fun e => e.2)).map
                liftPtr)) := by
  obtain ⟨F1, hF1⟩ := iterate_spec cmpItem (recChain ds items) low high false
  obtain ⟨F2, hF2⟩ := iterate_spec cmpItem (recChain ds items) low high true
  have hle := hbase.imp (fun {a b} (h : cmpItem a b < 0) => le_of_lt h)
  have e := mergeShadow_eq_refMerge ds items low high hds hitems hdist hbase
  have ef := emitted_real low high ds items false hitems hle
  have et := emitted_real low high ds items true hitems hle
  simp only [dedupFilter, Bool.false_eq_true, if_false, if_true, e] at ef et
  refine ⟨max F1 F2, ?_⟩
  intro fuel hfuel
  have h1 := hF1 fuel (by omega)
  have h2 := hF2 fuel (by omega)
  refine ⟨by rw [h1, ef], by rw [h2, et], ?_, ?_⟩
  · intro hnil dd
    subst hnil
    have hd : deltaRun cmpItem low high ([] : List (PageItem ItemPtr)) = [] := rfl
    cases dd
    · rw [h1, emitted_real low high [] items false hitems hle, hd]
      simp [pairs, mergeShadow_nil_left, dedupFilter]
    · rw [h2, emitted_real low high [] items true hitems hle, hd]
      have : dedupFilter true (mergeShadow cmpItem (pairs ([] : List (PageItem ItemPtr)))
          ((items.filter (inRange cmpItem low high)).map (fun x => (x, true))))
          = (items.filter (inRange cmpItem low high)).map (fun x => (x, true)) := by
        simp only [pairs, List.map_nil, mergeShadow_nil_left, dedupFilter, if_true]
        exact filter_flag_map_true _
      rw [this]
  · intro hnil
    subst hnil
    constructor
    · rw [h1, emitted_real low high ds [] false hitems hle]
      simp [mergeShadow_nil_right, dedupFilter]
    · rw [h2, emitted_real low high ds [] true hitems hle]
      simp [mergeShadow_nil_right, dedupFilter]

theorem delta_over_base_merge_witness :
    ∃ F : Nat, ∀ fuel, F ≤ fuel →
      iterate cmpItem fuel (recChain [⟨itemA3, false⟩] [itemA1, itemB]) ItemPtr.MinItem
          ItemPtr.MaxItem false
          = some ((refMerge cmpItem ItemPtr.MinItem ItemPtr.MaxItem [⟨itemA3, false⟩]
              [itemA1, itemB]).map liftPtr)
      ∧ iterate cmpItem fuel (recChain [⟨itemA3, false⟩] [itemA1, itemB]) ItemPtr.MinItem
          ItemPtr.MaxItem true
          = some (((refMerge cmpItem ItemPtr.MinItem ItemPtr.MaxItem [⟨itemA3, false⟩]
              [itemA1, itemB]).filter (fun e => e.2)).map liftPtr)
      ∧ (([⟨itemA3, false⟩] : List (PageItem ItemPtr)) = [] →
          ∀ dd, iterate cmpItem fuel (recChain [⟨itemA3, false⟩] [itemA1, itemB])
            ItemPtr.MinItem ItemPtr.MaxItem dd
          = some ((([itemA1, itemB].filter
              (inRange cmpItem ItemPtr.MinItem ItemPtr.MaxItem)).map (fun x => (x, true))).map
              liftPtr))
      ∧ ([itemA1, itemB] = [] →
          iterate cmpItem fuel (recChain [⟨itemA3, false⟩] [itemA1, itemB]) ItemPtr.MinItem
              ItemPtr.MaxItem false
            = some ((pairs (deltaRun cmpItem ItemPtr.MinItem ItemPtr.MaxItem
                [⟨itemA3, false⟩])).map liftPtr)
          ∧ iterate cmpItem fuel (recChain [⟨itemA3, false⟩] [itemA1, itemB]) ItemPtr.MinItem
              ItemPtr.MaxItem true
            = some (((pairs (deltaRun cmpItem ItemPtr.MinItem ItemPtr.MaxItem
                [⟨itemA3, false⟩])).filter (fun e => e.2)).map liftPtr)) :=
  delta_over_base_merge [⟨itemA3, false⟩] [itemA1, itemB] ItemPtr.MinItem ItemPtr.MaxItem
    (by decide) (by decide) (by decide) (by decide)

/-- The two scenarios of the spec for shadowing: an insert of key `a` (seqno 2) above the base
page `[a, b, c]` replaces the base entry; a delete of key `a` above `[a, b]` hides it with
dedup on and is returned without dedup. -/
theorem shadowing_scenarios :
    iterate cmpItem 8 (recChain [⟨itemA2, true⟩] [itemA1, itemB, itemC]) ItemPtr.MinItem
        ItemPtr.MaxItem true
      = some [(some itemA2, true), (some itemB, true), (some itemC, true)]
    ∧ iterate cmpItem 8 (recChain [⟨itemA3, false⟩] [itemA1, itemB]) ItemPtr.MinItem
        ItemPtr.MaxItem true = some [(some itemB, true)]
    ∧ iterate cmpItem 8 (recChain [⟨itemA3, false⟩] [itemA1, itemB]) ItemPtr.MinItem
        ItemPtr.MaxItem false = some [(some itemA3, false), (some itemB, true)] := by
  decide

/-! ## Merge and Split deltas on concrete chains -/

/-- C9, the code at the failing input: a Merge delta above the surviving base page `[a, b]`,
with the sibling page `[c, d]`.  Over `[Min, Max)` the iterator returns `a, b, c, d`.  Over
`[c, Max)` the sub-iterator of the surviving chain returns nothing and the sub-iterator of the
sibling returns `c, d`, yet the iterator of the merged chain returns nothing: `Init` of the
join iterator leaves it on its empty side 0. -/
theorem merge_join_empty_side :
    iterate cmpItem 8
        (pageDelta.opPageMergeDelta (pageDelta.opBasePage [itemC, itemD])
          (pageDelta.opBasePage [itemA1, itemB])) ItemPtr.MinItem ItemPtr.MaxItem true
      = some [(some itemA1, true), (some itemB, true), (some itemC, true), (some itemD, true)]
    ∧ iterate cmpItem 8 (pageDelta.opBasePage [itemA1, itemB]) itemC ItemPtr.MaxItem false
      = some []
    ∧ iterate cmpItem 8 (pageDelta.opBasePage [itemC, itemD]) itemC ItemPtr.MaxItem true
      = some [(some itemC, true), (some itemD, true)]
    ∧ iterate cmpItem 8
        (pageDelta.opPageMergeDelta (pageDelta.opBasePage [itemC, itemD])
          (pageDelta.opBasePage [itemA1, itemB])) itemC ItemPtr.MaxItem true
      = some [] := by
  decide

/-- C10, the code at the failing input: `Split(b)` at the head, `Split(d)` below it, above the
base page `[a, b, c, d]`.  Over `[Min, Max)` the iterator returns `a, b, c`: the walk
overwrites `high` at every Split, so the deepest split key `d` bounds the output, and the items
`b` and `c` are returned although they are not below the split key `b` nearest the head.  With
the one Split `Split(c)` the output is `a, b`. -/
theorem split_deepest_wins :
    iterate cmpItem 8
        (pageDelta.opPageSplitDelta itemB (pageDelta.opPageSplitDelta itemD
          (pageDelta.opBasePage [itemA1, itemB, itemC, itemD])))
        ItemPtr.MinItem ItemPtr.MaxItem true
      = some [(some itemA1, true), (some itemB, true), (some itemC, true)]
    ∧ ¬ (cmpItem itemB itemB < 0) ∧ ¬ (cmpItem itemC itemB < 0)
    ∧ iterate cmpItem 8
        (pageDelta.opPageSplitDelta itemC (pageDelta.opBasePage [itemA1, itemB, itemC, itemD]))
        ItemPtr.MinItem ItemPtr.MaxItem true
      = some [(some itemA1, true), (some itemB, true)] := by
  decide

/-! ## Dedup suppresses delete deltas -/

section Dedup

variable {α : Type} (cmp : α → α → Int)

open pgOpIterator

theorem pickMin_isMerge (next : pgOpIterator α → Option (pgOpIterator α))
    (a b : pgOpIterator α) (l : Option (Fin 2)) (dd : Bool) (pdm : pgOpIterator α)
    (h : pickMin cmp next a b l dd = some pdm) : IsMerge dd pdm := by
  unfold pickMin at h
  simp only at h
  split_ifs at h
  · split at h
    · split at h
      · cases h
      · split_ifs at h
        · cases h; exact ⟨_, _, _, rfl⟩
        · split at h
          · cases h
          · cases h; exact ⟨_, _, _, rfl⟩
        · cases h; exact ⟨_, _, _, rfl⟩
    · cases h
  · cases h; exact ⟨_, _, _, rfl⟩
  · cases h; exact ⟨_, _, _, rfl⟩
  · cases h; exact ⟨_, _, _, rfl⟩

theorem skipDeleted_cases (next : pgOpIterator α → Option (pgOpIterator α))
    (pdm it' : pgOpIterator α) (h : skipDeleted next pdm = some it') :
    it' = pdm ∨ next pdm = some it' := by
  cases pdm with
  | pdMergeIterator p0 p1 l dd =>
    simp only [skipDeleted] at h
    split_ifs at h
    · split at h
      · cases h
      · split at h
        · cases h
        · split_ifs at h
          · exact Or.inr h
          · cases h; exact Or.inl rfl
    · cases h; exact Or.inl rfl
  | pdIterator _ _ => simp [skipDeleted] at h
  | basePgIterator _ _ _ _ _ => simp [skipDeleted] at h
  | pdJoinIterator _ _ _ => simp [skipDeleted] at h

/-- The methods `Next` and `fetchMin` return a merge iterator with the same dedup setting. -/
theorem step_isMerge (fuel : Nat) :
    ∀ (op : Bool) (a b : pgOpIterator α) (l : Option (Fin 2)) (dd : Bool)
      (it' : pgOpIterator α), step cmp fuel op (pdMergeIterator a b l dd) = some it' →
      IsMerge dd it' := by
  induction fuel with
  | zero => intro op a b l dd it' h; simp [step] at h
  | succ fuel ih =>
    intro op a b l dd it' h
    cases op with
    | false =>
      simp only [step] at h
      split_ifs at h with hv
      · split at h
        · cases h
        · split_ifs at h
          · split at h
            · cases h
            · exact ih _ _ _ _ _ _ h
          · split at h
            · cases h
            · exact ih _ _ _ _ _ _ h
      · cases h; exact ⟨_, _, _, rfl⟩
    | true =>
      simp only [step] at h
      split at h
      · cases h
      · rename_i pdm hp
        obtain ⟨p0, p1, l', rfl⟩ := pickMin_isMerge cmp _ a b l dd pdm hp
        rcases skipDeleted_cases _ _ _ h with rfl | h'
        · exact ⟨_, _, _, rfl⟩
        · exact ih _ _ _ _ _ _ h'

/-- A valid merge iterator with dedup on, in a good state, has a current result whose flag
is set. -/
theorem get_flag_of_dedup (cmp0 : α → α → Int) (it : pgOpIterator α) (hm : IsMerge true it)
    (hok : StateOk it) (hv : it.Valid = true) : ∃ p, it.Get = some (p, true) := by
  obtain ⟨a, b, l, rfl⟩ := hm
  have hok' := hok
  simp only [StateOk] at hok'
  obtain ⟨ha, hb, hl⟩ := hok'
  obtain ⟨c, hc, hcv, hflag⟩ := hl (by simpa [Valid] using hv)
  subst hc
  have hcok : StateOk (if c = 0 then a else b) := by by_cases h0 : c = 0 <;> simp [h0, ha, hb]
  obtain ⟨x, rest, _, hg⟩ := den_of_valid cmp0 _ hcok hcv
  have hx : x.2 = true := by
    have := hflag trivial
    simpa [curFlag, hg] using this
  refine ⟨some x.1, ?_⟩
  by_cases h0 : c = 0
  · simp only [h0, if_true] at hg
    simp [Get, h0, hg, hx]
  · simp only [h0, if_false] at hg
    simp [Get, h0, hg, hx]

/-- Every iterator reached from a merge iterator with dedup on by calls of `Next` is again
one, in a good state. -/
theorem nextN_dedup (k : Nat) :
    ∀ it : pgOpIterator α, IsMerge true it → StateOk it → (den cmp it).length ≤ k →
      ∃ F, ∀ fuel, F ≤ fuel → ∀ n, ∃ itn, nextN cmp fuel n it = some itn
        ∧ IsMerge true itn ∧ StateOk itn := by
  induction k with
  | zero =>
    intro it hm hok hlen
    have e : den cmp it = [] := List.length_eq_zero.mp (by omega)
    have hv : it.Valid = false := by
      by_contra h
      exact (valid_iff_den cmp it hok).mp (by simpa using h) e
    obtain ⟨a, b, l, rfl⟩ := hm
    refine ⟨1, ?_⟩
    intro fuel hfuel n
    obtain ⟨g, rfl⟩ : ∃ g, fuel = g + 1 := ⟨fuel - 1, by omega⟩
    induction n with
    | zero => exact ⟨_, rfl, ⟨_, _, _, rfl⟩, hok⟩
    | succ n ihn =>
      obtain ⟨itn, h1, h2, h3⟩ := ihn
      exact ⟨itn, by simp [nextN, Next, step, hv, h1], h2, h3⟩
  | succ k ih =>
    intro it hm hok hlen
    cases hv : it.Valid
    · obtain ⟨a, b, l, rfl⟩ := hm
      refine ⟨1, ?_⟩
      intro fuel hfuel n
      obtain ⟨g, rfl⟩ : ∃ g, fuel = g + 1 := ⟨fuel - 1, by omega⟩
      induction n with
      | zero => exact ⟨_, rfl, ⟨_, _, _, rfl⟩, hok⟩
      | succ n ihn =>
        obtain ⟨itn, h1, h2, h3⟩ := ihn
        exact ⟨itn, by simp [nextN, Next, step, hv, h1], h2, h3⟩
    · obtain ⟨x, rest, hd, _⟩ := den_of_valid cmp it hok hv
      obtain ⟨F1, it', hok', hden', _, hs⟩ := next_ok cmp it hok hv
      have hm' : IsMerge true it' := by
        obtain ⟨a, b, l, rfl⟩ := hm
        exact step_isMerge cmp F1 false a b l true it' (hs F1 (Nat.le_refl _))
      obtain ⟨F2, h2⟩ := ih it' hm' hok' (by
        rw [hden', hd]; rw [hd] at hlen; simpa using hlen)
      refine ⟨max F1 F2, ?_⟩
      intro fuel hfuel n
      cases n with
      | zero => exact ⟨_, rfl, hm, hok⟩
      | succ n =>
        obtain ⟨itn, e1, e2, e3⟩ := h2 fuel (by omega) n
        exact ⟨itn, by simp [nextN, Next, hs fuel (by omega), e1], e2, e3⟩

/-- C7. Dedup suppresses tombstones: for every chain (record deltas, Split, Merge with a
sibling chain, Base, and the other deltas), every comparator and every range, the iterator
built by `newPgOpIterator` with `doDedup = true` is, with enough fuel, initialised by `Init`,
and after `Init` and after any number of calls of `Next`, whenever `Valid()` is true the flag
returned by `Get()` is true. -/
theorem dedup_suppresses_deletes (pd : pageDelta α) (low high : α) :
    ∃ F : Nat, ∀ fuel, F ≤ fuel →
      ∃ it0, (newPgOpIterator cmp pd low high true).1.Init cmp fuel = some it0
        ∧ ∀ n, ∃ itn, nextN cmp fuel n it0 = some itn
          ∧ (itn.Valid = true → ∃ p, itn.Get = some (p, true)) := by
  obtain ⟨a, b, hshape⟩ : ∃ a b, (newPgOpIterator cmp pd low high true).1
      = pdMergeIterator a b none true := ⟨_, _, rfl⟩
  obtain ⟨F1, it0, hok, _, hs⟩ := init_spec cmp (newPgOpIterator cmp pd low high true).1
  have hm : IsMerge true it0 := by
    have h := hs F1 (Nat.le_refl _)
    rw [hshape] at h
    simp only [Init] at h
    split at h
    · exact step_isMerge cmp F1 true _ _ _ _ _ h
    · cases h
  obtain ⟨F2, h2⟩ := nextN_dedup cmp _ it0 hm hok (Nat.le_refl _)
  refine ⟨max F1 F2, ?_⟩
  intro fuel hfuel
  refine ⟨it0, hs fuel (by omega), ?_⟩
  intro n
  obtain ⟨itn, e1, e2, e3⟩ := h2 fuel (by omega) n
  exact ⟨itn, e1, get_flag_of_dedup cmp itn e2 e3⟩

end Dedup

/-! ## Size, empty keys and the value of a value-less item -/

theorem writeAt_length (mem : List Byte) (off : Nat) (bs : List Byte) :
    (writeAt mem off bs).length
      = min off mem.length + bs.length + (mem.length - (off + bs.length)) := by
  unfold writeAt
  simp only [List.length_append, List.length_take, List.length_drop]

/-- The region `newItem` allocates has `sz` bytes, all of them part of the item. -/
theorem newItem_alloc_length (k v : List Byte) (sn : Nat) (del : Bool) (itm : List Byte)
    (h : newItem k v sn del none = some itm) :
    itm.length = itmHdrLen + itmSnSize + k.length + v.length
      + (if v.length > 0 then itmKlenSize else 0) := by
  have hkl : k.length ≠ 0 := by
    have := (newItem_some_args k v sn del none itm h).1
    simpa using this
  by_cases hvl : v.length > 0
  · simp only [newItem, hvl, if_true, hkl, if_false, Option.some.injEq] at h
    subst h
    simp only [memcopy, List.take_length, itmHdrLen, itmSnSize, itmKlenSize, hvl, if_true]
    simp only [writeAt_length, leBytes_length, alloc, List.length_replicate]
    omega
  · simp only [newItem, hvl, if_false, hkl, Option.some.injEq] at h
    subst h
    simp only [memcopy, List.take_length, itmHdrLen, itmSnSize, hvl, if_false]
    simp only [writeAt_length, leBytes_length, alloc, List.length_replicate]
    omega

/-- `Size()` on the memory image of an encoded item, for either layout. -/
theorem newItem_size (k v : List Byte) (sn : Nat) (del : Bool) (buf : Option (List Byte))
    (hk : k ≠ []) (hsn : sn < 2 ^ 64) (hbuf : buf ≠ some []) (hL : encLen k v < 2 ^ 30) :
    ∃ itm, newItem k v sn del buf = some itm ∧ item.Size itm = encLen k v + 4 + 8 := by
  by_cases hv : v = []
  · subst hv
    obtain ⟨rest, h⟩ := newItem_noval k sn del buf hk hbuf
    have hL2 : k.length < 2 ^ 30 := by simpa [encLen] using hL
    obtain ⟨_, _, _, _, d5⟩ := decode_noval k sn del rest hL2 hsn
    refine ⟨_, h, ?_⟩
    unfold item.Size
    rw [d5]
    simp [encLen, itmHdrLen, itmSnSize]
  · obtain ⟨rest, h⟩ := newItem_val k v sn del buf hk hv hbuf
    have hvl : 0 < v.length := List.length_pos.mpr hv
    have hL2 : v.length + k.length + 4 < 2 ^ 30 := by
      simpa [encLen, hvl, itmKlenSize] using hL
    obtain ⟨_, _, _, _, d5, _, _⟩ := decode_val k v sn del rest hL2 hsn
    refine ⟨_, h, ?_⟩
    unfold item.Size
    rw [d5]
    simp [encLen, hvl, itmHdrLen, itmSnSize, itmKlenSize]

/-- C14 (encoded size).  For a non-empty key, any value, a 64-bit seqno, either flag and an
encoded length `L` below `2^30`, `Size()` of the item `newItem` builds (in a fresh allocation
or a non-empty caller buffer) is `4 + 8 + len(k) + len(v) + (4 if v is non-empty)`, which is
`L + 4 + 8`; and it is the number of bytes `newItem` allocates when no buffer is given. -/
theorem size_matches_encoding (k v : List Byte) (sn : Nat) (del : Bool)
    (buf : Option (List Byte)) (hk : k ≠ []) (hsn : sn < 2 ^ 64) (hbuf : buf ≠ some [])
    (hL : encLen k v < 2 ^ 30) :
    ∃ itm, newItem k v sn del buf = some itm
      ∧ item.Size itm = 4 + 8 + k.length + v.length + (if v ≠ [] then 4 else 0)
      ∧ item.Size itm = encLen k v + 4 + 8
      ∧ (buf = none → itm.length = item.Size itm) := by
  obtain ⟨itm, h, hs⟩ := newItem_size k v sn del buf hk hsn hbuf hL
  have e : encLen k v + 4 + 8 = 4 + 8 + k.length + v.length + (if v ≠ [] then 4 else 0) := by
    by_cases hv : v = []
    · subst hv; simp only [encLen, List.length_nil, lt_irrefl, if_false, ne_eq, not_true_eq_false]; omega
    · have hvl : 0 < v.length := List.length_pos.mpr hv
      simp only [encLen, hvl, if_true, itmKlenSize, ne_eq, hv, not_false_eq_true]
      omega
  refine ⟨itm, h, hs.trans e, hs, ?_⟩
  intro hb
  subst hb
  rw [newItem_alloc_length k v sn del itm h, hs, e]
  by_cases hv : v = []
  · subst hv; simp [itmHdrLen, itmSnSize]
  · have hvl : 0 < v.length := List.length_pos.mpr hv
    simp [hvl, hv, itmHdrLen, itmSnSize, itmKlenSize]

theorem size_matches_encoding_witness :
    ∃ itm, newItem [97, 98] [1, 2, 3] 7 false none = some itm
      ∧ item.Size itm
          = 4 + 8 + ([97, 98] : List Byte).length + ([1, 2, 3] : List Byte).length
            + (if ([1, 2, 3] : List Byte) ≠ [] then 4 else 0)
      ∧ item.Size itm = encLen [97, 98] [1, 2, 3] + 4 + 8
      ∧ ((none : Option (List Byte)) = none → itm.length = item.Size itm) :=
  size_matches_encoding [97, 98] [1, 2, 3] 7 false none (by decide) (by decide) (by decide)
    (by decide)

/-- C15 (empty key).  With an empty key `newItem` does not return an item: taking the address
`&k[0]` of the first key byte panics, for every value, seqno, flag and buffer. -/
theorem newItem_empty_key_panics (v : List Byte) (sn : Nat) (del : Bool)
    (buf : Option (List Byte)) : newItem [] v sn del buf = none := by
  cases h : newItem [] v sn del buf with
  | none => rfl
  | some a => exact absurd rfl (newItem_some_args [] v sn del buf a h).1

/-- C16 (value of a value-less item).  For an item built without a value, `HasValue()` is
false and the length `Value()` stores in the slice header, `l - klen - 4`, is `-4`. -/
theorem value_len_without_value (k : List Byte) (sn : Nat) (del : Bool)
    (buf : Option (List Byte)) (hk : k ≠ []) (hsn : sn < 2 ^ 64) (hbuf : buf ≠ some [])
    (hL : k.length < 2 ^ 30) :
    ∃ itm, newItem k [] sn del buf = some itm ∧ item.HasValue itm = false
      ∧ item.ValueLen itm = -4 := by
  obtain ⟨rest, h⟩ := newItem_noval k sn del buf hk hbuf
  obtain ⟨_, _, _, d4, _⟩ := decode_noval k sn del rest hL hsn
  refine ⟨_, h, d4, ?_⟩
  unfold item.ValueLen item.k
  rw [d4]
  simp [itmKlenSize]

theorem value_len_without_value_witness :
    ∃ itm, newItem [97] [] 1 false none = some itm ∧ item.HasValue itm = false
      ∧ item.ValueLen itm = -4 :=
  value_len_without_value [97] 1 false none (by decide) (by decide) (by decide) (by decide)

/-! ## Flushed bytes -/

theorem wrapInt64_add_wrap (a b : Int) : wrapInt64 (wrapInt64 a + b) = wrapInt64 (a + b) := by
  unfold wrapInt64
  omega

theorem wrapInt64_of_range (a : Int) (h1 : -2 ^ 63 ≤ a) (h2 : a < 2 ^ 63) :
    wrapInt64 a = a := by
  unfold wrapInt64
  omega

theorem newPgOpIterator_fdSz {α : Type} (cmp : α → α → Int) (pd : pageDelta α) (low high : α)
    (doDedup : Bool) :
    (newPgOpIterator cmp pd low high doDedup).2
      = (walk cmp low pd ⟨false, 0, high, 0, 0, none⟩).fdSz := rfl

/-- Once a Reloc delta has been passed, the rest of the chain leaves `fdSz` alone. -/
theorem walk_flushChain_hasReloc {α : Type} (cmp : α → α → Int) (low : α)
    (ns : List (flushNode α)) (items : List α) (st : walkState α) (h : st.hasReloc = true) :
    (walk cmp low (flushChain ns items) st).fdSz = st.fdSz := by
  induction ns generalizing st with
  | nil => simp [flushChain, walk]
  | cons n ns ih =>
    cases n with
    | flush s =>
      simp only [flushChain, walk, h, Bool.not_true, Bool.false_eq_true, if_false]
      exact ih _ rfl
    | reloc s =>
      simp only [flushChain, walk, h, Bool.not_true, Bool.false_eq_true, if_false]
      exact ih _ rfl
    | insert x => simp only [flushChain, walk]; exact ih _ h
    | delete x => simp only [flushChain, walk]; exact ih _ h

/-- Before any Reloc delta, `fdSz` becomes the size of the first Reloc delta of the chain. -/
theorem walk_flushChain_reloc {α : Type} (cmp : α → α → Int) (low : α)
    (ns : List (flushNode α)) (items : List α) (st : walkState α) (x : Int) (rest : List Int)
    (h : st.hasReloc = false) (hr : relocSizes ns = x :: rest) :
    (walk cmp low (flushChain ns items) st).fdSz = x := by
  induction ns generalizing st with
  | nil => simp [relocSizes] at hr
  | cons n ns ih =>
    cases n with
    | flush s =>
      simp only [flushChain, walk, h, Bool.not_false, if_true]
      exact ih _ rfl (by simpa [relocSizes] using hr)
    | reloc s =>
      simp only [relocSizes, List.cons.injEq] at hr
      simp only [flushChain, walk, h, Bool.not_false, if_true]
      rw [walk_flushChain_hasReloc cmp low ns items _ rfl]
      exact hr.1
    | insert y =>
      simp only [flushChain, walk]
      exact ih _ h (by simpa [relocSizes] using hr)
    | delete y =>
      simp only [flushChain, walk]
      exact ih _ h (by simpa [relocSizes] using hr)

/-- Without a Reloc delta, `fdSz` accumulates the Flush sizes in 64-bit arithmetic. -/
theorem walk_flushChain_flush {α : Type} (cmp : α → α → Int) (low : α)
    (ns : List (flushNode α)) (items : List α) (st : walkState α) (c : Int)
    (h : st.hasReloc = false) (hc : st.fdSz = wrapInt64 c) (hr : relocSizes ns = []) :
    (walk cmp low (flushChain ns items) st).fdSz = wrapInt64 (c + (flushSizes ns).sum) := by
  induction ns generalizing st c with
  | nil => simp [flushChain, walk, flushSizes, hc]
  | cons n ns ih =>
    cases n with
    | flush s =>
      simp only [flushChain, walk, h, flushSizes, List.sum_cons, Bool.not_false, if_true]
      rw [ih _ (c + s) rfl (by simp [hc, wrapInt64_add_wrap]) (by simpa [relocSizes] using hr)]
      rw [add_assoc]
    | reloc s => simp [relocSizes] at hr
    | insert y =>
      simp only [flushChain, walk, flushSizes]
      exact ih _ c h hc (by simpa [relocSizes] using hr)
    | delete y =>
      simp only [flushChain, walk, flushSizes]
      exact ih _ c h hc (by simpa [relocSizes] using hr)

/-- C13 (flushed-bytes accounting).  For every chain of Flush, Reloc and record deltas above a
base page, every comparator, range and dedup setting: with exactly one `Reloc(x)` in the chain
the flushed-bytes result of `newPgOpIterator` is `x`, wherever the Flush deltas lie; with no
Reloc it is the sum of all the Flush sizes, as the 64-bit `int` the code adds them in, which
is the exact sum whenever that sum is within the range of `int`.  The chain
`Flush(100), Reloc(500), Flush(200)` gives 500, and `Flush(100), Flush(200)` gives 300. -/
theorem flushed_bytes_accounting {α : Type} (cmp : α → α → Int) (ns : List (flushNode α))
    (items : List α) (low high : α) (doDedup : Bool) :
    (∀ x, relocSizes ns = [x] →
        (newPgOpIterator cmp (flushChain ns items) low high doDedup).2 = x)
      ∧ (relocSizes ns = [] →
        (newPgOpIterator cmp (flushChain ns items) low high doDedup).2
          = wrapInt64 (flushSizes ns).sum)
      ∧ (-2 ^ 63 ≤ (flushSizes ns).sum → (flushSizes ns).sum < 2 ^ 63 →
        wrapInt64 (flushSizes ns).sum = (flushSizes ns).sum)
      ∧ (newPgOpIterator cmp
          (flushChain [flushNode.flush 100, flushNode.reloc 500, flushNode.flush 200] items)
          low high doDedup).2 = 500
      ∧ (newPgOpIterator cmp (flushChain [flushNode.flush 100, flushNode.flush 200] items)
          low high doDedup).2 = 300 := by
  refine ⟨?_, ?_, ?_, ?_, ?_⟩
  · intro x hx
    rw [newPgOpIterator_fdSz]
    exact walk_flushChain_reloc cmp low ns items _ x [] rfl hx
  · intro hr
    rw [newPgOpIterator_fdSz, walk_flushChain_flush cmp low ns items _ 0 rfl rfl hr]
    simp
  · exact wrapInt64_of_range _
  · rw [newPgOpIterator_fdSz]
    exact walk_flushChain_reloc cmp low _ items _ 500 [] rfl rfl
  · rw [newPgOpIterator_fdSz, walk_flushChain_flush cmp low
      [flushNode.flush 100, flushNode.flush 200] items _ 0 rfl rfl rfl]
    simp only [flushSizes, List.sum_cons, List.sum_nil]
    exact wrapInt64_of_range _ (by norm_num) (by norm_num)

/-! ## page_alloc.go -/

/-- C19 (GetMallocOps snapshots and clears).  For every allocation context, `GetMallocOps`
returns the allocation list, the free list, `n` and `memUsed`, in that order, as they were
before the call; the context it leaves has two empty lists, `n = 0` and `memUsed = 0`; and a
second call made at once returns two empty lists and `(0, 0)`. -/
theorem GetMallocOps_snapshots_and_clears {P : Type} (aCtx : allocCtx P) :
    aCtx.GetMallocOps.1 = (aCtx.allocDeltaList, aCtx.freePageList, aCtx.n, aCtx.memUsed)
      ∧ aCtx.GetMallocOps.2.allocDeltaList.toList = []
      ∧ aCtx.GetMallocOps.2.freePageList.toList = []
      ∧ aCtx.GetMallocOps.2.n = 0 ∧ aCtx.GetMallocOps.2.memUsed = 0
      ∧ aCtx.GetMallocOps.2.GetMallocOps.1.1.toList = []
      ∧ aCtx.GetMallocOps.2.GetMallocOps.1.2.1.toList = []
      ∧ aCtx.GetMallocOps.2.GetMallocOps.1.2.2 = (0, 0) := by
  simp [allocCtx.GetMallocOps, goSlice.toList, goSlice.resliceZero]

theorem destroyPg_false (t : memDelta) : destroyPg false t = [] := by
  cases t <;> simp [destroyPg]

/-- The addresses `destroyPg` frees are those of the owned nodes, with their multiplicities. -/
theorem destroyPg_perm_owned (t : memDelta) : (destroyPg true t).Perm t.ownedNodes := by
  induction t with
  | nil => simp [destroyPg, memDelta.ownedNodes]
  | delta addr op next ih =>
    by_cases hop : op = pdOp.opBasePage ∨ op = pdOp.opSwapoutDelta
    · simp [destroyPg, memDelta.ownedNodes, hop]
    · simp only [destroyPg, memDelta.ownedNodes, hop, if_true, if_false]
      exact ih.cons addr
  | opPageMergeDelta addr sib next ihs ihn =>
    simp only [destroyPg, memDelta.ownedNodes, if_true]
    exact List.perm_middle.trans ((ihs.append ihn).cons addr)
  | opSwapinDelta addr ptr next ihp ihn =>
    simp only [destroyPg, memDelta.ownedNodes, if_true]
    exact List.perm_middle.trans ((ihp.append ihn).cons addr)

theorem ownedNodes_sublist_allNodes (t : memDelta) : t.ownedNodes.Sublist t.allNodes := by
  induction t with
  | nil => simp [memDelta.ownedNodes, memDelta.allNodes]
  | delta addr op next ih =>
    by_cases hop : op = pdOp.opBasePage ∨ op = pdOp.opSwapoutDelta
    · simp only [memDelta.ownedNodes, memDelta.allNodes, hop, if_true]
      exact List.Sublist.cons₂ addr (List.nil_sublist _)
    · simp only [memDelta.ownedNodes, memDelta.allNodes, hop, if_false]
      exact List.Sublist.cons₂ addr ih
  | opPageMergeDelta addr sib next ihs ihn =>
    simp only [memDelta.ownedNodes, memDelta.allNodes]
    exact List.Sublist.cons₂ addr (List.Sublist.append ihs ihn)
  | opSwapinDelta addr ptr next ihp ihn =>
    simp only [memDelta.ownedNodes, memDelta.allNodes]
    exact List.Sublist.cons₂ addr (List.Sublist.append ihp ihn)

/-- The owned nodes are the nodes of the spine, each followed by the nodes owned by the chain
attached to it. -/
theorem ownedNodes_spine (t : memDelta) :
    t.ownedNodes
      = ((t.spine).map (fun n => n.addr?.toList ++ n.attached.ownedNodes)).flatten := by
  induction t with
  | nil => simp [memDelta.ownedNodes, memDelta.spine]
  | delta addr op next ih =>
    by_cases hop : op = pdOp.opBasePage ∨ op = pdOp.opSwapoutDelta
    · simp [memDelta.ownedNodes, memDelta.spine, memDelta.addr?, memDelta.attached, hop]
    · simp only [memDelta.ownedNodes, memDelta.spine, hop, if_false, List.map_cons,
        List.flatten_cons]
      rw [← ih]
      simp [memDelta.addr?, memDelta.attached, memDelta.ownedNodes]
  | opPageMergeDelta addr sib next _ ihn =>
    simp only [memDelta.ownedNodes, memDelta.spine, List.map_cons, List.flatten_cons]
    rw [← ihn]
    simp [memDelta.addr?, memDelta.attached]
  | opSwapinDelta addr ptr next _ ihn =>
    simp only [memDelta.ownedNodes, memDelta.spine, List.map_cons, List.flatten_cons]
    rw [← ihn]
    simp [memDelta.addr?, memDelta.attached]

/-- C18 (destroyPg frees exactly the owned nodes).  For every chain, its owned nodes being
distinct allocations: with `useMemMgmt` set, `destroyPg(head)` frees the owned nodes and
nothing else, that is the nodes along `next` up to and including the first Base or SwapOut
node or the end of the list, each followed by the nodes owned, by the same rule, by the
sibling chain of a merge delta or the attached chain of a swap-in delta; every one of them
is freed exactly once, and no node beyond a terminator is freed.  With `useMemMgmt` clear
nothing is freed. -/
theorem destroyPg_frees_owned (t : memDelta) (h : t.ownedNodes.Nodup) :
    (destroyPg true t).Perm t.ownedNodes
      ∧ t.ownedNodes
          = ((t.spine).map (fun n => n.addr?.toList ++ n.attached.ownedNodes)).flatten
      ∧ (∀ a, (destroyPg true t).count a = if a ∈ t.ownedNodes then 1 else 0)
      ∧ (∀ a ∈ t.allNodes, a ∉ t.ownedNodes → a ∉ destroyPg true t)
      ∧ destroyPg false t = [] := by
  have hp := destroyPg_perm_owned t
  refine ⟨hp, ownedNodes_spine t, ?_, ?_, destroyPg_false t⟩
  · intro a
    rw [hp.count_eq]
    by_cases ha : a ∈ t.ownedNodes
    · rw [if_pos ha]
      exact List.count_eq_one_of_mem h ha
    · rw [if_neg ha]
      exact List.count_eq_zero_of_not_mem ha
  · intro a _ ha hmem
    exact ha (hp.mem_iff.mp hmem)

theorem destroyPg_frees_owned_witness :
    (destroyPg true chainOwned).Perm chainOwned.ownedNodes
      ∧ chainOwned.ownedNodes
          = ((chainOwned.spine).map
              (fun n => n.addr?.toList ++ n.attached.ownedNodes)).flatten
      ∧ (∀ a, (destroyPg true chainOwned).count a
          = if a ∈ chainOwned.ownedNodes then 1 else 0)
      ∧ (∀ a ∈ chainOwned.allNodes, a ∉ chainOwned.ownedNodes → a ∉ destroyPg true chainOwned)
      ∧ destroyPg false chainOwned = [] :=
  destroyPg_frees_owned chainOwned (by decide)

/-- What `destroyPg` frees on the example chain: the sibling chain `5, 6` before the merge
delta, the swap-out node `8` before the swap-in delta, and the spine `1, 2, 3, 4`; the nodes
`7`, `9` and `10` below the terminators are left. -/
theorem destroyPg_example :
    destroyPg true chainOwned = [1, 5, 6, 2, 8, 3, 4]
      ∧ chainOwned.ownedNodes = [1, 2, 5, 6, 3, 8, 4]
      ∧ chainOwned.allNodes = [1, 2, 5, 6, 7, 3, 8, 9, 4, 10] := by
  decide

/-! ## SwapOut in the walk -/

/-- C20, the code at the failing input: an Insert delta of key `a` above a SwapOut delta
whose `next` leads to `Flush(7)` and the base page `[b]`.  The walk of `newPgOpIterator` has
no case for SwapOut and goes on to `pd.next`: after `Init` the iterator is valid, it returns
`a` and then the base item `b` from below the SwapOut, and the flushed-bytes result is the 7
of the Flush delta below the SwapOut.  Only a SwapOut with nothing above it and a nil `next`
gives an iterator that is invalid after `Init`. -/
theorem swapout_walked_through :
    ((newPgOpIterator cmpItem
        (pageDelta.opInsertDelta itemA1 (pageDelta.opSwapoutDelta
          (pageDelta.opFlushPageDelta 7 (pageDelta.opBasePage [itemB]))))
        ItemPtr.MinItem ItemPtr.MaxItem true).1.Init cmpItem 8).map pgOpIterator.Valid
      = some true
    ∧ iterate cmpItem 8
        (pageDelta.opInsertDelta itemA1 (pageDelta.opSwapoutDelta
          (pageDelta.opFlushPageDelta 7 (pageDelta.opBasePage [itemB]))))
        ItemPtr.MinItem ItemPtr.MaxItem true
      = some [(some itemA1, true), (some itemB, true)]
    ∧ (newPgOpIterator cmpItem
        (pageDelta.opInsertDelta itemA1 (pageDelta.opSwapoutDelta
          (pageDelta.opFlushPageDelta 7 (pageDelta.opBasePage [itemB]))))
        ItemPtr.MinItem ItemPtr.MaxItem true).2 = 7
    ∧ iterate cmpItem 8
        (pageDelta.opInsertDelta itemA1 (pageDelta.opSwapoutDelta pageDelta.nil))
        ItemPtr.MinItem ItemPtr.MaxItem true
      = some [(some itemA1, true)]
    ∧ iterate cmpItem 8 (pageDelta.opSwapoutDelta pageDelta.nil)
        ItemPtr.MinItem ItemPtr.MaxItem true
      = some [] := by
  decide

/-! ## The page iterator -/

/-- What `initPgIterator` does when the read of the page fails: it sets `currPid` and nothing
else; the error of the read is not kept. -/
theorem initPgIterator_read_error {α ε : Type} (s : Store α ε) (fuel : Nat)
    (itr : Iterator α ε) (pid : PageId) (seekItm : α) (e : ε)
    (h : s.ReadPage pid = Except.error e) :
    Iterator.initPgIterator s fuel itr pid seekItm = some { itr with currPid := some pid } := by
  simp [Iterator.initPgIterator, h]

/-- What `initPgIterator` does on a page that is read and is empty: it sets `currPid` and sets
`err` to nil; `currPgItr` and `nextPid` stay as they were. -/
theorem initPgIterator_empty_page {α ε : Type} (s : Store α ε) (fuel : Nat)
    (itr : Iterator α ε) (pid : PageId) (seekItm : α) (pg : page α)
    (h : s.ReadPage pid = Except.ok pg) (hE : pg.IsEmpty = true) :
    Iterator.initPgIterator s fuel itr pid seekItm
      = some { itr with currPid := some pid, err := none } := by
  simp [Iterator.initPgIterator, h, hE]

/-- No call of `initPgIterator` stores an error: `err` is what it was, or nil. -/
theorem initPgIterator_err {α ε : Type} (s : Store α ε) (fuel : Nat)
    (itr itr2 : Iterator α ε) (pid : PageId) (seekItm : α)
    (h : Iterator.initPgIterator s fuel itr pid seekItm = some itr2) :
    itr2.err = itr.err ∨ itr2.err = none := by
  unfold Iterator.initPgIterator at h
  cases hr : s.ReadPage pid with
  | error e =>
    rw [hr] at h
    simp only [Option.some.injEq] at h
    subst h
    exact Or.inl rfl
  | ok pg =>
    rw [hr] at h
    by_cases hE : pg.IsEmpty = true
    · simp only [hE, Bool.not_true, Bool.false_eq_true, if_false, Option.some.injEq] at h
      subst h
      exact Or.inr rfl
    · rw [Bool.not_eq_true] at hE
      simp only [hE, Bool.not_false, if_true] at h
      cases hi : (newPgOpIterator s.cmp pg.head seekItm pg.hiItm true).1.Init s.cmp fuel with
      | none => rw [hi] at h; simp at h
      | some it =>
        rw [hi] at h
        simp only [Option.some.injEq] at h
        subst h
        exact Or.inl rfl

/-- C11, the code at the failing input: three linked pages, all read without error and none
empty: `[a]`, then a page whose one item `b` lies under a delete delta, then `[c]`.
`SeekFirst` and `Next` while `Valid` return `a` only: the `Next` that leaves page 1 opens
page 2, whose iterator returns nothing, so `Valid()` is false with page 3 still recorded as
the next page, and `c` is never returned.  Likewise nothing at all is returned when the first
page is a base page without items.  Two pages that both return items are traversed in
full. -/
theorem traversal_stops_at_page_without_items :
    Iterator.traverse (storeOf pagesTombstone) 8 = some [some itemA1]
    ∧ ((Iterator.SeekFirst (storeOf pagesTombstone) 8 Iterator.fresh).bind
        (fun r => Iterator.Next (storeOf pagesTombstone) 8 r.1)).map
          (fun r => (r.2, r.1.Valid, r.1.currPid, r.1.nextPid))
      = some (none, some false, some 2, some 3)
    ∧ iterate cmpItem 8 (pageDelta.opBasePage [itemC]) ItemPtr.MinItem ItemPtr.MaxItem true
      = some [(some itemC, true)]
    ∧ Iterator.traverse (storeOf pagesLeadingBare) 8 = some []
    ∧ Iterator.traverse (storeOf pagesPlain) 8 = some [some itemA1, some itemC] := by
  decide

/-- C12, the code at the failing input: a store whose every page read fails with the error
`e`.  `SeekFirst` and `Seek` change `currPid` only and return the `err` the iterator had, nil
on a new iterator; and on the pages `[a]` then a page whose read fails with error 5, the
`Next` that leaves page 1 returns nil, and so does the `SeekFirst` after it. -/
theorem read_error_not_returned {α ε : Type} (s : Store α ε) (e : ε) (fuel : Nat)
    (itr : Iterator α ε) (itm : α) :
    Iterator.SeekFirst ⟨s.cmp, fun _ => Except.error e, s.HeadNode, s.Lookup, s.nilItm⟩
        fuel itr
      = some ({ itr with currPid := some s.HeadNode }, itr.err)
    ∧ (Iterator.SeekFirst ⟨s.cmp, fun _ => Except.error e, s.HeadNode, s.Lookup, s.nilItm⟩
        fuel (Iterator.fresh : Iterator α ε)).map (fun r => r.2) = some none
    ∧ (Iterator.Seek ⟨s.cmp, fun _ => Except.error e, s.HeadNode, s.Lookup, s.nilItm⟩
        fuel (Iterator.fresh : Iterator α ε) itm).map (fun r => r.2) = some none
    ∧ ((Iterator.SeekFirst (storeOf pagesReadFails) 8 Iterator.fresh).bind
        (fun r => Iterator.Next (storeOf pagesReadFails) 8 r.1)).map
          (fun r => (r.2, r.1.currPid))
      = some (none, some 2)
    ∧ (((Iterator.SeekFirst (storeOf pagesReadFails) 8 Iterator.fresh).bind
        (fun r => Iterator.Next (storeOf pagesReadFails) 8 r.1)).bind
          (fun r => Iterator.SeekFirst (storeOf pagesReadFails) 8 r.1)).map (fun r => r.2)
      = some none := by
  refine ⟨?_, ?_, ?_, ?_, ?_⟩
  · simp [Iterator.SeekFirst, Iterator.initPgIterator]
  · simp [Iterator.SeekFirst, Iterator.initPgIterator, Iterator.fresh]
  · simp [Iterator.Seek, Iterator.initPgIterator, Iterator.fresh]
  · decide
  · decide

/-- C17, the code at the failing input: a store whose every page is read without error and
is empty.  `SeekFirst` and `Seek` on a new iterator return no error, and `Valid()` then calls
a method of the nil `currPgItr` and panics (`none`); on any iterator they leave `currPgItr`
as it was.  On the pages `[a]` and an empty page 2, after `SeekFirst` has positioned the
iterator on `a`, a `Seek` that lands on page 2 returns no error and leaves `Valid()` true and
`Get()` at `a`. -/
theorem empty_page_keeps_iterator {α ε : Type} (s : Store α ε) (head : pageDelta α)
    (hi : α) (nxt : Option PageId) (fuel : Nat) (itr : Iterator α ε) (itm : α) :
    (Iterator.SeekFirst
        ⟨s.cmp, fun _ => Except.ok ⟨head, hi, nxt, true⟩, s.HeadNode, s.Lookup, s.nilItm⟩
        fuel (Iterator.fresh : Iterator α ε)).map (fun r => (r.2, r.1.Valid))
      = some (none, none)
    ∧ (Iterator.Seek
        ⟨s.cmp, fun _ => Except.ok ⟨head, hi, nxt, true⟩, s.HeadNode, s.Lookup, s.nilItm⟩
        fuel (Iterator.fresh : Iterator α ε) itm).map (fun r => (r.2, r.1.Valid))
      = some (none, none)
    ∧ (Iterator.SeekFirst
        ⟨s.cmp, fun _ => Except.ok ⟨head, hi, nxt, true⟩, s.HeadNode, s.Lookup, s.nilItm⟩
        fuel itr).map (fun r => (r.2, r.1.currPgItr, r.1.nextPid))
      = some (none, itr.currPgItr, itr.nextPid)
    ∧ ((Iterator.SeekFirst (storeOf pagesSecondEmpty) 8 Iterator.fresh).bind
        (fun r => Iterator.Seek (storeOf pagesSecondEmpty) 8 r.1 itemC)).map
          (fun r => (r.2, r.1.currPid, r.1.Valid, r.1.Get))
      = some (none, some 2, some true, some (some itemA1)) := by
  refine ⟨?_, ?_, ?_, ?_⟩
  · simp [Iterator.SeekFirst, Iterator.initPgIterator, Iterator.fresh, Iterator.Valid]
  · simp [Iterator.Seek, Iterator.initPgIterator, Iterator.fresh, Iterator.Valid]
  · simp [Iterator.SeekFirst, Iterator.initPgIterator]
  · decide

end Plasma
